import Mathlib

/-!
# Verification of the settings-merge engine of `install.py`

This file gives a shallow embedding of the settings-merge core of the
repository's `install.py` (`dedupe_hooks`, `merge_settings`) and proves the
spec's claims about it.

Python values are modelled by `PVal` (JSON-like values; Python dicts become
insertion-ordered association lists with string keys, as produced by
`json.loads`).  Statements that can raise Python exceptions are modelled in
`Except PyErr`: `AttributeError` (calling `.items()` / `.get` on a non-dict),
`KeyError` (subscript lookup of a missing key), `TypeError` (iterating a
non-iterable, or using an unhashable value as a set/dict key).
-/
set_option autoImplicit false

/-! ## Definitions -/

/-- A Python value as it appears in the settings documents handled by
`install.py`: JSON scalars, lists, and insertion-ordered dicts with string
keys. -/
inductive PVal where
  | null : PVal
  | bool (b : Bool) : PVal
  | int (n : Int) : PVal
  | str (s : String) : PVal
  | list (xs : List PVal) : PVal
  | dict (entries : List (String × PVal)) : PVal

/-- Python exceptions that the merge engine can raise. -/
inductive PyErr where
  | attributeError : PyErr
  | keyError : PyErr
  | typeError : PyErr
  deriving DecidableEq, Repr

abbrev PRes (α : Type) : Type := Except PyErr α

namespace PVal

/-- `d[k]` lookup in an insertion-ordered dict, as an `Option`. -/
def lookupKey : List (String × PVal) → String → Option PVal
  | [], _ => none
  | (k, v) :: rest, key => if k = key then some v else lookupKey rest key

/-- `k in d` membership test. -/
def hasKeyL (es : List (String × PVal)) (k : String) : Bool :=
  (lookupKey es k).isSome

/-- `d[k] = v` assignment: updates the value in place if the key is present
(keeping its insertion position), otherwise appends the new key at the end —
exactly Python dict assignment semantics. -/
def setKeyL : List (String × PVal) → String → PVal → List (String × PVal)
  | [], key, v => [(key, v)]
  | (k, v') :: rest, key, v =>
      if k = key then (k, v) :: rest else (k, v') :: setKeyL rest key v

/-- `d.get(k, default)` on a dict body. -/
def getD (es : List (String × PVal)) (k : String) (d : PVal) : PVal :=
  (lookupKey es k).getD d

/-- `value.items()`: succeeds only on a dict, otherwise Python raises
`AttributeError`. -/
def itemsE : PVal → PRes (List (String × PVal))
  | .dict es => .ok es
  | _ => .error .attributeError

/-- The sequence of elements `list.extend(v)` appends: a list contributes its
elements, a string its one-character substrings, a dict its keys; scalars are
not iterable and raise `TypeError`. -/
def iterE : PVal → PRes (List PVal)
  | .list xs => .ok xs
  | .str s => .ok (s.toList.map fun c => .str (String.mk [c]))
  | .dict es => .ok (es.map fun kv => .str kv.1)
  | _ => .error .typeError

/-- Whether a value may be used as a set element or dict key in Python
(lists and dicts are unhashable). -/
def hashable : PVal → Bool
  | .list _ => false
  | .dict _ => false
  | _ => true

/-- Python `==` as used by the merge engine.  Every equality test in
`merge_settings`/`dedupe_hooks` (set membership, `dict.fromkeys`, dict-key
lookup in `by_matcher`) happens after Python has hashed the value, so only
hashable (scalar) values ever reach an equality test; on those `peq` agrees
with Python `==` except that we keep `True`/`1` distinct (the documents at
hand only compare strings). -/
def peq : PVal → PVal → Bool
  | .null, .null => true
  | .bool a, .bool b => a == b
  | .int a, .int b => a == b
  | .str a, .str b => a == b
  | _, _ => false

/-- `x in l` membership for Python sets/dict-key views, restricted as `peq`. -/
def pmem (x : PVal) (l : List PVal) : Bool :=
  l.any fun y => peq y x

end PVal

open PVal in
/-- Body of `dedupe_hooks` (src/install.py:295-304): walk `hook_list` keeping
a `seen` set of command keys; `key = hook.get('command', '')` raises
`AttributeError` on a non-dict element, and an unhashable key raises
`TypeError` at the `key not in seen` test. -/
def dedupeGo : List PVal → List PVal → PRes (List PVal)
  | _, [] => .ok []
  | seen, hook :: rest => do
      let key ←
        match hook with
        | .dict es => Except.ok (getD es "command" (.str ""))
        | _ => Except.error .attributeError
      if hashable key then
        if pmem key seen then
          dedupeGo seen rest
        else do
          let tail ← dedupeGo (key :: seen) rest
          Except.ok (hook :: tail)
      else
        Except.error .typeError

/-- `dedupe_hooks(hook_list)`: remove duplicate hooks based on `command`
(src/install.py:295-304). -/
def dedupe_hooks (hook_list : List PVal) : PRes (List PVal) :=
  dedupeGo [] hook_list

open PVal in
/-- The inner loop `for hook_type, hook_list in value.items()` of the
`'hooks'` branch of `merge_settings` (src/install.py:316-319), acting on the
dict stored at `result['hooks']`.  `result['hooks'][hook_type]` is always a
list by construction; a non-list there would make Python's `.extend` raise,
which the unreachable error branches mirror. -/
def hookTypesStep : List (String × PVal) → List (String × PVal) →
    PRes (List (String × PVal))
  | hv, [] => .ok hv
  | hv, (hook_type, hook_list) :: rest => do
      let hv := if hasKeyL hv hook_type then hv else setKeyL hv hook_type (.list [])
      let cur ←
        match lookupKey hv hook_type with
        | some (.list cur) => Except.ok cur
        | some _ => Except.error .attributeError
        | none => Except.error .keyError
      let ext ← iterE hook_list
      hookTypesStep (setKeyL hv hook_type (.list (cur ++ ext))) rest

open PVal in
/-- The inner loop `for perm_type, perm_list in value.items()` of the
`'permissions'` branch of `merge_settings` (src/install.py:323-324):
`result['permissions'][perm_type]` raises `KeyError` when `perm_type` is not
a key of the accumulator (which holds exactly `allow`/`deny`/`ask`). -/
def permTypesStep : List (String × PVal) → List (String × PVal) →
    PRes (List (String × PVal))
  | pv, [] => .ok pv
  | pv, (perm_type, perm_list) :: rest => do
      let cur ←
        match lookupKey pv perm_type with
        | some (.list cur) => Except.ok cur
        | some _ => Except.error .attributeError
        | none => Except.error .keyError
      let ext ← iterE perm_list
      permTypesStep (setKeyL pv perm_type (.list (cur ++ ext))) rest

open PVal in
/-- One iteration batch of the outer fold of `merge_settings`
(src/install.py:311-326): process the `(key, value)` items of one input
document against the accumulated `result`. -/
def topEntriesStep : List (String × PVal) → List (String × PVal) →
    PRes (List (String × PVal))
  | r, [] => .ok r
  | r, (key, value) :: rest => do
      let r ←
        if key = "hooks" then do
          let r := if hasKeyL r "hooks" then r else setKeyL r "hooks" (.dict [])
          let hv ←
            match lookupKey r "hooks" with
            | some (.dict hv) => Except.ok hv
            | _ => Except.error .typeError
          let hitems ← itemsE value
          let hv ← hookTypesStep hv hitems
          Except.ok (setKeyL r "hooks" (.dict hv))
        else if key = "permissions" then do
          let r :=
            if hasKeyL r "permissions" then r
            else
              setKeyL r "permissions"
                (.dict [("allow", .list []), ("deny", .list []), ("ask", .list [])])
          let pv ←
            match lookupKey r "permissions" with
            | some (.dict pv) => Except.ok pv
            | _ => Except.error .typeError
          let pitems ← itemsE value
          let pv ← permTypesStep pv pitems
          Except.ok (setKeyL r "permissions" (.dict pv))
        else
          Except.ok (setKeyL r key value)
      topEntriesStep r rest

open PVal in
/-- The outer fold `for settings in settings_dicts: for key, value in
settings.items(): ...` of `merge_settings` (src/install.py:311-326). -/
def mergeFold : List (String × PVal) → List PVal → PRes (List (String × PVal))
  | r, [] => .ok r
  | r, doc :: rest => do
      let items ← itemsE doc
      let r ← topEntriesStep r items
      mergeFold r rest

open PVal in
/-- `by_matcher[m]` lookup: `by_matcher` is an insertion-ordered Python dict
keyed by (hashable) Python values. -/
def lookupPK : List (PVal × List PVal) → PVal → Option (List PVal)
  | [], _ => none
  | (k, v) :: rest, key => if PVal.peq k key then some v else lookupPK rest key

open PVal in
/-- `by_matcher[m] = v` assignment: update in place when present, else append. -/
def setPK : List (PVal × List PVal) → PVal → List PVal →
    List (PVal × List PVal)
  | [], key, v => [(key, v)]
  | (k, v') :: rest, key, v =>
      if PVal.peq k key then (k, v) :: rest else (k, v') :: setPK rest key v

open PVal in
/-- The `by_matcher` grouping loop of `merge_settings` (src/install.py:332-337):
`matcher = entry.get('matcher', '')` (AttributeError on non-dict entries), an
unhashable matcher raises `TypeError` at the `matcher not in by_matcher` test,
then the group list is extended with `entry.get('hooks', [])`. -/
def byMatcherStep : List (PVal × List PVal) → List PVal →
    PRes (List (PVal × List PVal))
  | bm, [] => .ok bm
  | bm, entry :: rest => do
      let es ←
        match entry with
        | .dict es => Except.ok es
        | _ => Except.error .attributeError
      let matcher := getD es "matcher" (.str "")
      if hashable matcher then
        let bm := if (lookupPK bm matcher).isSome then bm else setPK bm matcher []
        let cur := (lookupPK bm matcher).getD []
        let ext ← iterE (getD es "hooks" (.list []))
        byMatcherStep (setPK bm matcher (cur ++ ext)) rest
      else
        Except.error .typeError

open PVal in
/-- The rebuild `[{'matcher': matcher, 'hooks': dedupe_hooks(hooks)} for
matcher, hooks in by_matcher.items()]` (src/install.py:339-342). -/
def rebuildGroups : List (PVal × List PVal) → PRes (List PVal)
  | [] => .ok []
  | (m, hs) :: rest => do
      let dh ← dedupe_hooks hs
      let tail ← rebuildGroups rest
      Except.ok (.dict [("matcher", m), ("hooks", .list dh)] :: tail)

open PVal in
/-- The per-hook-type dedup pass (src/install.py:329-342): iterate the keys of
`result['hooks']` in insertion order, regrouping each stored list in place. -/
def regroupHooksVals : List (String × PVal) → PRes (List (String × PVal))
  | [] => .ok []
  | (t, v) :: rest => do
      let entries ←
        match v with
        | .list es => Except.ok es
        | _ => Except.error .typeError
      let bm ← byMatcherStep [] entries
      let gs ← rebuildGroups bm
      let tail ← regroupHooksVals rest
      Except.ok ((t, .list gs) :: tail)

open PVal in
/-- `list(dict.fromkeys(xs))`: first-occurrence dedup; an unhashable element
raises `TypeError`. -/
def fromkeysList : List PVal → List PVal → PRes (List PVal)
  | _, [] => .ok []
  | seen, x :: rest =>
      if hashable x then
        if pmem x seen then
          fromkeysList seen rest
        else do
          let tail ← fromkeysList (x :: seen) rest
          Except.ok (x :: tail)
      else
        Except.error .typeError

open PVal in
/-- The permissions dedup pass (src/install.py:345-347): for each key of
`result['permissions']`, replace its list by `list(dict.fromkeys(...))`. -/
def dedupePermsVals : List (String × PVal) → PRes (List (String × PVal))
  | [] => .ok []
  | (p, v) :: rest => do
      let xs ←
        match v with
        | .list xs => Except.ok xs
        | _ => Except.error .typeError
      let d ← fromkeysList [] xs
      let tail ← dedupePermsVals rest
      Except.ok ((p, .list d) :: tail)

open PVal in
/-- `merge_settings(*settings_dicts)` (src/install.py:307-349): fold all
documents into `result`, then run the hooks regroup/dedup pass and the
permissions dedup pass.  Each `settings` argument must be a dict
(`settings.items()`), and the result is returned as a dict value. -/
def merge_settings (docs : List PVal) : PRes PVal := do
  let r ← mergeFold [] docs
  let r ←
    match lookupKey r "hooks" with
    | some hval => do
        let hv ←
          match hval with
          | .dict hv => Except.ok hv
          | _ => Except.error .typeError
        let hv ← regroupHooksVals hv
        Except.ok (setKeyL r "hooks" (.dict hv))
    | none => Except.ok r
  let r ←
    match lookupKey r "permissions" with
    | some pval => do
        let pv ←
          match pval with
          | .dict pv => Except.ok pv
          | _ => Except.error .typeError
        let pv ← dedupePermsVals pv
        Except.ok (setKeyL r "permissions" (.dict pv))
    | none => Except.ok r
  Except.ok (.dict r)

/-! ## Pure mirror of the merge

On structurally valid documents the engine raises no exception; the following
total functions compute the same results, with `asListD`/`asDictD` standing in
for the always-successful coercions.  `merge_settings_refines` below proves the
correspondence. -/

namespace PVal

/-- View a value as a list (valid positions always hold a list). -/
def asListD : PVal → List PVal
  | .list xs => xs
  | _ => []

/-- View a value as dict items (valid positions always hold a dict). -/
def asDictD : PVal → List (String × PVal)
  | .dict es => es
  | _ => []

/-- Whether a value is a list. -/
def isListVal : PVal → Bool
  | .list _ => true
  | _ => false

/-- Whether a value is a string. -/
def isStr : PVal → Bool
  | .str _ => true
  | _ => false

/-- `entry.get('matcher', '')` of a matcher group. -/
def matcherOf : PVal → PVal
  | .dict es => getD es "matcher" (.str "")
  | _ => .str ""

/-- The hook entries `entry.get('hooks', [])` of a matcher group. -/
def entriesOf : PVal → List PVal
  | .dict es => asListD (getD es "hooks" (.list []))
  | _ => []

/-- The dedup identity `hook.get('command', '')` of a hook entry. -/
def ckey : PVal → PVal
  | .dict es => getD es "command" (.str "")
  | _ => .str ""

end PVal

open PVal in
/-- Generic first-occurrence dedup keyed by `key`, with an explicit `seen`
set: the common shape of `dedupe_hooks` (key = `ckey`) and
`list(dict.fromkeys(...))` (key = identity). -/
def dedupBy (key : PVal → PVal) : List PVal → List PVal → List PVal
  | _, [] => []
  | seen, x :: rest =>
      if pmem (key x) seen then dedupBy key seen rest
      else x :: dedupBy key (key x :: seen) rest

open PVal in
/-- Pure mirror of `hookTypesStep`. -/
def hookTypesStepP : List (String × PVal) → List (String × PVal) →
    List (String × PVal)
  | hv, [] => hv
  | hv, (hook_type, hook_list) :: rest =>
      let cur := asListD (getD hv hook_type (.list []))
      hookTypesStepP (setKeyL hv hook_type (.list (cur ++ asListD hook_list))) rest

open PVal in
/-- Pure mirror of `permTypesStep`. -/
def permTypesStepP : List (String × PVal) → List (String × PVal) →
    List (String × PVal)
  | pv, [] => pv
  | pv, (perm_type, perm_list) :: rest =>
      let cur := asListD (getD pv perm_type (.list []))
      permTypesStepP (setKeyL pv perm_type (.list (cur ++ asListD perm_list))) rest

/-- The fresh accumulator `{'allow': [], 'deny': [], 'ask': []}`. -/
def permsInit : List (String × PVal) :=
  [("allow", .list []), ("deny", .list []), ("ask", .list [])]

open PVal in
/-- Pure mirror of `topEntriesStep`. -/
def topEntriesStepP : List (String × PVal) → List (String × PVal) →
    List (String × PVal)
  | r, [] => r
  | r, (key, value) :: rest =>
      let r :=
        if key = "hooks" then
          let r := if hasKeyL r "hooks" then r else setKeyL r "hooks" (.dict [])
          let hv := asDictD (getD r "hooks" (.dict []))
          setKeyL r "hooks" (.dict (hookTypesStepP hv (asDictD value)))
        else if key = "permissions" then
          let r :=
            if hasKeyL r "permissions" then r
            else setKeyL r "permissions" (.dict permsInit)
          let pv := asDictD (getD r "permissions" (.dict []))
          setKeyL r "permissions" (.dict (permTypesStepP pv (asDictD value)))
        else setKeyL r key value
      topEntriesStepP r rest

open PVal in
/-- Pure mirror of `mergeFold`. -/
def mergeFoldP : List (String × PVal) → List PVal → List (String × PVal)
  | r, [] => r
  | r, doc :: rest => mergeFoldP (topEntriesStepP r (asDictD doc)) rest

open PVal in
/-- Pure mirror of `byMatcherStep`. -/
def byMatcherStepP : List (PVal × List PVal) → List PVal →
    List (PVal × List PVal)
  | bm, [] => bm
  | bm, entry :: rest =>
      let m := matcherOf entry
      let bm := if (lookupPK bm m).isSome then bm else setPK bm m []
      let cur := (lookupPK bm m).getD []
      byMatcherStepP (setPK bm m (cur ++ entriesOf entry)) rest

open PVal in
/-- Pure mirror of `rebuildGroups`. -/
def rebuildGroupsP (bm : List (PVal × List PVal)) : List PVal :=
  bm.map fun kv => .dict [("matcher", kv.1), ("hooks", .list (dedupBy ckey [] kv.2))]

open PVal in
/-- Pure regrouping of one hook type's concatenated matcher-group list. -/
def regroupTypeP (entries : List PVal) : List PVal :=
  rebuildGroupsP (byMatcherStepP [] entries)

open PVal in
/-- Pure mirror of `regroupHooksVals`. -/
def regroupHooksValsP (hv : List (String × PVal)) : List (String × PVal) :=
  hv.map fun kv => (kv.1, .list (regroupTypeP (asListD kv.2)))

open PVal in
/-- Pure mirror of `dedupePermsVals`. -/
def dedupePermsValsP (pv : List (String × PVal)) : List (String × PVal) :=
  pv.map fun kv => (kv.1, .list (dedupBy (fun x => x) [] (asListD kv.2)))

open PVal in
/-- The top-level association list of the pure merge result. -/
def mergePureTop (docs : List PVal) : List (String × PVal) :=
  let r := mergeFoldP [] docs
  let r :=
    match lookupKey r "hooks" with
    | some hval => setKeyL r "hooks" (.dict (regroupHooksValsP (asDictD hval)))
    | none => r
  let r :=
    match lookupKey r "permissions" with
    | some pval => setKeyL r "permissions" (.dict (dedupePermsValsP (asDictD pval)))
    | none => r
  r

open PVal in
/-- Pure mirror of `merge_settings`. -/
def mergePure (docs : List PVal) : PVal :=
  .dict (mergePureTop docs)

/-! ## Structural validity

`validDoc` is the shape the spec's data model (§3) prescribes: string
matchers, string commands, string permission entries, permission sub-keys
among `allow`/`deny`/`ask`, and genuine Python dicts (no duplicate keys).
Values at unrecognized top-level keys are unconstrained. -/
/-- No duplicate keys (Python dicts cannot have them). -/
def nodupStr : List String → Bool
  | [] => true
  | x :: xs => !xs.contains x && nodupStr xs

open PVal in
/-- A structurally valid hook entry: a dict whose `command`, if present, is a
string. -/
def validEntry : PVal → Bool
  | .dict es =>
      nodupStr (es.map Prod.fst) &&
      (match lookupKey es "command" with
       | some v => isStr v
       | none => true)
  | _ => false

open PVal in
/-- A structurally valid matcher group: a dict whose `matcher`, if present,
is a string, and whose `hooks`, if present, is a list of valid entries. -/
def validGroup : PVal → Bool
  | .dict es =>
      nodupStr (es.map Prod.fst) &&
      (match lookupKey es "matcher" with
       | some v => isStr v
       | none => true) &&
      (match lookupKey es "hooks" with
       | some (.list entries) => entries.all validEntry
       | some _ => false
       | none => true)
  | _ => false

open PVal in
/-- A structurally valid `hooks` section: hook types map to lists of valid
matcher groups. -/
def validHooksVal : PVal → Bool
  | .dict es =>
      nodupStr (es.map Prod.fst) &&
      es.all fun kv =>
        match kv.2 with
        | .list gs => gs.all validGroup
        | _ => false
  | _ => false

open PVal in
/-- A structurally valid `permissions` section: sub-keys among
`allow`/`deny`/`ask`, values lists of strings. -/
def validPermsVal : PVal → Bool
  | .dict es =>
      nodupStr (es.map Prod.fst) &&
      es.all fun kv =>
        (kv.1 = "allow" || kv.1 = "deny" || kv.1 = "ask") &&
        (match kv.2 with
         | .list ss => ss.all isStr
         | _ => false)
  | _ => false

open PVal in
/-- A structurally valid settings document. -/
def validDoc : PVal → Bool
  | .dict es =>
      nodupStr (es.map Prod.fst) &&
      es.all fun kv =>
        if kv.1 = "hooks" then validHooksVal kv.2
        else if kv.1 = "permissions" then validPermsVal kv.2
        else true
  | _ => false

/-! ## Association-list lemmas -/

/-- Invariant of the `result['hooks']` accumulator during the fold: every
value is a list of structurally valid matcher groups. -/
def hooksAccOk (hv : List (String × PVal)) : Bool :=
  hv.all fun kv =>
    match kv.2 with
    | .list gs => gs.all validGroup
    | _ => false

/-- Invariant of the `result['permissions']` accumulator during the fold:
exactly the three keys `allow`/`deny`/`ask` (in creation order), each holding
a list of strings. -/
def permsAccOk : List (String × PVal) → Bool
  | [("allow", .list a), ("deny", .list d), ("ask", .list k)] =>
      a.all PVal.isStr && d.all PVal.isStr && k.all PVal.isStr
  | _ => false

open PVal in
/-- Invariant of the whole `result` accumulator during the fold. -/
def stateOk (r : List (String × PVal)) : Bool :=
  (match lookupKey r "hooks" with
   | none => true
   | some (.dict hv) => hooksAccOk hv
   | some _ => false) &&
  (match lookupKey r "permissions" with
   | none => true
   | some (.dict pv) => permsAccOk pv
   | some _ => false)

open PVal in
/-- The elements contributed to the accumulator for sub-key `p` by one
document's items. -/
def collectP (items : List (String × PVal)) (p : String) : List PVal :=
  (items.filter fun kv => kv.1 = p).flatMap fun kv => PVal.asListD kv.2

/-- The per-item validity required of one document's items by the fold. -/
def validItems (items : List (String × PVal)) : Bool :=
  items.all fun kv =>
    if kv.1 = "hooks" then validHooksVal kv.2
    else if kv.1 = "permissions" then validPermsVal kv.2
    else true

/-- The matcher-group items contributed under `hooks` by one document's
top-level items. -/
def hookItemsIn (items : List (String × PVal)) : List (String × PVal) :=
  (items.filter fun kv => kv.1 = "hooks").flatMap fun kv => PVal.asDictD kv.2

/-- The permission items contributed under `permissions` by one document's
top-level items. -/
def permItemsIn (items : List (String × PVal)) : List (String × PVal) :=
  (items.filter fun kv => kv.1 = "permissions").flatMap fun kv => PVal.asDictD kv.2

/-- All matcher-group items contributed under `hooks` across the input
documents, in fold order. -/
def allHookItems (docs : List PVal) : List (String × PVal) :=
  docs.flatMap fun d => hookItemsIn (PVal.asDictD d)

/-- All permission items contributed under `permissions` across the input
documents, in fold order. -/
def allPermItems (docs : List PVal) : List (String × PVal) :=
  docs.flatMap fun d => permItemsIn (PVal.asDictD d)

/-- Whether some input document carries the given top-level key. -/
def anyHasKey (docs : List PVal) (k : String) : Bool :=
  docs.any fun d => PVal.hasKeyL (PVal.asDictD d) k

/-- Last-writer-wins value of an opaque top-level key across the fold. -/
def lastValueOf (docs : List PVal) (k : String) : Option PVal :=
  (docs.flatMap PVal.asDictD).foldl
    (fun acc kv => if kv.1 = k then some kv.2 else acc) none

/-- The `seen` set after first-occurrence-processing `xs`. -/
def keyAcc (key : PVal → PVal) (seen : List PVal) (xs : List PVal) :
    List PVal :=
  xs.foldl (fun s x => if PVal.pmem (key x) s then s else key x :: s) seen

/-! ## Characterization of the by-matcher grouping -/
/-- First-occurrence dedup of Python values (as `list(dict.fromkeys(...))`). -/
def pdedup (l : List PVal) : List PVal := dedupBy (fun x => x) [] l

/-- All hook entries of the groups with the given matcher, in arrival order. -/
def collectEnt (entries : List PVal) (m : PVal) : List PVal :=
  (entries.filter fun e => PVal.peq (PVal.matcherOf e) m).flatMap PVal.entriesOf

/-- No duplicate Python-value keys, under Python equality. -/
def nodupP : List PVal → Bool
  | [] => true
  | x :: xs => !PVal.pmem x xs && nodupP xs

/-- The concatenated matcher-group list accumulated for hook type `t`. -/
def groupsFor (docs : List PVal) (t : String) : List PVal :=
  ((allHookItems docs).filter fun kv => kv.1 = t).flatMap
    fun kv => PVal.asListD kv.2

/-- The hooks dict of the merged output (given some input carries `hooks`). -/
def mergedHooksDict (docs : List PVal) : List (String × PVal) :=
  regroupHooksValsP (hookTypesStepP [] (allHookItems docs))

/-- The merged matcher-group list of one hook type, in specification form. -/
def mergedGroups (docs : List PVal) (t : String) : List PVal :=
  (pdedup ((groupsFor docs t).map PVal.matcherOf)).map fun m =>
    PVal.dict [("matcher", m),
      ("hooks", .list (dedupBy PVal.ckey [] (collectEnt (groupsFor docs t) m)))]

/-- The merged permission list of one sub-key, in specification form. -/
def mergedPermsList (docs : List PVal) (p : String) : List PVal :=
  pdedup (collectP (allPermItems docs) p)

/-- The empty settings document `{}`. -/
def exEmpty : PVal := .dict []

/-- A hook entry as produced by the fragment producer. -/
def exHookEntry (cmd msg : String) : PVal :=
  .dict [("type", .str "command"), ("command", .str cmd),
         ("statusMessage", .str msg)]

/-- A one-hook fragment on matcher `Bash` under `PreToolUse`. -/
def exHookFrag (cmd msg : String) : PVal :=
  .dict [("hooks", .dict [("PreToolUse",
    .list [.dict [("matcher", .str "Bash"),
                  ("hooks", .list [exHookEntry cmd msg])]])])]

/-- A permissions fragment with the given `allow` list. -/
def exPermFrag (ss : List String) : PVal :=
  .dict [("permissions", .dict [("allow", .list (ss.map PVal.str))])]

/-! ## Error propagation: unknown permission sub-keys -/
open PVal in
/-- The body of one `(key, value)` iteration of the outer fold
(src/install.py:312-326), factored out of `topEntriesStep` (to which it is
definitionally equal, see `topEntriesStep_cons`) so the error analysis can
case on its result. -/
def topStep1 (r : List (String × PVal)) (key : String) (value : PVal) :
    PRes (List (String × PVal)) :=
  if key = "hooks" then do
    let r := if hasKeyL r "hooks" then r else setKeyL r "hooks" (.dict [])
    let hv ←
      match lookupKey r "hooks" with
      | some (.dict hv) => Except.ok hv
      | _ => Except.error .typeError
    let hitems ← itemsE value
    let hv ← hookTypesStep hv hitems
    Except.ok (setKeyL r "hooks" (.dict hv))
  else if key = "permissions" then do
    let r :=
      if hasKeyL r "permissions" then r
      else
        setKeyL r "permissions"
          (.dict [("allow", .list []), ("deny", .list []), ("ask", .list [])])
    let pv ←
      match lookupKey r "permissions" with
      | some (.dict pv) => Except.ok pv
      | _ => Except.error .typeError
    let pitems ← itemsE value
    let pv ← permTypesStep pv pitems
    Except.ok (setKeyL r "permissions" (.dict pv))
  else
    Except.ok (setKeyL r key value)

open PVal in
/-- Accumulator invariant for the error analysis: whenever the `permissions`
key is present in the fold accumulator, its value is a dict whose keys are
exactly `allow`, `deny`, `ask`, in that order. -/
def permsKeys3 (r : List (String × PVal)) : Bool :=
  match PVal.lookupKey r "permissions" with
  | none => true
  | some (.dict pv) => pv.map Prod.fst == ["allow", "deny", "ask"]
  | some _ => false

/-! ## Canonical form and the no-op merge fixed point -/
open PVal in
/-- A canonical matcher group — the exact shape the merge itself emits:
`{'matcher': m, 'hooks': [...]}` with a string matcher and command-distinct
valid entries. -/
def canonicalGroup : PVal → Bool
  | .dict [("matcher", m), ("hooks", .list entries)] =>
      isStr m && entries.all validEntry && nodupP (entries.map ckey)
  | _ => false

open PVal in
/-- A canonical `hooks` section: hook types map to lists of canonical groups
with pairwise-distinct matchers. -/
def canonicalHooksVal : PVal → Bool
  | .dict es =>
      nodupStr (es.map Prod.fst) &&
      es.all fun kv =>
        match kv.2 with
        | .list gs => gs.all canonicalGroup && nodupP (gs.map matcherOf)
        | _ => false
  | _ => false

open PVal in
/-- A canonical `permissions` section: exactly the three sub-keys in creation
order, each a duplicate-free list of strings. -/
def canonicalPermsVal : PVal → Bool
  | .dict [("allow", .list a), ("deny", .list d), ("ask", .list k)] =>
      a.all isStr && nodupP a && d.all isStr && nodupP d &&
      k.all isStr && nodupP k
  | _ => false

open PVal in
/-- A canonical settings document (the merge's own output shape). -/
def canonicalDoc : PVal → Bool
  | .dict es =>
      nodupStr (es.map Prod.fst) &&
      es.all fun kv =>
        if kv.1 = "hooks" then canonicalHooksVal kv.2
        else if kv.1 = "permissions" then canonicalPermsVal kv.2
        else true
  | _ => false

open PVal in
/-- What one fold step stores for an item of a document whose keys are all
fresh in the accumulator. -/
def canonStep (kv : String × PVal) : String × PVal :=
  if kv.1 = "hooks" then
    (kv.1, .dict (hookTypesStepP [] (asDictD kv.2)))
  else if kv.1 = "permissions" then
    (kv.1, .dict (permTypesStepP permsInit (asDictD kv.2)))
  else kv

/-- A concrete canonical document: one hook type with one group, a full
permissions section, and one opaque key. -/
def exCanonical : PVal :=
  .dict [("hooks", .dict [("PreToolUse",
      .list [.dict [("matcher", .str "Bash"),
        ("hooks", .list [exHookEntry "run-a" "A"])]])]),
    ("permissions", .dict [("allow", .list [.str "A"]),
      ("deny", .list []), ("ask", .list [])]),
    ("theme", .str "dark")]

/-- The sequence of distinct keys accumulated by one document pass. -/
def keyFold (ks : List String) (items : List (String × PVal)) :
    List String :=
  items.foldl (fun acc kv => if acc.contains kv.1 then acc
    else acc ++ [kv.1]) ks

/-! ## Theorems -/

namespace PVal

theorem peq_refl {a : PVal} (ha : hashable a = true) : peq a a = true := by
  cases a <;> simp_all [peq, hashable]

theorem eq_of_peq {a b : PVal} (h : peq a b = true) : a = b := by
  cases a <;> cases b <;> simp_all [peq]

theorem peq_iff_eq {a b : PVal} (ha : hashable a = true) :
    peq a b = true ↔ a = b := by
  constructor
  · exact eq_of_peq
  · rintro rfl; exact peq_refl ha

theorem lookupKey_setKeyL_self (es : List (String × PVal)) (k : String) (v : PVal) :
    lookupKey (setKeyL es k v) k = some v := by
  induction es with
  | nil => simp [setKeyL, lookupKey]
  | cons kv rest ih =>
      obtain ⟨k', v'⟩ := kv
      by_cases h : k' = k
      · subst h; simp [setKeyL, lookupKey]
      · simp [setKeyL, lookupKey, h, ih]

theorem lookupKey_setKeyL_ne (es : List (String × PVal)) (k : String) (v : PVal)
    (k' : String) (h : k' ≠ k) :
    lookupKey (setKeyL es k v) k' = lookupKey es k' := by
  induction es with
  | nil => simp [setKeyL, lookupKey, Ne.symm h]
  | cons kv rest ih =>
      obtain ⟨k₀, v₀⟩ := kv
      by_cases h₀ : k₀ = k
      · subst h₀
        simp [setKeyL, lookupKey, Ne.symm h]
      · simp [setKeyL, lookupKey, h₀]
        split <;> simp_all

theorem keysOf_setKeyL (es : List (String × PVal)) (k : String) (v : PVal) :
    (setKeyL es k v).map Prod.fst =
      if hasKeyL es k then es.map Prod.fst else es.map Prod.fst ++ [k] := by
  induction es with
  | nil => simp [setKeyL, hasKeyL, lookupKey]
  | cons kv rest ih =>
      obtain ⟨k₀, v₀⟩ := kv
      by_cases h₀ : k₀ = k
      · subst h₀; simp [setKeyL, hasKeyL, lookupKey]
      · have hcond : hasKeyL ((k₀, v₀) :: rest) k = hasKeyL rest k := by
          simp [hasKeyL, lookupKey, h₀]
        rw [hcond]
        simp only [setKeyL, if_neg h₀, List.map_cons]
        rw [ih]
        split <;> simp

theorem lookupKey_eq_none_iff (es : List (String × PVal)) (k : String) :
    lookupKey es k = none ↔ k ∉ es.map Prod.fst := by
  induction es with
  | nil => simp [lookupKey]
  | cons kv rest ih =>
      obtain ⟨k₀, v₀⟩ := kv
      by_cases h₀ : k₀ = k
      · subst h₀; simp [lookupKey]
      · simp [lookupKey, h₀, ih, Ne.symm h₀]

theorem hasKeyL_iff_mem (es : List (String × PVal)) (k : String) :
    hasKeyL es k = true ↔ k ∈ es.map Prod.fst := by
  induction es with
  | nil => simp [hasKeyL, lookupKey]
  | cons kv rest ih =>
      obtain ⟨k₀, v₀⟩ := kv
      by_cases h₀ : k₀ = k
      · subst h₀; simp [hasKeyL, lookupKey]
      · simp only [hasKeyL, lookupKey, if_neg h₀, List.map_cons, List.mem_cons] at ih ⊢
        rw [ih]
        constructor
        · exact Or.inr
        · rintro (h | h)
          · exact absurd h.symm h₀
          · exact h

theorem nodupStr_iff (l : List String) : nodupStr l = true ↔ l.Nodup := by
  induction l with
  | nil => simp [nodupStr]
  | cons x xs ih => simp [nodupStr, ih, List.elem_iff]

/-- Two association lists with the same key sequence, no duplicate keys, and
pointwise-equal lookups are equal. -/
theorem assoc_ext (r₁ r₂ : List (String × PVal))
    (hnd : nodupStr (r₁.map Prod.fst) = true)
    (hkeys : r₁.map Prod.fst = r₂.map Prod.fst)
    (hlook : ∀ k, lookupKey r₁ k = lookupKey r₂ k) : r₁ = r₂ := by
  induction r₁ generalizing r₂ with
  | nil =>
      cases r₂ with
      | nil => rfl
      | cons kv t => simp at hkeys
  | cons kv t₁ ih =>
      obtain ⟨k, v⟩ := kv
      cases r₂ with
      | nil => simp at hkeys
      | cons kv₂ t₂ =>
          obtain ⟨k₂, v₂⟩ := kv₂
          simp only [List.map_cons, List.cons.injEq] at hkeys
          obtain ⟨hk, ht⟩ := hkeys
          subst hk
          have hv : v = v₂ := by
            have := hlook k
            simp [lookupKey] at this
            exact this
          subst hv
          rw [nodupStr_iff, List.map_cons, List.nodup_cons] at hnd
          obtain ⟨hmem, hnd'⟩ := hnd
          have htails : t₁ = t₂ := by
            refine ih t₂ ((nodupStr_iff _).mpr hnd') ht ?_
            intro k'
            by_cases hk' : k' = k
            · subst hk'
              have h₁ : lookupKey t₁ k' = none := (lookupKey_eq_none_iff _ _).mpr hmem
              have h₂ : lookupKey t₂ k' = none := by
                rw [lookupKey_eq_none_iff, ← ht]; exact hmem
              rw [h₁, h₂]
            · have := hlook k'
              simp only [lookupKey, if_neg (Ne.symm hk')] at this
              exact this
          rw [htails]

end PVal

/-! ## Refinement: on valid input the engine never raises and computes the
pure mirror -/
@[simp] theorem ok_bind {α β : Type} (a : α) (f : α → PRes β) :
    (Except.ok a >>= f) = f a := rfl

@[simp] theorem error_bind {α β : Type} (e : PyErr) (f : α → PRes β) :
    ((Except.error e : PRes α) >>= f) = Except.error e := rfl

theorem hashable_of_isStr {v : PVal} (h : PVal.isStr v = true) :
    PVal.hashable v = true := by
  cases v <;> simp_all [PVal.isStr, PVal.hashable]

theorem hashable_ckey {e : PVal} (he : validEntry e = true) :
    PVal.hashable (PVal.ckey e) = true := by
  cases e with
  | dict es =>
      simp only [validEntry, Bool.and_eq_true] at he
      obtain ⟨-, hcmd⟩ := he
      cases h : PVal.lookupKey es "command" with
      | none => simp [PVal.ckey, PVal.getD, h, PVal.hashable]
      | some v =>
          simp only [h] at hcmd
          simp [PVal.ckey, PVal.getD, h, hashable_of_isStr hcmd]
  | null => simp [validEntry] at he
  | bool b => simp [validEntry] at he
  | int n => simp [validEntry] at he
  | str s => simp [validEntry] at he
  | list xs => simp [validEntry] at he

theorem dedupeGo_ok (hs : List PVal) : ∀ seen, hs.all validEntry = true →
    dedupeGo seen hs = .ok (dedupBy PVal.ckey seen hs) := by
  induction hs with
  | nil => intro seen _; rfl
  | cons hook rest ih =>
      intro seen h
      simp only [List.all_cons, Bool.and_eq_true] at h
      obtain ⟨hh, hrest⟩ := h
      have hkey := hashable_ckey hh
      cases hook with
      | dict es =>
          simp only [PVal.ckey] at hkey
          simp only [dedupeGo, dedupBy, PVal.ckey, ok_bind, hkey, if_true]
          by_cases hp : PVal.pmem (PVal.getD es "command" (.str "")) seen = true
          · simp only [hp, if_true]
            exact ih seen hrest
          · simp only [Bool.not_eq_true] at hp
            simp only [hp, Bool.false_eq_true, if_false]
            rw [ih _ hrest]
            rfl
      | null => simp [validEntry] at hh
      | bool b => simp [validEntry] at hh
      | int n => simp [validEntry] at hh
      | str s => simp [validEntry] at hh
      | list xs => simp [validEntry] at hh

theorem fromkeysList_ok (xs : List PVal) : ∀ seen, xs.all PVal.isStr = true →
    fromkeysList seen xs = .ok (dedupBy (fun x => x) seen xs) := by
  induction xs with
  | nil => intro seen _; rfl
  | cons x rest ih =>
      intro seen h
      simp only [List.all_cons, Bool.and_eq_true] at h
      obtain ⟨hx, hrest⟩ := h
      have hh := hashable_of_isStr hx
      simp only [fromkeysList, dedupBy, hh, if_true]
      by_cases hp : PVal.pmem x seen = true
      · simp only [hp, if_true]
        exact ih seen hrest
      · simp only [Bool.not_eq_true] at hp
        simp only [hp, Bool.false_eq_true, if_false]
        rw [ih _ hrest]
        rfl

theorem hashable_matcherOf {g : PVal} (hg : validGroup g = true) :
    PVal.hashable (PVal.matcherOf g) = true := by
  cases g with
  | dict es =>
      simp only [validGroup, Bool.and_eq_true] at hg
      obtain ⟨⟨-, hm⟩, -⟩ := hg
      cases h : PVal.lookupKey es "matcher" with
      | none => simp [PVal.matcherOf, PVal.getD, h, PVal.hashable]
      | some v =>
          simp only [h] at hm
          simp [PVal.matcherOf, PVal.getD, h, hashable_of_isStr hm]
  | null => simp [validGroup] at hg
  | bool b => simp [validGroup] at hg
  | int n => simp [validGroup] at hg
  | str s => simp [validGroup] at hg
  | list xs => simp [validGroup] at hg

theorem entriesOf_valid {g : PVal} (hg : validGroup g = true) :
    (PVal.entriesOf g).all validEntry = true := by
  cases g with
  | dict es =>
      simp only [validGroup, Bool.and_eq_true] at hg
      obtain ⟨-, hh⟩ := hg
      revert hh
      cases h : PVal.lookupKey es "hooks" with
      | none => intro hh; simp [PVal.entriesOf, PVal.getD, h, PVal.asListD]
      | some v =>
          intro hh
          cases v <;> simp_all [PVal.entriesOf, PVal.getD, h, PVal.asListD]
  | null => simp [validGroup] at hg
  | bool b => simp [validGroup] at hg
  | int n => simp [validGroup] at hg
  | str s => simp [validGroup] at hg
  | list xs => simp [validGroup] at hg

theorem iterE_hooksOf {es : List (String × PVal)}
    (hg : validGroup (.dict es) = true) :
    PVal.iterE (PVal.getD es "hooks" (.list [])) =
      .ok (PVal.entriesOf (.dict es)) := by
  simp only [validGroup, Bool.and_eq_true] at hg
  obtain ⟨-, hh⟩ := hg
  revert hh
  cases h : PVal.lookupKey es "hooks" with
  | none => intro hh; simp [PVal.getD, h, PVal.iterE, PVal.entriesOf, PVal.asListD]
  | some v =>
      intro hh
      cases v <;> simp_all [PVal.getD, h, PVal.iterE, PVal.entriesOf, PVal.asListD]

theorem byMatcherStep_ok (entries : List PVal) : ∀ bm,
    entries.all validGroup = true →
    byMatcherStep bm entries = .ok (byMatcherStepP bm entries) := by
  induction entries with
  | nil => intro bm _; rfl
  | cons entry rest ih =>
      intro bm h
      simp only [List.all_cons, Bool.and_eq_true] at h
      obtain ⟨hg, hrest⟩ := h
      cases entry with
      | dict es =>
          have hm := hashable_matcherOf hg
          simp only [PVal.matcherOf] at hm
          simp only [byMatcherStep, byMatcherStepP, ok_bind, hm, if_true,
            PVal.matcherOf, iterE_hooksOf hg, ok_bind]
          exact ih _ hrest
      | null => simp [validGroup] at hg
      | bool b => simp [validGroup] at hg
      | int n => simp [validGroup] at hg
      | str s => simp [validGroup] at hg
      | list xs => simp [validGroup] at hg

theorem lookupPK_valid (bm : List (PVal × List PVal)) (m : PVal)
    (h : bm.all (fun kv => kv.2.all validEntry) = true) :
    ((lookupPK bm m).getD []).all validEntry = true := by
  induction bm with
  | nil => simp [lookupPK]
  | cons kv rest ih =>
      simp only [List.all_cons, Bool.and_eq_true] at h
      obtain ⟨hkv, hrest⟩ := h
      simp only [lookupPK]
      split
      · simpa using hkv
      · exact ih hrest

theorem setPK_all (bm : List (PVal × List PVal)) (m : PVal) (v : List PVal)
    (h : bm.all (fun kv => kv.2.all validEntry) = true)
    (hv : v.all validEntry = true) :
    (setPK bm m v).all (fun kv => kv.2.all validEntry) = true := by
  induction bm with
  | nil => simpa [setPK] using hv
  | cons kv rest ih =>
      simp only [List.all_cons, Bool.and_eq_true] at h
      obtain ⟨hkv, hrest⟩ := h
      simp only [setPK]
      split
      · simp only [List.all_cons, Bool.and_eq_true]
        exact ⟨hv, hrest⟩
      · simp only [List.all_cons, Bool.and_eq_true]
        exact ⟨hkv, ih hrest⟩

theorem byMatcherStepP_values (entries : List PVal) : ∀ bm,
    entries.all validGroup = true →
    bm.all (fun kv => kv.2.all validEntry) = true →
    (byMatcherStepP bm entries).all (fun kv => kv.2.all validEntry) = true := by
  induction entries with
  | nil => intro bm _ hbm; exact hbm
  | cons entry rest ih =>
      intro bm h hbm
      simp only [List.all_cons, Bool.and_eq_true] at h
      obtain ⟨hg, hrest⟩ := h
      simp only [byMatcherStepP]
      apply ih _ hrest
      have hbm' :
          (if (lookupPK bm (PVal.matcherOf entry)).isSome then bm
           else setPK bm (PVal.matcherOf entry) []).all
            (fun kv => kv.2.all validEntry) = true := by
        split
        · exact hbm
        · exact setPK_all bm _ [] hbm rfl
      apply setPK_all _ _ _ hbm'
      rw [List.all_append, Bool.and_eq_true]
      exact ⟨lookupPK_valid _ _ hbm', entriesOf_valid hg⟩

theorem rebuildGroups_ok (bm : List (PVal × List PVal))
    (h : bm.all (fun kv => kv.2.all validEntry) = true) :
    rebuildGroups bm = .ok (rebuildGroupsP bm) := by
  induction bm with
  | nil => rfl
  | cons kv rest ih =>
      simp only [List.all_cons, Bool.and_eq_true] at h
      obtain ⟨hkv, hrest⟩ := h
      obtain ⟨m, hs⟩ := kv
      simp only [rebuildGroups, dedupe_hooks]
      rw [dedupeGo_ok hs [] (by simpa using hkv)]
      rw [ih hrest]
      rfl

theorem regroupHooksVals_ok (hv : List (String × PVal))
    (h : hv.all (fun kv =>
      match kv.2 with
      | .list gs => gs.all validGroup
      | _ => false) = true) :
    regroupHooksVals hv = .ok (regroupHooksValsP hv) := by
  induction hv with
  | nil => rfl
  | cons kv rest ih =>
      simp only [List.all_cons, Bool.and_eq_true] at h
      obtain ⟨hkv, hrest⟩ := h
      obtain ⟨t, v⟩ := kv
      cases v with
      | list gs =>
          simp only [regroupHooksVals, ok_bind]
          rw [byMatcherStep_ok gs [] (by simpa using hkv)]
          simp only [ok_bind]
          rw [rebuildGroups_ok _ (byMatcherStepP_values gs [] (by simpa using hkv) rfl)]
          simp only [ok_bind]
          rw [ih hrest]
          simp [regroupHooksValsP, regroupTypeP, PVal.asListD]
      | null => simp at hkv
      | bool b => simp at hkv
      | int n => simp at hkv
      | str s => simp at hkv
      | dict es => simp at hkv

namespace PVal

theorem lookup_all {P : String × PVal → Bool} (es : List (String × PVal))
    (k : String) (v : PVal)
    (h : es.all P = true) (hl : lookupKey es k = some v) : P (k, v) = true := by
  induction es with
  | nil => simp [lookupKey] at hl
  | cons kv rest ih =>
      obtain ⟨k₀, v₀⟩ := kv
      simp only [List.all_cons, Bool.and_eq_true] at h
      simp only [lookupKey] at hl
      split at hl
      · next heq =>
          obtain rfl := heq
          obtain ⟨rfl⟩ := Option.some.injEq .. ▸ hl
          simpa using h.1
      · exact ih h.2 hl

theorem all_setKeyL (es : List (String × PVal)) (k : String) (v : PVal)
    (P : String × PVal → Bool)
    (h : es.all P = true) (hkv : P (k, v) = true) :
    (setKeyL es k v).all P = true := by
  induction es with
  | nil => simpa [setKeyL]
  | cons kv rest ih =>
      obtain ⟨k₀, v₀⟩ := kv
      simp only [List.all_cons, Bool.and_eq_true] at h
      simp only [setKeyL]
      split
      · next heq =>
          subst heq
          simp only [List.all_cons, Bool.and_eq_true]
          exact ⟨hkv, h.2⟩
      · simp only [List.all_cons, Bool.and_eq_true]
        exact ⟨h.1, ih h.2⟩

theorem setKeyL_setKeyL (es : List (String × PVal)) (k : String) (v v' : PVal) :
    setKeyL (setKeyL es k v) k v' = setKeyL es k v' := by
  induction es with
  | nil => simp [setKeyL]
  | cons kv rest ih =>
      obtain ⟨k₀, v₀⟩ := kv
      by_cases h₀ : k₀ = k
      · subst h₀; simp [setKeyL]
      · simp [setKeyL, h₀, ih]

end PVal

theorem hookTypesStep_ok (items : List (String × PVal)) : ∀ hv,
    hooksAccOk hv = true →
    (items.all fun kv =>
      match kv.2 with
      | PVal.list gs => gs.all validGroup
      | _ => false) = true →
    hookTypesStep hv items = .ok (hookTypesStepP hv items) ∧
      hooksAccOk (hookTypesStepP hv items) = true := by
  induction items with
  | nil => intro hv h _; exact ⟨rfl, h⟩
  | cons kv rest ih =>
      intro hv hacc hitems
      obtain ⟨t, hl⟩ := kv
      simp only [List.all_cons, Bool.and_eq_true] at hitems
      obtain ⟨hhl, hrest⟩ := hitems
      cases hl with
      | list gs =>
          have hgs : gs.all validGroup = true := by simpa using hhl
          -- the ensured accumulator
          by_cases hk : PVal.hasKeyL hv t = true
          · obtain ⟨w, hw⟩ : ∃ w, PVal.lookupKey hv t = some w := by
              rw [PVal.hasKeyL, Option.isSome_iff_exists] at hk
              exact hk
            have hwP := PVal.lookup_all hv t w hacc hw
            revert hwP
            cases w with
            | list cur =>
                intro hwP
                have hcur : (cur.all validGroup) = true := by simpa using hwP
                simp only [hookTypesStep, hookTypesStepP, hk, if_true,
                  hw, ok_bind, PVal.iterE, PVal.getD, PVal.asListD]
                have hacc' : hooksAccOk (PVal.setKeyL hv t (.list (cur ++ gs))) = true := by
                  apply PVal.all_setKeyL _ _ _ _ hacc
                  simp only [List.all_append, Bool.and_eq_true]
                  exact ⟨hcur, hgs⟩
                exact ih _ hacc' hrest
            | null => intro hwP; simp at hwP
            | bool b => intro hwP; simp at hwP
            | int n => intro hwP; simp at hwP
            | str s => intro hwP; simp at hwP
            | dict es => intro hwP; simp at hwP
          · have hk' : PVal.hasKeyL hv t = false := by
              simpa using hk
            have hnone : PVal.lookupKey hv t = none := by
              rw [PVal.hasKeyL] at hk'
              exact Option.not_isSome_iff_eq_none.mp (by simp [hk'])
            simp only [hookTypesStep, hookTypesStepP, hk', Bool.false_eq_true,
              if_false, PVal.lookupKey_setKeyL_self, ok_bind, PVal.iterE,
              PVal.getD, hnone, Option.getD_none, PVal.asListD,
              PVal.setKeyL_setKeyL, List.nil_append]
            have hacc' : hooksAccOk (PVal.setKeyL hv t (.list gs)) = true := by
              apply PVal.all_setKeyL _ _ _ _ hacc
              simpa using hgs
            exact ih _ hacc' hrest
      | null => simp at hhl
      | bool b => simp at hhl
      | int n => simp at hhl
      | str s => simp at hhl
      | dict es => simp at hhl

theorem permStepP_allow (a d k : List PVal) (pl : PVal)
    (rest : List (String × PVal)) :
    permTypesStepP [("allow", .list a), ("deny", .list d), ("ask", .list k)]
        (("allow", pl) :: rest) =
      permTypesStepP
        [("allow", .list (a ++ PVal.asListD pl)), ("deny", .list d),
         ("ask", .list k)] rest := by
  simp [permTypesStepP, PVal.getD, PVal.lookupKey, PVal.setKeyL, PVal.asListD]

theorem permStepP_deny (a d k : List PVal) (pl : PVal)
    (rest : List (String × PVal)) :
    permTypesStepP [("allow", .list a), ("deny", .list d), ("ask", .list k)]
        (("deny", pl) :: rest) =
      permTypesStepP
        [("allow", .list a), ("deny", .list (d ++ PVal.asListD pl)),
         ("ask", .list k)] rest := by
  simp [permTypesStepP, PVal.getD, PVal.lookupKey, PVal.setKeyL, PVal.asListD]

theorem permStepP_ask (a d k : List PVal) (pl : PVal)
    (rest : List (String × PVal)) :
    permTypesStepP [("allow", .list a), ("deny", .list d), ("ask", .list k)]
        (("ask", pl) :: rest) =
      permTypesStepP
        [("allow", .list a), ("deny", .list d),
         ("ask", .list (k ++ PVal.asListD pl))] rest := by
  simp [permTypesStepP, PVal.getD, PVal.lookupKey, PVal.setKeyL, PVal.asListD]

theorem permStep_allow (a d k xs : List PVal) (rest : List (String × PVal)) :
    permTypesStep [("allow", .list a), ("deny", .list d), ("ask", .list k)]
        (("allow", .list xs) :: rest) =
      permTypesStep
        [("allow", .list (a ++ xs)), ("deny", .list d), ("ask", .list k)]
        rest := by
  simp [permTypesStep, PVal.lookupKey, PVal.setKeyL, PVal.iterE]

theorem permStep_deny (a d k xs : List PVal) (rest : List (String × PVal)) :
    permTypesStep [("allow", .list a), ("deny", .list d), ("ask", .list k)]
        (("deny", .list xs) :: rest) =
      permTypesStep
        [("allow", .list a), ("deny", .list (d ++ xs)), ("ask", .list k)]
        rest := by
  simp [permTypesStep, PVal.lookupKey, PVal.setKeyL, PVal.iterE]

theorem permStep_ask (a d k xs : List PVal) (rest : List (String × PVal)) :
    permTypesStep [("allow", .list a), ("deny", .list d), ("ask", .list k)]
        (("ask", .list xs) :: rest) =
      permTypesStep
        [("allow", .list a), ("deny", .list d), ("ask", .list (k ++ xs))]
        rest := by
  simp [permTypesStep, PVal.lookupKey, PVal.setKeyL, PVal.iterE]

theorem permTypesStepP_char (items : List (String × PVal)) : ∀ a d k,
    (items.all fun kv =>
      kv.1 = "allow" || kv.1 = "deny" || kv.1 = "ask") = true →
    permTypesStepP [("allow", .list a), ("deny", .list d), ("ask", .list k)]
        items =
      [("allow", .list (a ++ collectP items "allow")),
       ("deny", .list (d ++ collectP items "deny")),
       ("ask", .list (k ++ collectP items "ask"))] := by
  induction items with
  | nil => intro a d k _; simp [permTypesStepP, collectP]
  | cons kv rest ih =>
      intro a d k h
      obtain ⟨p, pl⟩ := kv
      simp only [List.all_cons, Bool.and_eq_true, Bool.or_eq_true,
        decide_eq_true_eq] at h
      obtain ⟨hp, hrest⟩ := h
      rcases hp with (hp | hp) | hp <;> subst hp
      · rw [permStepP_allow, ih _ _ _ hrest]
        simp [collectP, List.append_assoc]
      · rw [permStepP_deny, ih _ _ _ hrest]
        simp [collectP, List.append_assoc]
      · rw [permStepP_ask, ih _ _ _ hrest]
        simp [collectP, List.append_assoc]

theorem permTypesStep_ok3 (items : List (String × PVal)) : ∀ a d k,
    (items.all fun kv =>
      (kv.1 = "allow" || kv.1 = "deny" || kv.1 = "ask") &&
        PVal.isListVal kv.2) = true →
    permTypesStep [("allow", .list a), ("deny", .list d), ("ask", .list k)]
        items =
      .ok (permTypesStepP
        [("allow", .list a), ("deny", .list d), ("ask", .list k)] items) := by
  induction items with
  | nil => intro a d k _; rfl
  | cons kv rest ih =>
      intro a d k h
      obtain ⟨p, pl⟩ := kv
      simp only [List.all_cons, Bool.and_eq_true, Bool.or_eq_true,
        decide_eq_true_eq] at h
      obtain ⟨⟨hp, hpl⟩, hrest⟩ := h
      obtain ⟨xs, rfl⟩ : ∃ xs, pl = PVal.list xs := by
        cases pl <;> simp_all [PVal.isListVal]
      rcases hp with (hp | hp) | hp <;> subst hp
      · rw [permStep_allow, permStepP_allow]
        simp only [PVal.asListD]
        exact ih _ _ _ hrest
      · rw [permStep_deny, permStepP_deny]
        simp only [PVal.asListD]
        exact ih _ _ _ hrest
      · rw [permStep_ask, permStepP_ask]
        simp only [PVal.asListD]
        exact ih _ _ _ hrest

theorem stateOk_hooks {r : List (String × PVal)} (h : stateOk r = true) :
    PVal.lookupKey r "hooks" = none ∨
      ∃ hv, PVal.lookupKey r "hooks" = some (.dict hv) ∧ hooksAccOk hv = true := by
  rw [stateOk, Bool.and_eq_true] at h
  obtain ⟨h1, -⟩ := h
  revert h1
  cases hl : PVal.lookupKey r "hooks" with
  | none => intro _; exact Or.inl rfl
  | some w =>
      cases w with
      | dict hv => intro h1; exact Or.inr ⟨hv, rfl, h1⟩
      | null => intro h1; simp at h1
      | bool b => intro h1; simp at h1
      | int n => intro h1; simp at h1
      | str s => intro h1; simp at h1
      | list xs => intro h1; simp at h1

theorem stateOk_perms {r : List (String × PVal)} (h : stateOk r = true) :
    PVal.lookupKey r "permissions" = none ∨
      ∃ pv, PVal.lookupKey r "permissions" = some (.dict pv) ∧
        permsAccOk pv = true := by
  rw [stateOk, Bool.and_eq_true] at h
  obtain ⟨-, h2⟩ := h
  revert h2
  cases hl : PVal.lookupKey r "permissions" with
  | none => intro _; exact Or.inl rfl
  | some w =>
      cases w with
      | dict pv => intro h2; exact Or.inr ⟨pv, rfl, h2⟩
      | null => intro h2; simp at h2
      | bool b => intro h2; simp at h2
      | int n => intro h2; simp at h2
      | str s => intro h2; simp at h2
      | list xs => intro h2; simp at h2

theorem permsAccOk_shape (pv : List (String × PVal))
    (h : permsAccOk pv = true) :
    ∃ a d k, pv = [("allow", .list a), ("deny", .list d), ("ask", .list k)] ∧
      a.all PVal.isStr = true ∧ d.all PVal.isStr = true ∧
      k.all PVal.isStr = true := by
  unfold permsAccOk at h
  split at h
  · next a d k =>
      refine ⟨a, d, k, rfl, ?_⟩
      simp only [Bool.and_eq_true] at h
      exact ⟨h.1.1, h.1.2, h.2⟩
  · exact absurd h (by simp)

theorem validHooksVal_inv {value : PVal} (h : validHooksVal value = true) :
    ∃ hitems, value = PVal.dict hitems ∧
      (hitems.all fun kv =>
        match kv.2 with
        | PVal.list gs => gs.all validGroup
        | _ => false) = true := by
  cases value with
  | dict hitems =>
      simp only [validHooksVal, Bool.and_eq_true] at h
      exact ⟨hitems, rfl, h.2⟩
  | null => simp [validHooksVal] at h
  | bool b => simp [validHooksVal] at h
  | int n => simp [validHooksVal] at h
  | str s => simp [validHooksVal] at h
  | list xs => simp [validHooksVal] at h

theorem validPermsVal_inv {value : PVal} (h : validPermsVal value = true) :
    ∃ pitems, value = PVal.dict pitems ∧
      (pitems.all fun kv =>
        (kv.1 = "allow" || kv.1 = "deny" || kv.1 = "ask") &&
          PVal.isListVal kv.2) = true ∧
      (pitems.all fun kv =>
        match kv.2 with
        | PVal.list ss => ss.all PVal.isStr
        | _ => false) = true := by
  cases value with
  | dict pitems =>
      simp only [validPermsVal, Bool.and_eq_true] at h
      refine ⟨pitems, rfl, ?_, ?_⟩
      · rw [List.all_eq_true] at h ⊢
        intro kv hkv
        have := h.2 kv hkv
        simp only [Bool.and_eq_true] at this ⊢
        refine ⟨this.1, ?_⟩
        revert this
        cases kv.2 <;> simp [PVal.isListVal]
      · rw [List.all_eq_true] at h ⊢
        intro kv hkv
        have := h.2 kv hkv
        simp only [Bool.and_eq_true] at this
        exact this.2
  | null => simp [validPermsVal] at h
  | bool b => simp [validPermsVal] at h
  | int n => simp [validPermsVal] at h
  | str s => simp [validPermsVal] at h
  | list xs => simp [validPermsVal] at h

theorem collectP_isStr (items : List (String × PVal)) (p : String)
    (h : (items.all fun kv =>
      match kv.2 with
      | PVal.list ss => ss.all PVal.isStr
      | _ => false) = true) :
    (collectP items p).all PVal.isStr = true := by
  induction items with
  | nil => simp [collectP]
  | cons kv rest ih =>
      simp only [List.all_cons, Bool.and_eq_true] at h
      obtain ⟨hkv, hrest⟩ := h
      by_cases hp : kv.1 = p
      · have hc : collectP (kv :: rest) p = PVal.asListD kv.2 ++ collectP rest p := by
          simp [collectP, List.filter_cons, hp]
        rw [hc, List.all_append, Bool.and_eq_true]
        refine ⟨?_, ih hrest⟩
        revert hkv
        cases kv.2 <;> simp [PVal.asListD]
      · have hc : collectP (kv :: rest) p = collectP rest p := by
          simp [collectP, List.filter_cons, hp]
        rw [hc]
        exact ih hrest

theorem topEntriesStep_ok (items : List (String × PVal)) : ∀ r,
    stateOk r = true → validItems items = true →
    topEntriesStep r items = .ok (topEntriesStepP r items) ∧
      stateOk (topEntriesStepP r items) = true := by
  induction items with
  | nil => intro r hr _; exact ⟨rfl, hr⟩
  | cons kv rest ih =>
      intro r hr hitems
      obtain ⟨key, value⟩ := kv
      simp only [validItems, List.all_cons, Bool.and_eq_true] at hitems
      obtain ⟨hkv, hrest⟩ := hitems
      have hrest' : validItems rest = true := hrest
      rw [stateOk, Bool.and_eq_true] at hr
      obtain ⟨hrh, hrp⟩ := hr
      have hr : stateOk r = true := by
        rw [stateOk, Bool.and_eq_true]; exact ⟨hrh, hrp⟩
      by_cases hkey : key = "hooks"
      · subst hkey
        simp only [if_pos rfl] at hkv
        obtain ⟨hitems0, rfl, hvitems⟩ := validHooksVal_inv hkv
        rcases stateOk_hooks hr with hnone | ⟨hv, hlk, hacc⟩
        · have hk : PVal.hasKeyL r "hooks" = false := by
            simp [PVal.hasKeyL, hnone]
          obtain ⟨hstep, hstepacc⟩ := hookTypesStep_ok hitems0 [] rfl hvitems
          have hdyn :
              topEntriesStep r (("hooks", PVal.dict hitems0) :: rest) =
                topEntriesStep
                  (PVal.setKeyL r "hooks"
                    (.dict (hookTypesStepP [] hitems0))) rest := by
            simp [topEntriesStep, hk, hstep, PVal.lookupKey_setKeyL_self,
              PVal.itemsE, PVal.setKeyL_setKeyL]
          have hpure :
              topEntriesStepP r (("hooks", PVal.dict hitems0) :: rest) =
                topEntriesStepP
                  (PVal.setKeyL r "hooks"
                    (.dict (hookTypesStepP [] hitems0))) rest := by
            simp [topEntriesStepP, hk, PVal.getD, PVal.lookupKey_setKeyL_self,
              PVal.asDictD, PVal.setKeyL_setKeyL]
          rw [hdyn, hpure]
          apply ih
          · rw [stateOk, Bool.and_eq_true]
            constructor
            · rw [PVal.lookupKey_setKeyL_self]
              exact hstepacc
            · rw [PVal.lookupKey_setKeyL_ne r "hooks" _ "permissions" (by decide)]
              exact hrp
          · exact hrest'
        · have hk : PVal.hasKeyL r "hooks" = true := by
            simp [PVal.hasKeyL, hlk]
          obtain ⟨hstep, hstepacc⟩ := hookTypesStep_ok hitems0 hv hacc hvitems
          have hdyn :
              topEntriesStep r (("hooks", PVal.dict hitems0) :: rest) =
                topEntriesStep
                  (PVal.setKeyL r "hooks"
                    (.dict (hookTypesStepP hv hitems0))) rest := by
            simp [topEntriesStep, hk, hlk, hstep, PVal.itemsE]
          have hpure :
              topEntriesStepP r (("hooks", PVal.dict hitems0) :: rest) =
                topEntriesStepP
                  (PVal.setKeyL r "hooks"
                    (.dict (hookTypesStepP hv hitems0))) rest := by
            simp [topEntriesStepP, hk, PVal.getD, hlk, PVal.asDictD]
          rw [hdyn, hpure]
          apply ih
          · rw [stateOk, Bool.and_eq_true]
            constructor
            · rw [PVal.lookupKey_setKeyL_self]
              exact hstepacc
            · rw [PVal.lookupKey_setKeyL_ne r "hooks" _ "permissions" (by decide)]
              exact hrp
          · exact hrest'
      · by_cases hkey2 : key = "permissions"
        · subst hkey2
          simp only [if_neg hkey, if_pos rfl] at hkv
          obtain ⟨pitems, rfl, hpitems, hpstr⟩ := validPermsVal_inv hkv
          have hkeys3 : (pitems.all fun kv =>
              kv.1 = "allow" || kv.1 = "deny" || kv.1 = "ask") = true := by
            rw [List.all_eq_true] at hpitems ⊢
            intro kv hkvm
            have := hpitems kv hkvm
            simp only [Bool.and_eq_true] at this
            exact this.1
          rcases stateOk_perms hr with hnone | ⟨pv, hlk, hpacc⟩
          · have hk : PVal.hasKeyL r "permissions" = false := by
              simp [PVal.hasKeyL, hnone]
            have hdyn :
                topEntriesStep r (("permissions", PVal.dict pitems) :: rest) =
                  topEntriesStep
                    (PVal.setKeyL r "permissions"
                      (.dict (permTypesStepP permsInit pitems))) rest := by
              simp [topEntriesStep, hk, PVal.lookupKey_setKeyL_self,
                PVal.itemsE, PVal.setKeyL_setKeyL, permsInit,
                permTypesStep_ok3 pitems [] [] [] hpitems]
            have hpure :
                topEntriesStepP r (("permissions", PVal.dict pitems) :: rest) =
                  topEntriesStepP
                    (PVal.setKeyL r "permissions"
                      (.dict (permTypesStepP permsInit pitems))) rest := by
              simp [topEntriesStepP, hk, PVal.getD, PVal.lookupKey_setKeyL_self,
                PVal.asDictD, PVal.setKeyL_setKeyL, permsInit]
            rw [hdyn, hpure]
            apply ih
            · rw [stateOk, Bool.and_eq_true]
              constructor
              · rw [PVal.lookupKey_setKeyL_ne r "permissions" _ "hooks" (by decide)]
                exact hrh
              · rw [PVal.lookupKey_setKeyL_self]
                show permsAccOk (permTypesStepP permsInit pitems) = true
                rw [show permsInit =
                    [("allow", PVal.list []), ("deny", PVal.list []),
                     ("ask", PVal.list [])] from rfl]
                rw [permTypesStepP_char pitems [] [] [] hkeys3]
                simp only [permsAccOk, List.nil_append, Bool.and_eq_true]
                exact ⟨⟨collectP_isStr pitems "allow" hpstr,
                  collectP_isStr pitems "deny" hpstr⟩,
                  collectP_isStr pitems "ask" hpstr⟩
            · exact hrest'
          · have hk : PVal.hasKeyL r "permissions" = true := by
              simp [PVal.hasKeyL, hlk]
            obtain ⟨a, d, kk, rfl, hastr, hdstr, hkstr⟩ := permsAccOk_shape pv hpacc
            have hdyn :
                topEntriesStep r (("permissions", PVal.dict pitems) :: rest) =
                  topEntriesStep
                    (PVal.setKeyL r "permissions"
                      (.dict (permTypesStepP
                        [("allow", .list a), ("deny", .list d), ("ask", .list kk)]
                        pitems))) rest := by
              simp [topEntriesStep, hk, hlk, PVal.itemsE,
                permTypesStep_ok3 pitems a d kk hpitems]
            have hpure :
                topEntriesStepP r (("permissions", PVal.dict pitems) :: rest) =
                  topEntriesStepP
                    (PVal.setKeyL r "permissions"
                      (.dict (permTypesStepP
                        [("allow", .list a), ("deny", .list d), ("ask", .list kk)]
                        pitems))) rest := by
              simp [topEntriesStepP, hk, PVal.getD, hlk, PVal.asDictD]
            rw [hdyn, hpure]
            apply ih
            · rw [stateOk, Bool.and_eq_true]
              constructor
              · rw [PVal.lookupKey_setKeyL_ne r "permissions" _ "hooks" (by decide)]
                exact hrh
              · rw [PVal.lookupKey_setKeyL_self]
                show permsAccOk (permTypesStepP
                  [("allow", .list a), ("deny", .list d), ("ask", .list kk)]
                  pitems) = true
                rw [permTypesStepP_char pitems a d kk hkeys3]
                simp only [permsAccOk, List.all_append, Bool.and_eq_true]
                exact ⟨⟨⟨hastr, collectP_isStr pitems "allow" hpstr⟩,
                  ⟨hdstr, collectP_isStr pitems "deny" hpstr⟩⟩,
                  ⟨hkstr, collectP_isStr pitems "ask" hpstr⟩⟩
            · exact hrest'
        · have hdyn :
              topEntriesStep r ((key, value) :: rest) =
                topEntriesStep (PVal.setKeyL r key value) rest := by
            simp [topEntriesStep, hkey, hkey2]
          have hpure :
              topEntriesStepP r ((key, value) :: rest) =
                topEntriesStepP (PVal.setKeyL r key value) rest := by
            simp [topEntriesStepP, hkey, hkey2]
          rw [hdyn, hpure]
          apply ih
          · rw [stateOk, Bool.and_eq_true]
            constructor
            · rw [PVal.lookupKey_setKeyL_ne r key value "hooks" (Ne.symm hkey)]
              exact hrh
            · rw [PVal.lookupKey_setKeyL_ne r key value "permissions" (Ne.symm hkey2)]
              exact hrp
          · exact hrest'

theorem validDoc_inv {doc : PVal} (h : validDoc doc = true) :
    ∃ es, doc = PVal.dict es ∧ validItems es = true ∧
      nodupStr (es.map Prod.fst) = true := by
  cases doc with
  | dict es =>
      simp only [validDoc, Bool.and_eq_true] at h
      exact ⟨es, rfl, h.2, h.1⟩
  | null => simp [validDoc] at h
  | bool b => simp [validDoc] at h
  | int n => simp [validDoc] at h
  | str s => simp [validDoc] at h
  | list xs => simp [validDoc] at h

theorem mergeFold_ok (docs : List PVal) : ∀ r,
    stateOk r = true → docs.all validDoc = true →
    mergeFold r docs = .ok (mergeFoldP r docs) ∧
      stateOk (mergeFoldP r docs) = true := by
  induction docs with
  | nil => intro r hr _; exact ⟨rfl, hr⟩
  | cons doc rest ih =>
      intro r hr h
      simp only [List.all_cons, Bool.and_eq_true] at h
      obtain ⟨hdoc, hrest⟩ := h
      obtain ⟨es, rfl, hitems, -⟩ := validDoc_inv hdoc
      obtain ⟨hstep, hok⟩ := topEntriesStep_ok es r hr hitems
      have hdyn : mergeFold r (PVal.dict es :: rest) =
          mergeFold (topEntriesStepP r es) rest := by
        simp [mergeFold, PVal.itemsE, hstep]
      have hpure : mergeFoldP r (PVal.dict es :: rest) =
          mergeFoldP (topEntriesStepP r es) rest := by
        simp [mergeFoldP, PVal.asDictD]
      rw [hdyn, hpure]
      exact ih _ hok hrest

theorem permsAccOk_strall {pv : List (String × PVal)}
    (h : permsAccOk pv = true) :
    (pv.all fun kv =>
      match kv.2 with
      | PVal.list ss => ss.all PVal.isStr
      | _ => false) = true := by
  obtain ⟨a, d, k, rfl, ha, hd, hk⟩ := permsAccOk_shape pv h
  simp [ha, hd, hk]

theorem dedupePermsVals_ok (pv : List (String × PVal))
    (h : (pv.all fun kv =>
      match kv.2 with
      | PVal.list ss => ss.all PVal.isStr
      | _ => false) = true) :
    dedupePermsVals pv = .ok (dedupePermsValsP pv) := by
  induction pv with
  | nil => rfl
  | cons kv rest ih =>
      simp only [List.all_cons, Bool.and_eq_true] at h
      obtain ⟨hkv, hrest⟩ := h
      obtain ⟨p, v⟩ := kv
      cases v with
      | list xs =>
          simp only [dedupePermsVals, ok_bind]
          rw [fromkeysList_ok xs [] (by simpa using hkv)]
          simp only [ok_bind]
          rw [ih hrest]
          simp [dedupePermsValsP, PVal.asListD]
      | null => simp at hkv
      | bool b => simp at hkv
      | int n => simp at hkv
      | str s => simp at hkv
      | dict es => simp at hkv

/-- Main refinement: on structurally valid documents `merge_settings` raises
no exception and returns exactly the pure merge. -/
theorem merge_settings_refines (docs : List PVal)
    (h : docs.all validDoc = true) :
    merge_settings docs = .ok (mergePure docs) := by
  obtain ⟨hfold, hok⟩ := mergeFold_ok docs [] rfl h
  unfold merge_settings mergePure mergePureTop
  rw [hfold]
  simp only [ok_bind]
  rcases stateOk_hooks hok with hhn | ⟨hv, hhl, hhacc⟩
  · rw [hhn]
    rcases stateOk_perms hok with hpn | ⟨pv, hpl, hpacc⟩
    · rw [hpn]
    · rw [hpl]
      simp only [ok_bind]
      rw [dedupePermsVals_ok pv (permsAccOk_strall hpacc)]
      simp [PVal.asDictD]
  · rw [hhl]
    simp only [ok_bind]
    rw [regroupHooksVals_ok hv hhacc]
    simp only [ok_bind, PVal.asDictD]
    have hplook : PVal.lookupKey
        (PVal.setKeyL (mergeFoldP [] docs) "hooks"
          (.dict (regroupHooksValsP hv))) "permissions" =
        PVal.lookupKey (mergeFoldP [] docs) "permissions" :=
      PVal.lookupKey_setKeyL_ne _ "hooks" _ "permissions" (by decide)
    rw [hplook]
    rcases stateOk_perms hok with hpn | ⟨pv, hpl, hpacc⟩
    · rw [hpn]
    · rw [hpl]
      simp only [ok_bind]
      rw [dedupePermsVals_ok pv (permsAccOk_strall hpacc)]
      simp [PVal.asDictD]

/-! ## Characterization of the pure fold -/
theorem hookTypesStepP_append (xs ys : List (String × PVal)) : ∀ hv,
    hookTypesStepP hv (xs ++ ys) = hookTypesStepP (hookTypesStepP hv xs) ys := by
  induction xs with
  | nil => intro hv; rfl
  | cons kv rest ih =>
      intro hv
      obtain ⟨t, hl⟩ := kv
      simp only [List.cons_append, hookTypesStepP]
      exact ih _

theorem permTypesStepP_append (xs ys : List (String × PVal)) : ∀ pv,
    permTypesStepP pv (xs ++ ys) = permTypesStepP (permTypesStepP pv xs) ys := by
  induction xs with
  | nil => intro pv; rfl
  | cons kv rest ih =>
      intro pv
      obtain ⟨p, pl⟩ := kv
      simp only [List.cons_append, permTypesStepP]
      exact ih _

theorem hookTypesStepP_listVals (items : List (String × PVal)) : ∀ hv,
    (hv.all fun kv => PVal.isListVal kv.2) = true →
    ((hookTypesStepP hv items).all fun kv => PVal.isListVal kv.2) = true := by
  induction items with
  | nil => intro hv h; exact h
  | cons kv rest ih =>
      intro hv h
      obtain ⟨t, hl⟩ := kv
      simp only [hookTypesStepP]
      exact ih _ (PVal.all_setKeyL _ _ _ _ h (by simp [PVal.isListVal]))

theorem lookup_hookTypesStepP (items : List (String × PVal)) : ∀ hv t,
    (hv.all fun kv => PVal.isListVal kv.2) = true →
    PVal.lookupKey (hookTypesStepP hv items) t =
      (if PVal.hasKeyL hv t || items.any (fun kv => kv.1 = t)
       then some (.list (PVal.asListD (PVal.getD hv t (.list [])) ++
         (items.filter (fun kv => kv.1 = t)).flatMap
           (fun kv => PVal.asListD kv.2)))
       else none) := by
  induction items with
  | nil =>
      intro hv t h
      by_cases hk : PVal.hasKeyL hv t = true
      · obtain ⟨w, hw⟩ : ∃ w, PVal.lookupKey hv t = some w := by
          rw [PVal.hasKeyL, Option.isSome_iff_exists] at hk
          exact hk
        have hwl := PVal.lookup_all hv t w h hw
        obtain ⟨ws, rfl⟩ : ∃ ws, w = PVal.list ws := by
          cases w <;> simp_all [PVal.isListVal]
        simp [hookTypesStepP, hk, hw, PVal.getD, PVal.asListD]
      · have hk' : PVal.hasKeyL hv t = false := by simpa using hk
        have hnone : PVal.lookupKey hv t = none := by
          rw [PVal.hasKeyL] at hk'
          exact Option.not_isSome_iff_eq_none.mp (by simp [hk'])
        simp [hookTypesStepP, hk', hnone]
  | cons kv rest ih =>
      intro hv t h
      obtain ⟨t₀, hl⟩ := kv
      simp only [hookTypesStepP]
      set w : PVal := PVal.list (PVal.asListD (PVal.getD hv t₀ (PVal.list [])) ++
        PVal.asListD hl) with hwdef
      have h' : ((PVal.setKeyL hv t₀ w).all fun kv => PVal.isListVal kv.2) = true :=
        PVal.all_setKeyL _ _ _ _ h (by simp [PVal.isListVal, hwdef])
      rw [ih _ t h']
      by_cases ht : t₀ = t
      · subst ht
        have hk' : PVal.hasKeyL (PVal.setKeyL hv t₀ w) t₀ = true := by
          rw [PVal.hasKeyL, PVal.lookupKey_setKeyL_self]
          rfl
        rw [hk']
        have hgd : PVal.getD (PVal.setKeyL hv t₀ w) t₀ (.list []) = w := by
          rw [PVal.getD, PVal.lookupKey_setKeyL_self, Option.getD_some]
        rw [hgd]
        have hany : (((t₀, hl) :: rest).any fun kv => kv.1 = t₀) = true := by
          simp
        have hfil : (((t₀, hl) :: rest).filter fun kv => kv.1 = t₀) =
            (t₀, hl) :: (rest.filter fun kv => kv.1 = t₀) := by
          simp [List.filter_cons]
        rw [hany, hfil]
        simp [hwdef, PVal.asListD, List.append_assoc]
      · have hk' : PVal.hasKeyL (PVal.setKeyL hv t₀ w) t =
            PVal.hasKeyL hv t := by
          rw [PVal.hasKeyL, PVal.hasKeyL,
            PVal.lookupKey_setKeyL_ne _ _ _ _ (Ne.symm ht)]
        rw [hk']
        have hgd : PVal.getD (PVal.setKeyL hv t₀ w) t (.list []) =
            PVal.getD hv t (.list []) := by
          rw [PVal.getD, PVal.getD,
            PVal.lookupKey_setKeyL_ne _ _ _ _ (Ne.symm ht)]
        rw [hgd]
        have hany : (((t₀, hl) :: rest).any fun kv => kv.1 = t) =
            (rest.any fun kv => kv.1 = t) := by
          simp [ht]
        have hfil : (((t₀, hl) :: rest).filter fun kv => kv.1 = t) =
            (rest.filter fun kv => kv.1 = t) := by
          simp [List.filter_cons, ht]
        rw [hany, hfil]

theorem hookItemsIn_cons_hooks (value : PVal) (rest : List (String × PVal)) :
    hookItemsIn (("hooks", value) :: rest) =
      PVal.asDictD value ++ hookItemsIn rest := by
  simp [hookItemsIn, List.filter_cons]

theorem hookItemsIn_cons_ne (key : String) (value : PVal)
    (rest : List (String × PVal)) (h : ¬ key = "hooks") :
    hookItemsIn ((key, value) :: rest) = hookItemsIn rest := by
  simp [hookItemsIn, List.filter_cons, h]

theorem permItemsIn_cons_perms (value : PVal) (rest : List (String × PVal)) :
    permItemsIn (("permissions", value) :: rest) =
      PVal.asDictD value ++ permItemsIn rest := by
  simp [permItemsIn, List.filter_cons]

theorem permItemsIn_cons_ne (key : String) (value : PVal)
    (rest : List (String × PVal)) (h : ¬ key = "permissions") :
    permItemsIn ((key, value) :: rest) = permItemsIn rest := by
  simp [permItemsIn, List.filter_cons, h]

theorem topP_cons_hooks_haskey (r : List (String × PVal)) (value : PVal)
    (rest : List (String × PVal)) (hv : List (String × PVal))
    (hl : PVal.lookupKey r "hooks" = some (PVal.dict hv)) :
    topEntriesStepP r (("hooks", value) :: rest) =
      topEntriesStepP
        (PVal.setKeyL r "hooks"
          (.dict (hookTypesStepP hv (PVal.asDictD value)))) rest := by
  have hk : PVal.hasKeyL r "hooks" = true := by simp [PVal.hasKeyL, hl]
  simp [topEntriesStepP, hk, PVal.getD, hl, PVal.asDictD]

theorem topP_cons_hooks_fresh (r : List (String × PVal)) (value : PVal)
    (rest : List (String × PVal))
    (hl : PVal.lookupKey r "hooks" = none) :
    topEntriesStepP r (("hooks", value) :: rest) =
      topEntriesStepP
        (PVal.setKeyL r "hooks"
          (.dict (hookTypesStepP [] (PVal.asDictD value)))) rest := by
  have hk : PVal.hasKeyL r "hooks" = false := by simp [PVal.hasKeyL, hl]
  simp [topEntriesStepP, hk, PVal.getD, PVal.lookupKey_setKeyL_self,
    PVal.asDictD, PVal.setKeyL_setKeyL]

theorem topP_cons_perms_haskey (r : List (String × PVal)) (value : PVal)
    (rest : List (String × PVal)) (pv : List (String × PVal))
    (hl : PVal.lookupKey r "permissions" = some (PVal.dict pv)) :
    topEntriesStepP r (("permissions", value) :: rest) =
      topEntriesStepP
        (PVal.setKeyL r "permissions"
          (.dict (permTypesStepP pv (PVal.asDictD value)))) rest := by
  have hk : PVal.hasKeyL r "permissions" = true := by simp [PVal.hasKeyL, hl]
  simp [topEntriesStepP, hk, PVal.getD, hl, PVal.asDictD]

theorem topP_cons_perms_fresh (r : List (String × PVal)) (value : PVal)
    (rest : List (String × PVal))
    (hl : PVal.lookupKey r "permissions" = none) :
    topEntriesStepP r (("permissions", value) :: rest) =
      topEntriesStepP
        (PVal.setKeyL r "permissions"
          (.dict (permTypesStepP permsInit (PVal.asDictD value)))) rest := by
  have hk : PVal.hasKeyL r "permissions" = false := by simp [PVal.hasKeyL, hl]
  simp [topEntriesStepP, hk, PVal.getD, PVal.lookupKey_setKeyL_self,
    PVal.asDictD, PVal.setKeyL_setKeyL, permsInit]

theorem topP_cons_hooks_any (r : List (String × PVal)) (value : PVal)
    (rest : List (String × PVal)) (w : PVal)
    (hl : PVal.lookupKey r "hooks" = some w) :
    topEntriesStepP r (("hooks", value) :: rest) =
      topEntriesStepP
        (PVal.setKeyL r "hooks"
          (.dict (hookTypesStepP (PVal.asDictD w) (PVal.asDictD value))))
        rest := by
  have hk : PVal.hasKeyL r "hooks" = true := by simp [PVal.hasKeyL, hl]
  simp [topEntriesStepP, hk, PVal.getD, hl]

theorem topP_cons_perms_any (r : List (String × PVal)) (value : PVal)
    (rest : List (String × PVal)) (w : PVal)
    (hl : PVal.lookupKey r "permissions" = some w) :
    topEntriesStepP r (("permissions", value) :: rest) =
      topEntriesStepP
        (PVal.setKeyL r "permissions"
          (.dict (permTypesStepP (PVal.asDictD w) (PVal.asDictD value))))
        rest := by
  have hk : PVal.hasKeyL r "permissions" = true := by simp [PVal.hasKeyL, hl]
  simp [topEntriesStepP, hk, PVal.getD, hl]

theorem topP_cons_other (r : List (String × PVal)) (key : String)
    (value : PVal) (rest : List (String × PVal))
    (h1 : ¬ key = "hooks") (h2 : ¬ key = "permissions") :
    topEntriesStepP r ((key, value) :: rest) =
      topEntriesStepP (PVal.setKeyL r key value) rest := by
  simp [topEntriesStepP, h1, h2]

theorem lookup_topP_hooks_some (items : List (String × PVal)) : ∀ r hv,
    PVal.lookupKey r "hooks" = some (.dict hv) →
    PVal.lookupKey (topEntriesStepP r items) "hooks" =
      some (.dict (hookTypesStepP hv (hookItemsIn items))) := by
  induction items with
  | nil =>
      intro r hv hl
      simpa [topEntriesStepP, hookItemsIn] using hl
  | cons kv rest ih =>
      intro r hv hl
      obtain ⟨key, value⟩ := kv
      by_cases hkey : key = "hooks"
      · subst hkey
        rw [topP_cons_hooks_haskey r value rest hv hl]
        rw [ih _ _ (PVal.lookupKey_setKeyL_self ..)]
        rw [hookItemsIn_cons_hooks, hookTypesStepP_append]
      · by_cases hkey2 : key = "permissions"
        · subst hkey2
          cases hp : PVal.lookupKey r "permissions" with
          | none =>
              rw [topP_cons_perms_fresh r value rest hp]
              rw [ih _ hv (by
                rw [PVal.lookupKey_setKeyL_ne _ _ _ _ (by decide)]; exact hl)]
              rw [hookItemsIn_cons_ne _ _ _ (by decide)]
          | some w =>
              rw [topP_cons_perms_any r value rest w hp]
              rw [ih _ hv (by
                rw [PVal.lookupKey_setKeyL_ne _ _ _ _ (by decide)]; exact hl)]
              rw [hookItemsIn_cons_ne _ _ _ (by decide)]
        · rw [topP_cons_other r key value rest hkey hkey2]
          rw [ih _ hv (by
            rw [PVal.lookupKey_setKeyL_ne _ _ _ _ (Ne.symm hkey)]; exact hl)]
          rw [hookItemsIn_cons_ne _ _ _ hkey]

theorem lookup_topP_hooks_none (items : List (String × PVal)) : ∀ r,
    PVal.lookupKey r "hooks" = none →
    PVal.lookupKey (topEntriesStepP r items) "hooks" =
      (if items.any (fun kv => kv.1 = "hooks")
       then some (.dict (hookTypesStepP [] (hookItemsIn items)))
       else none) := by
  induction items with
  | nil => intro r hl; simpa [topEntriesStepP] using hl
  | cons kv rest ih =>
      intro r hl
      obtain ⟨key, value⟩ := kv
      by_cases hkey : key = "hooks"
      · subst hkey
        rw [topP_cons_hooks_fresh r value rest hl]
        rw [lookup_topP_hooks_some rest _ _ (PVal.lookupKey_setKeyL_self ..)]
        rw [hookItemsIn_cons_hooks, hookTypesStepP_append]
        simp
      · by_cases hkey2 : key = "permissions"
        · subst hkey2
          cases hp : PVal.lookupKey r "permissions" with
          | none =>
              rw [topP_cons_perms_fresh r value rest hp]
              rw [ih _ (by
                rw [PVal.lookupKey_setKeyL_ne _ _ _ _ (by decide)]; exact hl)]
              rw [hookItemsIn_cons_ne _ _ _ (by decide)]
              have hor : (decide (("permissions" : String) = "hooks") ||
                  rest.any fun kv => decide (kv.1 = "hooks")) =
                  rest.any fun kv => decide (kv.1 = "hooks") := by
                rw [show (decide (("permissions" : String) = "hooks")) = false
                  from rfl, Bool.false_or]
              rw [List.any_cons, hor]
          | some w =>
              rw [topP_cons_perms_any r value rest w hp]
              rw [ih _ (by
                rw [PVal.lookupKey_setKeyL_ne _ _ _ _ (by decide)]; exact hl)]
              rw [hookItemsIn_cons_ne _ _ _ (by decide)]
              have hor : (decide (("permissions" : String) = "hooks") ||
                  rest.any fun kv => decide (kv.1 = "hooks")) =
                  rest.any fun kv => decide (kv.1 = "hooks") := by
                rw [show (decide (("permissions" : String) = "hooks")) = false
                  from rfl, Bool.false_or]
              rw [List.any_cons, hor]
        · rw [topP_cons_other r key value rest hkey hkey2]
          rw [ih _ (by
            rw [PVal.lookupKey_setKeyL_ne _ _ _ _ (Ne.symm hkey)]; exact hl)]
          rw [hookItemsIn_cons_ne _ _ _ hkey]
          have hor : (decide (key = "hooks") ||
              rest.any fun kv => decide (kv.1 = "hooks")) =
              rest.any fun kv => decide (kv.1 = "hooks") := by
            rw [show (decide (key = "hooks")) = false from by simp [hkey],
              Bool.false_or]
          rw [List.any_cons, hor]

theorem lookup_topP_perms_some (items : List (String × PVal)) : ∀ r pv,
    PVal.lookupKey r "permissions" = some (.dict pv) →
    PVal.lookupKey (topEntriesStepP r items) "permissions" =
      some (.dict (permTypesStepP pv (permItemsIn items))) := by
  induction items with
  | nil =>
      intro r pv hl
      simpa [topEntriesStepP, permItemsIn] using hl
  | cons kv rest ih =>
      intro r pv hl
      obtain ⟨key, value⟩ := kv
      by_cases hkey : key = "hooks"
      · subst hkey
        cases hh : PVal.lookupKey r "hooks" with
        | none =>
            rw [topP_cons_hooks_fresh r value rest hh]
            rw [ih _ pv (by
              rw [PVal.lookupKey_setKeyL_ne _ _ _ _ (by decide)]; exact hl)]
            rw [permItemsIn_cons_ne _ _ _ (by decide)]
        | some w =>
            rw [topP_cons_hooks_any r value rest w hh]
            rw [ih _ pv (by
              rw [PVal.lookupKey_setKeyL_ne _ _ _ _ (by decide)]; exact hl)]
            rw [permItemsIn_cons_ne _ _ _ (by decide)]
      · by_cases hkey2 : key = "permissions"
        · subst hkey2
          rw [topP_cons_perms_haskey r value rest pv hl]
          rw [ih _ _ (PVal.lookupKey_setKeyL_self ..)]
          rw [permItemsIn_cons_perms, permTypesStepP_append]
        · rw [topP_cons_other r key value rest hkey hkey2]
          rw [ih _ pv (by
            rw [PVal.lookupKey_setKeyL_ne _ _ _ _ (Ne.symm hkey2)]; exact hl)]
          rw [permItemsIn_cons_ne _ _ _ hkey2]

theorem lookup_topP_perms_none (items : List (String × PVal)) : ∀ r,
    PVal.lookupKey r "permissions" = none →
    PVal.lookupKey (topEntriesStepP r items) "permissions" =
      (if items.any (fun kv => kv.1 = "permissions")
       then some (.dict (permTypesStepP permsInit (permItemsIn items)))
       else none) := by
  induction items with
  | nil => intro r hl; simpa [topEntriesStepP] using hl
  | cons kv rest ih =>
      intro r hl
      obtain ⟨key, value⟩ := kv
      by_cases hkey : key = "hooks"
      · subst hkey
        cases hh : PVal.lookupKey r "hooks" with
        | none =>
            rw [topP_cons_hooks_fresh r value rest hh]
            rw [ih _ (by
              rw [PVal.lookupKey_setKeyL_ne _ _ _ _ (by decide)]; exact hl)]
            rw [permItemsIn_cons_ne _ _ _ (by decide)]
            have hor : (decide (("hooks" : String) = "permissions") ||
                rest.any fun kv => decide (kv.1 = "permissions")) =
                rest.any fun kv => decide (kv.1 = "permissions") := by
              rw [show (decide (("hooks" : String) = "permissions")) = false
                from rfl, Bool.false_or]
            rw [List.any_cons, hor]
        | some w =>
            rw [topP_cons_hooks_any r value rest w hh]
            rw [ih _ (by
              rw [PVal.lookupKey_setKeyL_ne _ _ _ _ (by decide)]; exact hl)]
            rw [permItemsIn_cons_ne _ _ _ (by decide)]
            have hor : (decide (("hooks" : String) = "permissions") ||
                rest.any fun kv => decide (kv.1 = "permissions")) =
                rest.any fun kv => decide (kv.1 = "permissions") := by
              rw [show (decide (("hooks" : String) = "permissions")) = false
                from rfl, Bool.false_or]
            rw [List.any_cons, hor]
      · by_cases hkey2 : key = "permissions"
        · subst hkey2
          rw [topP_cons_perms_fresh r value rest hl]
          rw [lookup_topP_perms_some rest _ _ (PVal.lookupKey_setKeyL_self ..)]
          rw [permItemsIn_cons_perms, permTypesStepP_append]
          simp
        · rw [topP_cons_other r key value rest hkey hkey2]
          rw [ih _ (by
            rw [PVal.lookupKey_setKeyL_ne _ _ _ _ (Ne.symm hkey2)]; exact hl)]
          rw [permItemsIn_cons_ne _ _ _ hkey2]
          have hor : (decide (key = "permissions") ||
              rest.any fun kv => decide (kv.1 = "permissions")) =
              rest.any fun kv => decide (kv.1 = "permissions") := by
            rw [show (decide (key = "permissions")) = false from by
              simp [hkey2], Bool.false_or]
          rw [List.any_cons, hor]

theorem lookup_topP_other (items : List (String × PVal)) : ∀ r (k : String),
    ¬ k = "hooks" → ¬ k = "permissions" →
    PVal.lookupKey (topEntriesStepP r items) k =
      items.foldl (fun acc kv => if kv.1 = k then some kv.2 else acc)
        (PVal.lookupKey r k) := by
  induction items with
  | nil => intro r k _ _; rfl
  | cons kv rest ih =>
      intro r k hk1 hk2
      obtain ⟨key, value⟩ := kv
      by_cases hkey : key = "hooks"
      · subst hkey
        have hne : (("hooks" : String) = k) = False :=
          eq_false fun h => hk1 h.symm
        cases hh : PVal.lookupKey r "hooks" with
        | none =>
            rw [topP_cons_hooks_fresh r value rest hh]
            rw [ih _ k hk1 hk2]
            rw [PVal.lookupKey_setKeyL_ne _ _ _ _ hk1]
            simp [List.foldl_cons, hne]
        | some w =>
            rw [topP_cons_hooks_any r value rest w hh]
            rw [ih _ k hk1 hk2]
            rw [PVal.lookupKey_setKeyL_ne _ _ _ _ hk1]
            simp [List.foldl_cons, hne]
      · by_cases hkey2 : key = "permissions"
        · subst hkey2
          have hne : (("permissions" : String) = k) = False :=
            eq_false fun h => hk2 h.symm
          cases hp : PVal.lookupKey r "permissions" with
          | none =>
              rw [topP_cons_perms_fresh r value rest hp]
              rw [ih _ k hk1 hk2]
              rw [PVal.lookupKey_setKeyL_ne _ _ _ _ hk2]
              simp [List.foldl_cons, hne]
          | some w =>
              rw [topP_cons_perms_any r value rest w hp]
              rw [ih _ k hk1 hk2]
              rw [PVal.lookupKey_setKeyL_ne _ _ _ _ hk2]
              simp [List.foldl_cons, hne]
        · rw [topP_cons_other r key value rest hkey hkey2]
          rw [ih _ k hk1 hk2]
          by_cases hkk : key = k
          · subst hkk
            rw [PVal.lookupKey_setKeyL_self]
            simp [List.foldl_cons]
          · rw [PVal.lookupKey_setKeyL_ne _ _ _ _ (Ne.symm hkk)]
            simp [List.foldl_cons, eq_false hkk]

theorem hasKeyL_eq_any (es : List (String × PVal)) (k : String) :
    PVal.hasKeyL es k = es.any fun kv => kv.1 = k := by
  induction es with
  | nil => simp [PVal.hasKeyL, PVal.lookupKey]
  | cons kv rest ih =>
      obtain ⟨k₀, v₀⟩ := kv
      by_cases h₀ : k₀ = k
      · subst h₀; simp [PVal.hasKeyL, PVal.lookupKey]
      · simp only [PVal.hasKeyL, PVal.lookupKey, if_neg h₀, List.any_cons] at ih ⊢
        rw [ih]
        simp [h₀]

theorem hookItemsIn_eq_nil (items : List (String × PVal))
    (h : (items.any fun kv => kv.1 = "hooks") = false) :
    hookItemsIn items = [] := by
  rw [hookItemsIn, List.filter_eq_nil_iff.mpr, List.flatMap_nil]
  intro kv hkv
  rw [List.any_eq_false] at h
  simpa using h kv hkv

theorem permItemsIn_eq_nil (items : List (String × PVal))
    (h : (items.any fun kv => kv.1 = "permissions") = false) :
    permItemsIn items = [] := by
  rw [permItemsIn, List.filter_eq_nil_iff.mpr, List.flatMap_nil]
  intro kv hkv
  rw [List.any_eq_false] at h
  simpa using h kv hkv

theorem lookup_foldP_hooks_some (docs : List PVal) : ∀ r hv,
    PVal.lookupKey r "hooks" = some (.dict hv) →
    PVal.lookupKey (mergeFoldP r docs) "hooks" =
      some (.dict (hookTypesStepP hv (allHookItems docs))) := by
  induction docs with
  | nil => intro r hv hl; simpa [mergeFoldP, allHookItems] using hl
  | cons doc rest ih =>
      intro r hv hl
      rw [show mergeFoldP r (doc :: rest) =
        mergeFoldP (topEntriesStepP r (PVal.asDictD doc)) rest from rfl]
      rw [ih _ _ (lookup_topP_hooks_some (PVal.asDictD doc) r hv hl)]
      rw [show allHookItems (doc :: rest) =
        hookItemsIn (PVal.asDictD doc) ++ allHookItems rest from by
        simp [allHookItems]]
      rw [hookTypesStepP_append]

theorem lookup_foldP_hooks_none (docs : List PVal) : ∀ r,
    PVal.lookupKey r "hooks" = none →
    PVal.lookupKey (mergeFoldP r docs) "hooks" =
      (if anyHasKey docs "hooks"
       then some (.dict (hookTypesStepP [] (allHookItems docs)))
       else none) := by
  induction docs with
  | nil => intro r hl; simpa [mergeFoldP, anyHasKey] using hl
  | cons doc rest ih =>
      intro r hl
      rw [show mergeFoldP r (doc :: rest) =
        mergeFoldP (topEntriesStepP r (PVal.asDictD doc)) rest from rfl]
      have hsplit : anyHasKey (doc :: rest) "hooks" =
          (((PVal.asDictD doc).any fun kv => kv.1 = "hooks") ||
            anyHasKey rest "hooks") := by
        simp [anyHasKey, hasKeyL_eq_any]
      cases hdoc : (PVal.asDictD doc).any fun kv => kv.1 = "hooks" with
      | true =>
          have hstep := lookup_topP_hooks_none (PVal.asDictD doc) r hl
          rw [hdoc, if_pos rfl] at hstep
          rw [lookup_foldP_hooks_some rest _ _ hstep]
          rw [hsplit, hdoc, Bool.true_or, if_pos rfl]
          rw [show allHookItems (doc :: rest) =
            hookItemsIn (PVal.asDictD doc) ++ allHookItems rest from by
            simp [allHookItems]]
          rw [hookTypesStepP_append]
      | false =>
          have hstep := lookup_topP_hooks_none (PVal.asDictD doc) r hl
          rw [hdoc] at hstep
          simp only [Bool.false_eq_true, if_false] at hstep
          rw [ih _ hstep]
          rw [hsplit, hdoc, Bool.false_or]
          rw [show allHookItems (doc :: rest) =
            hookItemsIn (PVal.asDictD doc) ++ allHookItems rest from by
            simp [allHookItems]]
          rw [hookItemsIn_eq_nil _ hdoc, List.nil_append]

theorem lookup_foldP_perms_some (docs : List PVal) : ∀ r pv,
    PVal.lookupKey r "permissions" = some (.dict pv) →
    PVal.lookupKey (mergeFoldP r docs) "permissions" =
      some (.dict (permTypesStepP pv (allPermItems docs))) := by
  induction docs with
  | nil => intro r pv hl; simpa [mergeFoldP, allPermItems] using hl
  | cons doc rest ih =>
      intro r pv hl
      rw [show mergeFoldP r (doc :: rest) =
        mergeFoldP (topEntriesStepP r (PVal.asDictD doc)) rest from rfl]
      rw [ih _ _ (lookup_topP_perms_some (PVal.asDictD doc) r pv hl)]
      rw [show allPermItems (doc :: rest) =
        permItemsIn (PVal.asDictD doc) ++ allPermItems rest from by
        simp [allPermItems]]
      rw [permTypesStepP_append]

theorem lookup_foldP_perms_none (docs : List PVal) : ∀ r,
    PVal.lookupKey r "permissions" = none →
    PVal.lookupKey (mergeFoldP r docs) "permissions" =
      (if anyHasKey docs "permissions"
       then some (.dict (permTypesStepP permsInit (allPermItems docs)))
       else none) := by
  induction docs with
  | nil => intro r hl; simpa [mergeFoldP, anyHasKey] using hl
  | cons doc rest ih =>
      intro r hl
      rw [show mergeFoldP r (doc :: rest) =
        mergeFoldP (topEntriesStepP r (PVal.asDictD doc)) rest from rfl]
      have hsplit : anyHasKey (doc :: rest) "permissions" =
          (((PVal.asDictD doc).any fun kv => kv.1 = "permissions") ||
            anyHasKey rest "permissions") := by
        simp [anyHasKey, hasKeyL_eq_any]
      cases hdoc : (PVal.asDictD doc).any fun kv => kv.1 = "permissions" with
      | true =>
          have hstep := lookup_topP_perms_none (PVal.asDictD doc) r hl
          rw [hdoc, if_pos rfl] at hstep
          rw [lookup_foldP_perms_some rest _ _ hstep]
          rw [hsplit, hdoc, Bool.true_or, if_pos rfl]
          rw [show allPermItems (doc :: rest) =
            permItemsIn (PVal.asDictD doc) ++ allPermItems rest from by
            simp [allPermItems]]
          rw [permTypesStepP_append]
      | false =>
          have hstep := lookup_topP_perms_none (PVal.asDictD doc) r hl
          rw [hdoc] at hstep
          simp only [Bool.false_eq_true, if_false] at hstep
          rw [ih _ hstep]
          rw [hsplit, hdoc, Bool.false_or]
          rw [show allPermItems (doc :: rest) =
            permItemsIn (PVal.asDictD doc) ++ allPermItems rest from by
            simp [allPermItems]]
          rw [permItemsIn_eq_nil _ hdoc, List.nil_append]

theorem lookup_foldP_other (docs : List PVal) : ∀ r (k : String),
    ¬ k = "hooks" → ¬ k = "permissions" →
    PVal.lookupKey (mergeFoldP r docs) k =
      (docs.flatMap PVal.asDictD).foldl
        (fun acc kv => if kv.1 = k then some kv.2 else acc)
        (PVal.lookupKey r k) := by
  induction docs with
  | nil => intro r k _ _; rfl
  | cons doc rest ih =>
      intro r k hk1 hk2
      rw [show mergeFoldP r (doc :: rest) =
        mergeFoldP (topEntriesStepP r (PVal.asDictD doc)) rest from rfl]
      rw [ih _ k hk1 hk2]
      rw [lookup_topP_other (PVal.asDictD doc) r k hk1 hk2]
      rw [show (doc :: rest).flatMap PVal.asDictD =
        PVal.asDictD doc ++ rest.flatMap PVal.asDictD from by simp]
      rw [List.foldl_append]

theorem lookup_permPhase (r1 : List (String × PVal)) (k : String)
    (hk : ¬ k = "permissions") :
    PVal.lookupKey
      (match PVal.lookupKey r1 "permissions" with
       | some pval =>
           PVal.setKeyL r1 "permissions"
             (.dict (dedupePermsValsP (PVal.asDictD pval)))
       | none => r1) k = PVal.lookupKey r1 k := by
  cases h : PVal.lookupKey r1 "permissions" with
  | none => rfl
  | some pval => exact PVal.lookupKey_setKeyL_ne _ _ _ _ hk

theorem lookup_hooksPhase (r0 : List (String × PVal)) (k : String)
    (hk : ¬ k = "hooks") :
    PVal.lookupKey
      (match PVal.lookupKey r0 "hooks" with
       | some hval =>
           PVal.setKeyL r0 "hooks"
             (.dict (regroupHooksValsP (PVal.asDictD hval)))
       | none => r0) k = PVal.lookupKey r0 k := by
  cases h : PVal.lookupKey r0 "hooks" with
  | none => rfl
  | some hval => exact PVal.lookupKey_setKeyL_ne _ _ _ _ hk

theorem lookup_mergePureTop_hooks (docs : List PVal) :
    PVal.lookupKey (mergePureTop docs) "hooks" =
      (if anyHasKey docs "hooks"
       then some (.dict (regroupHooksValsP
         (hookTypesStepP [] (allHookItems docs))))
       else none) := by
  have hH := lookup_foldP_hooks_none docs [] rfl
  unfold mergePureTop
  rw [lookup_permPhase _ "hooks" (by decide)]
  cases hany : anyHasKey docs "hooks" with
  | true =>
      rw [hany, if_pos rfl] at hH
      rw [hH, PVal.lookupKey_setKeyL_self]
      simp [PVal.asDictD]
  | false =>
      rw [hany] at hH
      simp only [Bool.false_eq_true, if_false] at hH
      rw [hH]
      simp [hH]

theorem lookup_permPhase_self (r1 : List (String × PVal)) :
    PVal.lookupKey
      (match PVal.lookupKey r1 "permissions" with
       | some pval =>
           PVal.setKeyL r1 "permissions"
             (.dict (dedupePermsValsP (PVal.asDictD pval)))
       | none => r1) "permissions" =
      (match PVal.lookupKey r1 "permissions" with
       | some pval => some (.dict (dedupePermsValsP (PVal.asDictD pval)))
       | none => none) := by
  cases h : PVal.lookupKey r1 "permissions" with
  | none => simpa using h
  | some pval => simp [PVal.lookupKey_setKeyL_self]

theorem lookup_mergePureTop_perms (docs : List PVal) :
    PVal.lookupKey (mergePureTop docs) "permissions" =
      (if anyHasKey docs "permissions"
       then some (.dict (dedupePermsValsP
         (permTypesStepP permsInit (allPermItems docs))))
       else none) := by
  have hP := lookup_foldP_perms_none docs [] rfl
  unfold mergePureTop
  rw [lookup_permPhase_self]
  rw [lookup_hooksPhase _ "permissions" (by decide)]
  rw [hP]
  cases hany : anyHasKey docs "permissions" with
  | true => simp [PVal.asDictD]
  | false => simp

theorem lookup_mergePureTop_other (docs : List PVal) (k : String)
    (hk1 : ¬ k = "hooks") (hk2 : ¬ k = "permissions") :
    PVal.lookupKey (mergePureTop docs) k = lastValueOf docs k := by
  unfold mergePureTop
  rw [lookup_permPhase _ k hk2, lookup_hooksPhase _ k hk1]
  have h := lookup_foldP_other docs [] k hk1 hk2
  simpa [PVal.lookupKey, lastValueOf] using h

/-! ## First-occurrence dedup lemmas -/
theorem peq_symm {a b : PVal} : PVal.peq a b = PVal.peq b a := by
  cases a <;> cases b <;> simp [PVal.peq] <;> exact eq_comm

theorem dedupBy_sublist (key : PVal → PVal) (l : List PVal) : ∀ seen,
    (dedupBy key seen l).Sublist l := by
  induction l with
  | nil => intro seen; simp [dedupBy]
  | cons x rest ih =>
      intro seen
      simp only [dedupBy]
      split
      · exact (ih seen).trans (List.sublist_cons_self x rest)
      · exact (ih (key x :: seen)).cons₂ x

theorem dedupBy_not_seen (key : PVal → PVal) (l : List PVal) : ∀ seen x,
    x ∈ dedupBy key seen l → PVal.pmem (key x) seen = false := by
  induction l with
  | nil => intro seen x hx; simp [dedupBy] at hx
  | cons y rest ih =>
      intro seen x hx
      simp only [dedupBy] at hx
      split at hx
      · exact ih seen x hx
      · next hns =>
          have hns' : PVal.pmem (key y) seen = false := by
            simpa using hns
          rcases List.mem_cons.mp hx with rfl | hx'
          · exact hns'
          · have h2 := ih _ x hx'
            simp only [PVal.pmem, List.any_cons, Bool.or_eq_false_iff] at h2
            simpa [PVal.pmem] using h2.2

theorem dedupBy_map_key_nodup (key : PVal → PVal) (l : List PVal) : ∀ seen,
    (∀ x ∈ l, PVal.hashable (key x) = true) →
    ((dedupBy key seen l).map key).Nodup := by
  induction l with
  | nil => intro seen _; simp [dedupBy]
  | cons y rest ih =>
      intro seen hh
      simp only [dedupBy]
      split
      · exact ih seen fun x hx => hh x (List.mem_cons_of_mem _ hx)
      · next hns =>
          simp only [List.map_cons, List.nodup_cons]
          constructor
          · intro hmem
            obtain ⟨x, hx, hkx⟩ := List.mem_map.mp hmem
            have hxs := dedupBy_not_seen key rest _ x hx
            rw [hkx] at hxs
            simp only [PVal.pmem, List.any_cons] at hxs
            have hkyh : PVal.hashable (key y) = true :=
              hh y (List.mem_cons_self ..)
            rw [PVal.peq_refl hkyh] at hxs
            simp at hxs
          · exact ih _ fun x hx => hh x (List.mem_cons_of_mem _ hx)

theorem dedupBy_append (key : PVal → PVal) (xs ys : List PVal) : ∀ seen,
    dedupBy key seen (xs ++ ys) =
      dedupBy key seen xs ++ dedupBy key (keyAcc key seen xs) ys := by
  induction xs with
  | nil => intro seen; simp [dedupBy, keyAcc]
  | cons x rest ih =>
      intro seen
      by_cases hp : PVal.pmem (key x) seen = true
      · have e1 : dedupBy key seen ((x :: rest) ++ ys) =
            dedupBy key seen (rest ++ ys) := by
          simp [dedupBy, hp]
        have e2 : dedupBy key seen (x :: rest) = dedupBy key seen rest := by
          simp [dedupBy, hp]
        have e3 : keyAcc key seen (x :: rest) = keyAcc key seen rest := by
          simp [keyAcc, hp]
        rw [e1, e2, e3, ih]
      · have hp' : PVal.pmem (key x) seen = false := by simpa using hp
        have e1 : dedupBy key seen ((x :: rest) ++ ys) =
            x :: dedupBy key (key x :: seen) (rest ++ ys) := by
          simp [dedupBy, hp']
        have e2 : dedupBy key seen (x :: rest) =
            x :: dedupBy key (key x :: seen) rest := by
          simp [dedupBy, hp']
        have e3 : keyAcc key seen (x :: rest) =
            keyAcc key (key x :: seen) rest := by
          simp [keyAcc, hp']
        rw [e1, e2, e3, ih]
        rfl

theorem dedupBy_absorb (key : PVal → PVal) (xs ys : List PVal) : ∀ seen,
    dedupBy key seen (dedupBy key seen xs ++ ys) =
      dedupBy key seen (xs ++ ys) := by
  induction xs with
  | nil => intro seen; simp [dedupBy]
  | cons x rest ih =>
      intro seen
      by_cases hp : PVal.pmem (key x) seen = true
      · have e2 : dedupBy key seen (x :: rest) = dedupBy key seen rest := by
          simp [dedupBy, hp]
        have e1 : dedupBy key seen ((x :: rest) ++ ys) =
            dedupBy key seen (rest ++ ys) := by
          simp [dedupBy, hp]
        rw [e2, e1, ih]
      · have hp' : PVal.pmem (key x) seen = false := by simpa using hp
        have e2 : dedupBy key seen (x :: rest) =
            x :: dedupBy key (key x :: seen) rest := by
          simp [dedupBy, hp']
        have e1 : dedupBy key seen ((x :: rest) ++ ys) =
            x :: dedupBy key (key x :: seen) (rest ++ ys) := by
          simp [dedupBy, hp']
        rw [e2, e1]
        have e3 : dedupBy key seen
            ((x :: dedupBy key (key x :: seen) rest) ++ ys) =
            x :: dedupBy key (key x :: seen)
              (dedupBy key (key x :: seen) rest ++ ys) := by
          simp [dedupBy, hp']
        rw [e3, ih]

theorem pmem_iff_mem {l : List PVal} {m : PVal}
    (hl : ∀ y ∈ l, PVal.hashable y = true) :
    PVal.pmem m l = true ↔ m ∈ l := by
  induction l with
  | nil => simp [PVal.pmem]
  | cons y ys ih =>
      simp only [PVal.pmem, List.any_cons, Bool.or_eq_true, List.mem_cons]
      constructor
      · rintro (h | h)
        · exact Or.inl (PVal.eq_of_peq h).symm
        · exact Or.inr ((ih fun z hz => hl z (List.mem_cons_of_mem _ hz)).mp h)
      · rintro (rfl | h)
        · exact Or.inl (PVal.peq_refl (hl m (List.mem_cons_self ..)))
        · exact Or.inr ((ih fun z hz => hl z (List.mem_cons_of_mem _ hz)).mpr h)

theorem pmem_append (q : PVal) (a b : List PVal) :
    PVal.pmem q (a ++ b) = (PVal.pmem q a || PVal.pmem q b) := by
  simp [PVal.pmem, List.any_append]

theorem lookupPK_map_of_mem {ms : List PVal} {m₀ : PVal}
    (C : PVal → List PVal)
    (hh : ∀ m ∈ ms, PVal.hashable m = true) (hm : m₀ ∈ ms) :
    lookupPK (ms.map fun m => (m, C m)) m₀ = some (C m₀) := by
  induction ms with
  | nil => simp at hm
  | cons m ms ih =>
      simp only [List.map_cons, lookupPK]
      by_cases hp : PVal.peq m m₀ = true
      · obtain rfl := PVal.eq_of_peq hp
        simp [hp]
      · have hp' : PVal.peq m m₀ = false := by simpa using hp
        rw [hp']
        simp only [Bool.false_eq_true, if_false]
        rcases List.mem_cons.mp hm with rfl | hm'
        · exact absurd (PVal.peq_refl (hh m₀ (List.mem_cons_self ..))) (by simp [hp'])
        · exact ih (fun z hz => hh z (List.mem_cons_of_mem _ hz)) hm'

theorem lookupPK_map_of_not_pmem {ms : List PVal} {m₀ : PVal}
    (C : PVal → List PVal) (hm : PVal.pmem m₀ ms = false) :
    lookupPK (ms.map fun m => (m, C m)) m₀ = none := by
  induction ms with
  | nil => rfl
  | cons m ms ih =>
      simp only [PVal.pmem, List.any_cons, Bool.or_eq_false_iff] at hm
      simp only [List.map_cons, lookupPK, hm.1, Bool.false_eq_true, if_false]
      exact ih (by simpa [PVal.pmem] using hm.2)

theorem setPK_not_found (bm : List (PVal × List PVal)) (m₀ : PVal)
    (v : List PVal) (h : lookupPK bm m₀ = none) :
    setPK bm m₀ v = bm ++ [(m₀, v)] := by
  induction bm with
  | nil => rfl
  | cons kv rest ih =>
      obtain ⟨k, w⟩ := kv
      simp only [lookupPK] at h
      by_cases hp : PVal.peq k m₀ = true
      · rw [if_pos hp] at h; exact absurd h (by simp)
      · have hp' : PVal.peq k m₀ = false := by simpa using hp
        rw [if_neg (by simp [hp'])] at h
        simp only [setPK, hp', Bool.false_eq_true, if_false, List.cons_append]
        rw [ih h]

theorem setPK_map {ms : List PVal} {m₀ : PVal} (C : PVal → List PVal)
    (v : List PVal)
    (hh : ∀ m ∈ ms, PVal.hashable m = true) (hnd : nodupP ms = true)
    (hm : m₀ ∈ ms) :
    setPK (ms.map fun m => (m, C m)) m₀ v =
      ms.map fun m => (m, if PVal.peq m m₀ then v else C m) := by
  induction ms with
  | nil => simp at hm
  | cons m ms ih =>
      simp only [nodupP, Bool.and_eq_true, Bool.not_eq_true'] at hnd
      obtain ⟨hnm, hnd'⟩ := hnd
      simp only [List.map_cons, setPK]
      by_cases hp : PVal.peq m m₀ = true
      · obtain rfl := PVal.eq_of_peq hp
        rw [if_pos hp, if_pos hp]
        congr 1
        have : ∀ m' ∈ ms, PVal.peq m' m = false := by
          intro m' hm'
          by_cases hq : PVal.peq m' m = true
          · obtain rfl := PVal.eq_of_peq hq
            rw [(pmem_iff_mem fun z hz =>
              hh z (List.mem_cons_of_mem _ hz)).mpr hm'] at hnm
            exact absurd hnm (by simp)
          · simpa using hq
        rw [List.map_congr_left]
        intro m' hm'
        rw [this m' hm']
        simp
      · have hp' : PVal.peq m m₀ = false := by simpa using hp
        rw [hp']
        simp only [Bool.false_eq_true, if_false]
        rcases List.mem_cons.mp hm with rfl | hm'
        · exact absurd (PVal.peq_refl (hh m₀ (List.mem_cons_self ..))) (by simp [hp'])
        · rw [ih (fun z hz => hh z (List.mem_cons_of_mem _ hz)) hnd' hm']

theorem dedupBy_seen_congr (key : PVal → PVal) (l : List PVal) :
    ∀ s1 s2, (∀ q, PVal.pmem q s1 = PVal.pmem q s2) →
    dedupBy key s1 l = dedupBy key s2 l := by
  induction l with
  | nil => intro s1 s2 _; rfl
  | cons x rest ih =>
      intro s1 s2 hs
      simp only [dedupBy, hs (key x)]
      split
      · exact ih s1 s2 hs
      · rw [ih (key x :: s1) (key x :: s2) fun q => by
          have hq := hs q
          simp only [PVal.pmem, List.any_cons] at hq ⊢
          rw [hq]]

theorem collectEnt_cons (e : PVal) (rest : List PVal) (m : PVal) :
    collectEnt (e :: rest) m =
      (if PVal.peq (PVal.matcherOf e) m then PVal.entriesOf e else []) ++
        collectEnt rest m := by
  simp only [collectEnt, List.filter_cons]
  split
  · next h => simp [h]
  · next h =>
      have h' : PVal.peq (PVal.matcherOf e) m = false := by
        revert h
        cases PVal.peq (PVal.matcherOf e) m <;> simp
      simp [h']

theorem nodupP_append_singleton {ms : List PVal} {m₀ : PVal}
    (hnd : nodupP ms = true) (hp : PVal.pmem m₀ ms = false) :
    nodupP (ms ++ [m₀]) = true := by
  induction ms with
  | nil => simp [nodupP, PVal.pmem]
  | cons m ms ih =>
      simp only [nodupP, Bool.and_eq_true, Bool.not_eq_true'] at hnd
      simp only [PVal.pmem, List.any_cons, Bool.or_eq_false_iff] at hp
      have h1 : PVal.pmem m (ms ++ [m₀]) = false := by
        rw [pmem_append]
        simp only [Bool.or_eq_false_iff]
        refine ⟨hnd.1, ?_⟩
        simp only [PVal.pmem, List.any_cons, List.any_nil, Bool.or_false]
        rw [peq_symm]
        exact hp.1
      rw [List.cons_append]
      simp only [nodupP, Bool.and_eq_true, Bool.not_eq_true']
      exact ⟨h1, ih hnd.2 (by simpa [PVal.pmem] using hp.2)⟩

theorem byMatcherStepP_spec (entries : List PVal) :
    ∀ (ms : List PVal) (C : PVal → List PVal),
    (∀ e ∈ entries, PVal.hashable (PVal.matcherOf e) = true) →
    (∀ m ∈ ms, PVal.hashable m = true) →
    nodupP ms = true →
    byMatcherStepP (ms.map fun m => (m, C m)) entries =
      ms.map (fun m => (m, C m ++ collectEnt entries m)) ++
        (dedupBy (fun x => x) ms (entries.map PVal.matcherOf)).map
          (fun m => (m, collectEnt entries m)) := by
  induction entries with
  | nil =>
      intro ms C _ _ _
      simp [byMatcherStepP, collectEnt, dedupBy]
  | cons e rest ih =>
      intro ms C hent hms hnd
      have hm₀ : PVal.hashable (PVal.matcherOf e) = true :=
        hent e (List.mem_cons_self ..)
      have hent' : ∀ x ∈ rest, PVal.hashable (PVal.matcherOf x) = true :=
        fun x hx => hent x (List.mem_cons_of_mem _ hx)
      simp only [byMatcherStepP]
      by_cases hp : PVal.pmem (PVal.matcherOf e) ms = true
      · have hmem : PVal.matcherOf e ∈ ms := (pmem_iff_mem hms).mp hp
        have hlk := lookupPK_map_of_mem C hms hmem
        simp only [hlk, Option.isSome_some, if_true, Option.getD_some]
        rw [setPK_map C _ hms hnd hmem]
        rw [ih _ _ hent' hms hnd]
        have hdedup : dedupBy (fun x => x) ms
            ((e :: rest).map PVal.matcherOf) =
            dedupBy (fun x => x) ms (rest.map PVal.matcherOf) := by
          simp only [List.map_cons, dedupBy, hp, if_true]
        rw [hdedup]
        congr 1
        · apply List.map_congr_left
          intro m hmm
          by_cases hq : PVal.peq m (PVal.matcherOf e) = true
          · obtain rfl := PVal.eq_of_peq hq
            rw [if_pos hq, collectEnt_cons,
              if_pos (PVal.peq_refl hm₀), List.append_assoc]
          · have hq' : PVal.peq m (PVal.matcherOf e) = false := by simpa using hq
            rw [hq']
            simp only [Bool.false_eq_true, if_false]
            rw [collectEnt_cons]
            rw [show PVal.peq (PVal.matcherOf e) m = false from by
              rw [peq_symm]; exact hq']
            simp
        · apply List.map_congr_left
          intro m' hm'
          have hnotin := dedupBy_not_seen (fun x => x) _ _ _ hm'
          rw [collectEnt_cons]
          rw [show PVal.peq (PVal.matcherOf e) m' = false from by
            by_cases hq : PVal.peq (PVal.matcherOf e) m' = true
            · obtain rfl := PVal.eq_of_peq hq
              rw [hp] at hnotin
              exact absurd hnotin (by simp)
            · simpa using hq]
          simp
      · have hp' : PVal.pmem (PVal.matcherOf e) ms = false := by simpa using hp
        have hpeq_ms : ∀ m ∈ ms, PVal.peq m (PVal.matcherOf e) = false := by
          intro m hmm
          simp only [PVal.pmem, List.any_eq_false] at hp'
          simpa using hp' m hmm
        have hlkn := lookupPK_map_of_not_pmem C hp'
        rw [hlkn]
        simp only [Option.isSome_none, Bool.false_eq_true, if_false]
        rw [setPK_not_found _ _ _ hlkn]
        have hform : (ms.map fun m => (m, C m)) ++ [(PVal.matcherOf e, [])] =
            (ms ++ [PVal.matcherOf e]).map fun m =>
              (m, if PVal.peq m (PVal.matcherOf e) then [] else C m) := by
          rw [List.map_append]
          congr 1
          · apply List.map_congr_left
            intro m hmm
            rw [hpeq_ms m hmm]
            simp
          · simp [PVal.peq_refl hm₀]
        rw [hform]
        have hms' : ∀ m ∈ ms ++ [PVal.matcherOf e], PVal.hashable m = true := by
          intro m hmm
          rcases List.mem_append.mp hmm with h | h
          · exact hms m h
          · simp only [List.mem_singleton] at h
            exact h ▸ hm₀
        have hnd' : nodupP (ms ++ [PVal.matcherOf e]) = true :=
          nodupP_append_singleton hnd hp'
        have hmem' : PVal.matcherOf e ∈ ms ++ [PVal.matcherOf e] := by simp
        rw [lookupPK_map_of_mem _ hms' hmem']
        simp only [Option.getD_some, PVal.peq_refl hm₀, if_true,
          List.nil_append]
        rw [setPK_map _ _ hms' hnd' hmem']
        rw [ih _ _ hent' hms' hnd']
        have hdedup : dedupBy (fun x => x) ms
            ((e :: rest).map PVal.matcherOf) =
            PVal.matcherOf e ::
              dedupBy (fun x => x) (PVal.matcherOf e :: ms)
                (rest.map PVal.matcherOf) := by
          simp only [List.map_cons, dedupBy, hp', Bool.false_eq_true, if_false]
        rw [hdedup]
        have hseen : dedupBy (fun x => x) (ms ++ [PVal.matcherOf e])
            (rest.map PVal.matcherOf) =
            dedupBy (fun x => x) (PVal.matcherOf e :: ms)
              (rest.map PVal.matcherOf) := by
          apply dedupBy_seen_congr
          intro q
          rw [pmem_append]
          simp only [PVal.pmem, List.any_cons, List.any_nil, Bool.or_false]
          rw [Bool.or_comm]
        rw [hseen]
        rw [List.map_append, List.append_assoc]
        congr 1
        · apply List.map_congr_left
          intro m hmm
          rw [show PVal.peq m (PVal.matcherOf e) = false from hpeq_ms m hmm]
          simp only [Bool.false_eq_true, if_false]
          rw [collectEnt_cons]
          rw [show PVal.peq (PVal.matcherOf e) m = false from by
            rw [peq_symm]; exact hpeq_ms m hmm]
          simp
        · simp only [List.map_cons, List.map_nil, List.nil_append,
            List.singleton_append, List.cons_append, List.cons.injEq]
          constructor
          · rw [PVal.peq_refl hm₀]
            simp only [if_true]
            rw [collectEnt_cons, if_pos (PVal.peq_refl hm₀)]
          · apply List.map_congr_left
            intro m' hm'
            have hnotin := dedupBy_not_seen (fun x => x) _ _ _ hm'
            simp only [PVal.pmem, List.any_cons, Bool.or_eq_false_iff] at hnotin
            rw [collectEnt_cons, hnotin.1]
            simp

/-- The grouping of one hook type's concatenated matcher-group list:
one group per distinct matcher, in first-appearance order, with
entries concatenated in arrival order. -/
theorem byMatcherStepP_nil_spec (entries : List PVal)
    (hent : ∀ e ∈ entries, PVal.hashable (PVal.matcherOf e) = true) :
    byMatcherStepP [] entries =
      (pdedup (entries.map PVal.matcherOf)).map
        (fun m => (m, collectEnt entries m)) := by
  have h := byMatcherStepP_spec entries [] (fun _ => []) hent
    (by intro m hm; simp at hm) rfl
  simpa [pdedup] using h

theorem lookupKey_map_vals (f : PVal → PVal) (es : List (String × PVal))
    (k : String) :
    PVal.lookupKey (es.map fun kv => (kv.1, f kv.2)) k =
      (PVal.lookupKey es k).map f := by
  induction es with
  | nil => rfl
  | cons kv rest ih =>
      obtain ⟨k₀, v₀⟩ := kv
      by_cases h₀ : k₀ = k
      · subst h₀; simp [PVal.lookupKey]
      · simp [PVal.lookupKey, h₀, ih]

theorem isStr_matcherOf {g : PVal} (hg : validGroup g = true) :
    PVal.isStr (PVal.matcherOf g) = true := by
  cases g with
  | dict es =>
      simp only [validGroup, Bool.and_eq_true] at hg
      obtain ⟨⟨-, hm⟩, -⟩ := hg
      revert hm
      cases h : PVal.lookupKey es "matcher" with
      | none => intro _; simp [PVal.matcherOf, PVal.getD, h, PVal.isStr]
      | some v =>
          intro hm
          simp only [PVal.matcherOf, PVal.getD, h, Option.getD_some]
          simpa using hm
  | null => simp [validGroup] at hg
  | bool b => simp [validGroup] at hg
  | int n => simp [validGroup] at hg
  | str s => simp [validGroup] at hg
  | list xs => simp [validGroup] at hg

theorem allHookItems_valid (docs : List PVal)
    (h : docs.all validDoc = true) :
    ((allHookItems docs).all fun kv =>
      match kv.2 with
      | PVal.list gs => gs.all validGroup
      | _ => false) = true := by
  rw [List.all_eq_true]
  intro kv hkv
  rw [allHookItems, List.mem_flatMap] at hkv
  obtain ⟨doc, hdoc, hkv⟩ := hkv
  rw [List.all_eq_true] at h
  have hvd := h doc hdoc
  obtain ⟨es, rfl, hitems, -⟩ := validDoc_inv hvd
  rw [hookItemsIn, List.mem_flatMap] at hkv
  obtain ⟨item, hitem, hkv⟩ := hkv
  rw [List.mem_filter] at hitem
  obtain ⟨hmem, hk⟩ := hitem
  simp only [decide_eq_true_eq] at hk
  rw [validItems, List.all_eq_true] at hitems
  have := hitems item hmem
  rw [if_pos hk] at this
  obtain ⟨hitems2, heq, hv⟩ := validHooksVal_inv this
  rw [show PVal.asDictD item.2 = hitems2 from by rw [heq]; rfl] at hkv
  rw [List.all_eq_true] at hv
  exact hv kv hkv

theorem groupsFor_valid (docs : List PVal) (t : String)
    (h : docs.all validDoc = true) :
    (groupsFor docs t).all validGroup = true := by
  have hall := allHookItems_valid docs h
  rw [List.all_eq_true]
  intro g hg
  rw [groupsFor, List.mem_flatMap] at hg
  obtain ⟨kv, hkv, hg⟩ := hg
  rw [List.mem_filter] at hkv
  rw [List.all_eq_true] at hall
  have := hall kv hkv.1
  revert this hg
  cases kv.2 with
  | list gs =>
      intro hg this
      rw [List.all_eq_true] at this
      exact this g (by simpa [PVal.asListD] using hg)
  | null => intro hg this; simp [PVal.asListD] at hg
  | bool b => intro hg this; simp [PVal.asListD] at hg
  | int n => intro hg this; simp [PVal.asListD] at hg
  | str s => intro hg this; simp [PVal.asListD] at hg
  | dict es => intro hg this; simp [PVal.asListD] at hg

theorem allPermItems_valid (docs : List PVal)
    (h : docs.all validDoc = true) :
    ((allPermItems docs).all fun kv =>
      (kv.1 = "allow" || kv.1 = "deny" || kv.1 = "ask")) = true ∧
    ((allPermItems docs).all fun kv =>
      match kv.2 with
      | PVal.list ss => ss.all PVal.isStr
      | _ => false) = true := by
  have hmain : ∀ kv ∈ allPermItems docs,
      (kv.1 = "allow" ∨ kv.1 = "deny" ∨ kv.1 = "ask") ∧
      (match kv.2 with
       | PVal.list ss => ss.all PVal.isStr
       | _ => false) = true := by
    intro kv hkv
    rw [allPermItems, List.mem_flatMap] at hkv
    obtain ⟨doc, hdoc, hkv⟩ := hkv
    rw [List.all_eq_true] at h
    obtain ⟨es, rfl, hitems, -⟩ := validDoc_inv (h doc hdoc)
    rw [permItemsIn, List.mem_flatMap] at hkv
    obtain ⟨item, hitem, hkv⟩ := hkv
    rw [List.mem_filter] at hitem
    obtain ⟨hmem, hk⟩ := hitem
    simp only [decide_eq_true_eq] at hk
    rw [validItems, List.all_eq_true] at hitems
    have hthis := hitems item hmem
    rw [if_neg (by simp [hk]), if_pos hk] at hthis
    obtain ⟨pitems, heq, hkeys, hstr⟩ := validPermsVal_inv hthis
    rw [show PVal.asDictD item.2 = pitems from by rw [heq]; rfl] at hkv
    constructor
    · rw [List.all_eq_true] at hkeys
      have := hkeys kv hkv
      simp only [Bool.and_eq_true, Bool.or_eq_true, decide_eq_true_eq] at this
      tauto
    · rw [List.all_eq_true] at hstr
      exact hstr kv hkv
  constructor
  · rw [List.all_eq_true]
    intro kv hkv
    have := (hmain kv hkv).1
    simp only [Bool.or_eq_true, decide_eq_true_eq]
    tauto
  · rw [List.all_eq_true]
    intro kv hkv
    exact (hmain kv hkv).2

/-- Specification form of the per-type regrouping: one rebuilt group per
distinct matcher (in first-appearance order), each holding the
command-deduplicated concatenation of its entries. -/
theorem regroupTypeP_spec (gs : List PVal) (h : gs.all validGroup = true) :
    regroupTypeP gs =
      (pdedup (gs.map PVal.matcherOf)).map fun m =>
        PVal.dict [("matcher", m),
          ("hooks", .list (dedupBy PVal.ckey [] (collectEnt gs m)))] := by
  rw [regroupTypeP, byMatcherStepP_nil_spec gs (by
    intro e he
    rw [List.all_eq_true] at h
    exact hashable_matcherOf (h e he))]
  rw [rebuildGroupsP, List.map_map]
  rfl

theorem dedupBy_covers (key : PVal → PVal) (l : List PVal) :
    ∀ seen, (∀ x ∈ l, PVal.hashable (key x) = true) →
    ∀ e ∈ l, PVal.pmem (key e) seen = true ∨
      ∃ e' ∈ dedupBy key seen l, PVal.peq (key e') (key e) = true := by
  induction l with
  | nil => intro seen _ e he; simp at he
  | cons x rest ih =>
      intro seen hh e he
      rcases List.mem_cons.mp he with rfl | he'
      · by_cases hp : PVal.pmem (key e) seen = true
        · exact Or.inl hp
        · right
          have hp' : PVal.pmem (key e) seen = false := by simpa using hp
          refine ⟨e, ?_, PVal.peq_refl (hh e (List.mem_cons_self ..))⟩
          simp [dedupBy, hp']
      · by_cases hp : PVal.pmem (key x) seen = true
        · have hd : dedupBy key seen (x :: rest) = dedupBy key seen rest := by
            simp [dedupBy, hp]
          rcases ih seen (fun z hz => hh z (List.mem_cons_of_mem _ hz)) e he' with
            hL | ⟨e', he'', hq⟩
          · exact Or.inl hL
          · exact Or.inr ⟨e', by rw [hd]; exact he'', hq⟩
        · have hp' : PVal.pmem (key x) seen = false := by simpa using hp
          have hd : dedupBy key seen (x :: rest) =
              x :: dedupBy key (key x :: seen) rest := by
            simp [dedupBy, hp']
          rcases ih (key x :: seen)
              (fun z hz => hh z (List.mem_cons_of_mem _ hz)) e he' with
            hL | ⟨e', he'', hq⟩
          · simp only [PVal.pmem, List.any_cons, Bool.or_eq_true] at hL
            rcases hL with hxq | hsq
            · exact Or.inr ⟨x, by rw [hd]; exact List.mem_cons_self .., hxq⟩
            · exact Or.inl (by simpa [PVal.pmem] using hsq)
          · exact Or.inr ⟨e', by rw [hd]; exact List.mem_cons_of_mem _ he'', hq⟩

theorem countP_le_one_of_nodup {p : PVal → Bool} {v : PVal} (l : List PVal)
    (hl : l.Nodup) (hp : ∀ x, p x = true → x = v) : l.countP p ≤ 1 := by
  induction l with
  | nil => simp
  | cons x rest ih =>
      rw [List.nodup_cons] at hl
      by_cases hx : p x = true
      · rw [List.countP_cons_of_pos _ _ hx]
        have hzero : rest.countP p = 0 := by
          rw [List.countP_eq_zero]
          intro y hy hyp
          have h1 := hp y hyp
          have h2 := hp x hx
          subst h1; subst h2
          exact hl.1 hy
        omega
      · rw [List.countP_cons_of_neg _ _ (by simpa using hx)]
        exact ih hl.2

theorem lookup_regroupHooksValsP (hv : List (String × PVal)) (t : String) :
    PVal.lookupKey (regroupHooksValsP hv) t =
      (PVal.lookupKey hv t).map fun v =>
        PVal.list (regroupTypeP (PVal.asListD v)) :=
  lookupKey_map_vals (fun v => PVal.list (regroupTypeP (PVal.asListD v))) hv t

theorem matcherOf_mergedGroups (docs : List PVal) (t : String) :
    (mergedGroups docs t).map PVal.matcherOf =
      pdedup ((groupsFor docs t).map PVal.matcherOf) := by
  rw [mergedGroups, List.map_map]
  have : ∀ m, (PVal.matcherOf ∘ fun m =>
      PVal.dict [("matcher", m),
        ("hooks", PVal.list (dedupBy PVal.ckey []
          (collectEnt (groupsFor docs t) m)))]) m = m := by
    intro m; rfl
  rw [List.map_congr_left fun m _ => this m]
  simp

theorem mergedGroups_matchers_nodup (docs : List PVal) (t : String)
    (h : docs.all validDoc = true) :
    ((mergedGroups docs t).map PVal.matcherOf).Nodup := by
  rw [matcherOf_mergedGroups]
  have hnd := dedupBy_map_key_nodup (fun x => x)
    ((groupsFor docs t).map PVal.matcherOf) [] (by
      intro x hx
      rw [List.mem_map] at hx
      obtain ⟨g, hg, rfl⟩ := hx
      have := groupsFor_valid docs t h
      rw [List.all_eq_true] at this
      exact hashable_matcherOf (this g hg))
  simpa using hnd

/-! ## Claim theorems -/
/-- C2: within each hook type of the merged output there is at most one
matcher group per distinct matcher value; the group list is indexed by the
first-occurrence dedup of the matchers of all contributed groups (in fold
order), and each group holds the command-deduplicated concatenation of its
entries in arrival order.  In particular, merging an empty document with a
`Bash`/`run-a` fragment and a `Bash`/`run-b` fragment yields exactly one
`Bash` group containing both entries in order. -/
theorem merge_matcher_grouping (docs : List PVal) (t : String)
    (h : docs.all validDoc = true) :
    (merge_settings docs = .ok (.dict (mergePureTop docs)) ∧
     (anyHasKey docs "hooks" = true →
        PVal.lookupKey (mergePureTop docs) "hooks" =
          some (.dict (mergedHooksDict docs))) ∧
     PVal.lookupKey (mergedHooksDict docs) t =
       (if (allHookItems docs).any (fun kv => kv.1 = t)
        then some (.list (mergedGroups docs t))
        else none) ∧
     ((mergedGroups docs t).map PVal.matcherOf).Nodup) ∧
    merge_settings
      [exEmpty, exHookFrag "run-a" "A", exHookFrag "run-b" "B"] =
      .ok (.dict [("hooks", .dict [("PreToolUse",
        .list [.dict [("matcher", .str "Bash"),
          ("hooks", .list [exHookEntry "run-a" "A",
                           exHookEntry "run-b" "B"])]])])]) := by
  refine ⟨⟨merge_settings_refines docs h, ?_, ?_, mergedGroups_matchers_nodup docs t h⟩, rfl⟩
  · intro hany
    rw [lookup_mergePureTop_hooks docs, hany, if_pos rfl]
    rfl
  · rw [mergedHooksDict, lookup_regroupHooksValsP,
      lookup_hookTypesStepP (allHookItems docs) [] t rfl]
    cases hT : (allHookItems docs).any (fun kv => kv.1 = t) with
    | false =>
        simp [PVal.hasKeyL, PVal.lookupKey]
    | true =>
        rw [if_pos (show (PVal.hasKeyL [] t || true) = true from rfl),
          Option.map_some', if_pos (show true = true from rfl)]
        have hGF : PVal.asListD (PVal.getD [] t (.list [])) ++
            ((allHookItems docs).filter (fun kv => kv.1 = t)).flatMap
              (fun kv => PVal.asListD kv.2) = groupsFor docs t := by
          simp [PVal.getD, PVal.lookupKey, PVal.asListD, groupsFor]
        rw [hGF]
        show some (PVal.list (regroupTypeP (groupsFor docs t))) = _
        rw [regroupTypeP_spec (groupsFor docs t) (groupsFor_valid docs t h)]
        rfl

/-- Witness for C2 at a concrete input. -/
theorem merge_matcher_grouping_witness :
    ([exEmpty, exHookFrag "run-a" "A", exHookFrag "run-b" "B"].all
      validDoc = true) ∧
    merge_settings [exEmpty, exHookFrag "run-a" "A", exHookFrag "run-b" "B"] =
      .ok (.dict (mergePureTop
        [exEmpty, exHookFrag "run-a" "A", exHookFrag "run-b" "B"])) :=
  ⟨rfl, (merge_matcher_grouping
    [exEmpty, exHookFrag "run-a" "A", exHookFrag "run-b" "B"]
    "PreToolUse" rfl).1.1⟩

/-- C3: within each merged matcher group, hook entries are unique by their
`command` string: `dedupe_hooks` keeps the first-encountered entry unchanged
(with all its fields), drops later entries with an equal command key, and
preserves the order of survivors; with two entries sharing a command but
differing in `statusMessage`, the first `statusMessage` survives. -/
theorem dedupe_hooks_first_wins (l : List PVal)
    (h : l.all validEntry = true) :
    (dedupe_hooks l = .ok (dedupBy PVal.ckey [] l) ∧
     (dedupBy PVal.ckey [] l).Sublist l ∧
     ((dedupBy PVal.ckey [] l).map PVal.ckey).Nodup ∧
     (∀ e ∈ l, ∃ e', e' ∈ dedupBy PVal.ckey [] l ∧
        PVal.peq (PVal.ckey e') (PVal.ckey e) = true) ∧
     (∀ e rest, l = e :: rest → (dedupBy PVal.ckey [] l).head? = some e)) ∧
    merge_settings [exHookFrag "python3 .claude/hooks/x.py" "first",
                    exHookFrag "python3 .claude/hooks/x.py" "second"] =
      .ok (.dict [("hooks", .dict [("PreToolUse",
        .list [.dict [("matcher", .str "Bash"),
          ("hooks",
           .list [exHookEntry "python3 .claude/hooks/x.py" "first"])]])])]) := by
  have hhash : ∀ x ∈ l, PVal.hashable (PVal.ckey x) = true := by
    intro x hx
    rw [List.all_eq_true] at h
    exact hashable_ckey (h x hx)
  refine ⟨⟨dedupeGo_ok l [] h, dedupBy_sublist _ _ _,
    dedupBy_map_key_nodup _ _ _ hhash, ?_, ?_⟩, rfl⟩
  · intro e he
    rcases dedupBy_covers PVal.ckey l [] hhash e he with hL | ⟨e', he', hq⟩
    · simp [PVal.pmem] at hL
    · exact ⟨e', he', hq⟩
  · intro e rest hrest
    subst hrest
    simp [dedupBy, PVal.pmem]

/-- Witness for C3 at a concrete input. -/
theorem dedupe_hooks_first_wins_witness :
    ([exHookEntry "c" "m1", exHookEntry "c" "m2"].all validEntry = true) ∧
    dedupe_hooks [exHookEntry "c" "m1", exHookEntry "c" "m2"] =
      .ok (dedupBy PVal.ckey [] [exHookEntry "c" "m1", exHookEntry "c" "m2"]) :=
  ⟨rfl, (dedupe_hooks_first_wins
    [exHookEntry "c" "m1", exHookEntry "c" "m2"] rfl).1.1⟩

/-- C4: merged permission lists are deduplicated with first occurrence kept
and order preserved; the `permissions` key appears in the output exactly when
some input document carries it, and then it holds exactly the three sub-keys
`allow`, `deny`, `ask` (absent ones defaulted to empty); merging allow lists
`[A, B]` and `[B, C]` yields `[A, B, C]`. -/
theorem merge_permissions_spec (docs : List PVal)
    (h : docs.all validDoc = true) :
    (merge_settings docs = .ok (.dict (mergePureTop docs)) ∧
     PVal.hasKeyL (mergePureTop docs) "permissions" =
       anyHasKey docs "permissions" ∧
     (anyHasKey docs "permissions" = true →
       PVal.lookupKey (mergePureTop docs) "permissions" =
         some (.dict [("allow", .list (mergedPermsList docs "allow")),
                      ("deny", .list (mergedPermsList docs "deny")),
                      ("ask", .list (mergedPermsList docs "ask"))])) ∧
     (∀ p, (mergedPermsList docs p).Nodup ∧
        (mergedPermsList docs p).Sublist
          (collectP (allPermItems docs) p))) ∧
    merge_settings [exEmpty, exPermFrag ["A", "B"], exPermFrag ["B", "C"]] =
      .ok (.dict [("permissions",
        .dict [("allow", .list [.str "A", .str "B", .str "C"]),
               ("deny", .list []), ("ask", .list [])])]) := by
  obtain ⟨hkeys3, hstr⟩ := allPermItems_valid docs h
  refine ⟨⟨merge_settings_refines docs h, ?_, ?_, ?_⟩, rfl⟩
  · rw [PVal.hasKeyL, lookup_mergePureTop_perms docs]
    cases anyHasKey docs "permissions" <;> simp
  · intro hany
    rw [lookup_mergePureTop_perms docs, hany, if_pos rfl]
    rw [show permsInit = [("allow", PVal.list []), ("deny", PVal.list []),
      ("ask", PVal.list [])] from rfl]
    rw [permTypesStepP_char (allPermItems docs) [] [] [] hkeys3]
    simp only [List.nil_append]
    rfl
  · intro p
    constructor
    · have hnd := dedupBy_map_key_nodup (fun x => x)
        (collectP (allPermItems docs) p) [] (by
          intro x hx
          have := collectP_isStr (allPermItems docs) p hstr
          rw [List.all_eq_true] at this
          exact hashable_of_isStr (this x hx))
      simpa [mergedPermsList, pdedup] using hnd
    · exact dedupBy_sublist _ _ _

/-- Witness for C4 at a concrete input. -/
theorem merge_permissions_spec_witness :
    ([exEmpty, exPermFrag ["A", "B"], exPermFrag ["B", "C"]].all
      validDoc = true) ∧
    merge_settings [exEmpty, exPermFrag ["A", "B"], exPermFrag ["B", "C"]] =
      .ok (.dict (mergePureTop
        [exEmpty, exPermFrag ["A", "B"], exPermFrag ["B", "C"]])) :=
  ⟨rfl, (merge_permissions_spec
    [exEmpty, exPermFrag ["A", "B"], exPermFrag ["B", "C"]] rfl).1.1⟩

/-- C10: a hook entry lacking a `command` field deduplicates under the key
`""`: its key equals that of an entry whose `command` is the empty string, at
most one such entry survives `dedupe_hooks` within a group, and the
first-encountered one is kept. -/
theorem dedupe_missing_command (l : List PVal)
    (h : l.all validEntry = true) :
    (dedupe_hooks l = .ok (dedupBy PVal.ckey [] l) ∧
     (∀ es, PVal.lookupKey es "command" = none →
        PVal.ckey (.dict es) = .str "") ∧
     ((dedupBy PVal.ckey [] l).map PVal.ckey).countP
        (fun k => PVal.peq k (.str "")) ≤ 1) ∧
    dedupe_hooks [.dict [("type", .str "command")],
                  .dict [("command", .str "")]] =
      .ok [.dict [("type", .str "command")]] := by
  have hhash : ∀ x ∈ l, PVal.hashable (PVal.ckey x) = true := by
    intro x hx
    rw [List.all_eq_true] at h
    exact hashable_ckey (h x hx)
  refine ⟨⟨dedupeGo_ok l [] h, ?_, ?_⟩, rfl⟩
  · intro es hes
    simp [PVal.ckey, PVal.getD, hes]
  · exact countP_le_one_of_nodup _ (dedupBy_map_key_nodup _ _ _ hhash)
      (fun x hx => PVal.eq_of_peq hx)

/-- Witness for C10 at a concrete input. -/
theorem dedupe_missing_command_witness :
    ([PVal.dict [("type", .str "command")],
      PVal.dict [("command", .str "")]].all validEntry = true) ∧
    dedupe_hooks [PVal.dict [("type", .str "command")],
                  PVal.dict [("command", .str "")]] =
      .ok (dedupBy PVal.ckey []
        [PVal.dict [("type", .str "command")],
         PVal.dict [("command", .str "")]]) :=
  ⟨rfl, (dedupe_missing_command
    [PVal.dict [("type", .str "command")],
     PVal.dict [("command", .str "")]] rfl).1.1⟩

theorem topEntriesStep_cons (r : List (String × PVal)) (key : String)
    (value : PVal) (rest : List (String × PVal)) :
    topEntriesStep r ((key, value) :: rest) =
      topStep1 r key value >>= fun r => topEntriesStep r rest := by
  by_cases hkh : key = "hooks"
  · subst hkh
    simp only [topEntriesStep, topStep1, if_pos]
    cases PVal.lookupKey (if PVal.hasKeyL r "hooks" = true then r
        else PVal.setKeyL r "hooks" (.dict [])) "hooks" with
    | none => simp
    | some w => cases w <;> simp [bind_assoc]
  · by_cases hkp : key = "permissions"
    · subst hkp
      simp only [topEntriesStep, topStep1,
        if_neg (by decide : ¬ ("permissions" : String) = "hooks"), if_pos]
      cases PVal.lookupKey (if PVal.hasKeyL r "permissions" = true then r
          else PVal.setKeyL r "permissions"
            (.dict [("allow", .list []), ("deny", .list []),
              ("ask", .list [])])) "permissions" with
      | none => simp
      | some w => cases w <;> simp [bind_assoc]
    · simp only [topEntriesStep, topStep1, if_neg hkh, if_neg hkp, ok_bind]

theorem permsKeys3_congr {r₁ r₂ : List (String × PVal)}
    (h : PVal.lookupKey r₁ "permissions" = PVal.lookupKey r₂ "permissions") :
    permsKeys3 r₁ = permsKeys3 r₂ := by
  unfold permsKeys3
  rw [h]

theorem bind_ok_ex {α β : Type} {x : PRes α} {f : α → PRes β} {b : β}
    (h : (x >>= f) = .ok b) : ∃ a, x = .ok a ∧ f a = .ok b := by
  cases x with
  | error e => simp at h
  | ok a => exact ⟨a, rfl, h⟩

/-- A successful `permTypesStep` never changes the key sequence of the
permissions accumulator. -/
theorem permTypesStep_keysEq (pes : List (String × PVal)) :
    ∀ pv pv', permTypesStep pv pes = .ok pv' →
      pv'.map Prod.fst = pv.map Prod.fst := by
  induction pes with
  | nil =>
      intro pv pv' h
      simp only [permTypesStep, Except.ok.injEq] at h
      rw [← h]
  | cons head rest ih =>
      intro pv pv' h
      obtain ⟨p, pl⟩ := head
      cases hl : PVal.lookupKey pv p with
      | none => simp [permTypesStep, hl] at h
      | some w =>
          cases w with
          | list cur =>
              cases hext : PVal.iterE pl with
              | error e => simp [permTypesStep, hl, hext] at h
              | ok ext =>
                  simp only [permTypesStep, hl, hext, ok_bind] at h
                  rw [ih _ _ h, PVal.keysOf_setKeyL,
                    if_pos (show PVal.hasKeyL pv p = true from by
                      rw [PVal.hasKeyL, hl]; rfl)]
          | null => simp [permTypesStep, hl] at h
          | bool b => simp [permTypesStep, hl] at h
          | int n => simp [permTypesStep, hl] at h
          | str s => simp [permTypesStep, hl] at h
          | dict es => simp [permTypesStep, hl] at h

/-- `result['permissions'][perm_type]` raises on the first sub-key outside
`allow`/`deny`/`ask` (src/install.py:324): if the items contain such a key,
the permissions inner loop errors. -/
theorem permTypesStep_err (pes : List (String × PVal)) :
    ∀ pv : List (String × PVal),
      pv.map Prod.fst = ["allow", "deny", "ask"] →
      (∃ kv ∈ pes, ¬ kv.1 = "allow" ∧ ¬ kv.1 = "deny" ∧ ¬ kv.1 = "ask") →
      ∃ e, permTypesStep pv pes = .error e := by
  induction pes with
  | nil =>
      rintro pv - ⟨kv, hmem, -⟩
      simp at hmem
  | cons head rest ih =>
      rintro pv hkeys ⟨kv, hmem, hbad⟩
      obtain ⟨p, pl⟩ := head
      by_cases hp : p = "allow" ∨ p = "deny" ∨ p = "ask"
      · have hkvrest : kv ∈ rest := by
          rcases List.mem_cons.mp hmem with rfl | hmr
          · exact absurd hp (by
              push_neg
              exact ⟨hbad.1, hbad.2.1, hbad.2.2⟩)
          · exact hmr
        cases hl : PVal.lookupKey pv p with
        | none => exact ⟨.keyError, by simp [permTypesStep, hl]⟩
        | some w =>
            cases w with
            | list cur =>
                cases hext : PVal.iterE pl with
                | error e => exact ⟨e, by simp [permTypesStep, hl, hext]⟩
                | ok ext =>
                    have hkeys' : (PVal.setKeyL pv p
                        (.list (cur ++ ext))).map Prod.fst =
                        ["allow", "deny", "ask"] := by
                      rw [PVal.keysOf_setKeyL,
                        if_pos (show PVal.hasKeyL pv p = true from by
                          rw [PVal.hasKeyL, hl]; rfl)]
                      exact hkeys
                    obtain ⟨e, he⟩ := ih _ hkeys' ⟨kv, hkvrest, hbad⟩
                    exact ⟨e, by
                      simp only [permTypesStep, hl, hext, ok_bind]
                      exact he⟩
            | null => exact ⟨.attributeError, by simp [permTypesStep, hl]⟩
            | bool b => exact ⟨.attributeError, by simp [permTypesStep, hl]⟩
            | int n => exact ⟨.attributeError, by simp [permTypesStep, hl]⟩
            | str s => exact ⟨.attributeError, by simp [permTypesStep, hl]⟩
            | dict es => exact ⟨.attributeError, by simp [permTypesStep, hl]⟩
      · have hnone : PVal.lookupKey pv p = none := by
          rw [PVal.lookupKey_eq_none_iff, hkeys]
          push_neg at hp
          simp [hp.1, hp.2.1, hp.2.2]
        exact ⟨.keyError, by simp [permTypesStep, hnone]⟩

/-- One successful outer-fold item step preserves the permissions-keys
invariant. -/
theorem topStep1_permsKeys (r : List (String × PVal)) (key : String)
    (value : PVal) (r₁ : List (String × PVal))
    (h : topStep1 r key value = .ok r₁) (hk3 : permsKeys3 r = true) :
    permsKeys3 r₁ = true := by
  by_cases hkh : key = "hooks"
  · subst hkh
    simp only [topStep1, if_pos] at h
    cases hsc : PVal.lookupKey (if PVal.hasKeyL r "hooks" = true then r
        else PVal.setKeyL r "hooks" (.dict [])) "hooks" with
    | none => simp only [hsc] at h; simp at h
    | some w =>
        cases w with
        | dict hv =>
            simp only [hsc, ok_bind] at h
            obtain ⟨hitems, hmi, h⟩ := bind_ok_ex h
            obtain ⟨hv', hmr, h⟩ := bind_ok_ex h
            injection h with h
            rw [← h]
            have hpl : PVal.lookupKey (PVal.setKeyL
                (if PVal.hasKeyL r "hooks" = true then r
                 else PVal.setKeyL r "hooks" (.dict [])) "hooks"
                (PVal.dict hv')) "permissions" =
                PVal.lookupKey r "permissions" := by
              rw [PVal.lookupKey_setKeyL_ne _ _ _ _ (by decide)]
              split
              · rfl
              · exact PVal.lookupKey_setKeyL_ne _ _ _ _ (by decide)
            rw [permsKeys3_congr hpl]
            exact hk3
        | null => simp only [hsc] at h; simp at h
        | bool b => simp only [hsc] at h; simp at h
        | int n => simp only [hsc] at h; simp at h
        | str s => simp only [hsc] at h; simp at h
        | list xs => simp only [hsc] at h; simp at h
  · by_cases hkp : key = "permissions"
    · subst hkp
      simp only [topStep1,
        if_neg (by decide : ¬ ("permissions" : String) = "hooks"),
        if_pos] at h
      by_cases hperm : PVal.hasKeyL r "permissions" = true
      · rw [if_pos hperm] at h
        cases hl : PVal.lookupKey r "permissions" with
        | none => rw [PVal.hasKeyL, hl] at hperm; simp at hperm
        | some w =>
            cases w with
            | dict pv₀ =>
                simp only [hl, ok_bind] at h
                obtain ⟨pitems, hmi, h⟩ := bind_ok_ex h
                obtain ⟨pv', hmp, h⟩ := bind_ok_ex h
                injection h with h
                rw [← h]
                unfold permsKeys3
                simp only [PVal.lookupKey_setKeyL_self]
                unfold permsKeys3 at hk3
                simp only [hl] at hk3
                rw [permTypesStep_keysEq pitems pv₀ pv' hmp]
                exact hk3
            | null => simp only [hl] at h; simp at h
            | bool b => simp only [hl] at h; simp at h
            | int n => simp only [hl] at h; simp at h
            | str s => simp only [hl] at h; simp at h
            | list xs => simp only [hl] at h; simp at h
      · rw [if_neg hperm] at h
        rw [PVal.lookupKey_setKeyL_self] at h
        simp only [ok_bind] at h
        obtain ⟨pitems, hmi, h⟩ := bind_ok_ex h
        obtain ⟨pv', hmp, h⟩ := bind_ok_ex h
        injection h with h
        rw [← h]
        unfold permsKeys3
        simp only [PVal.lookupKey_setKeyL_self]
        rw [permTypesStep_keysEq pitems _ pv' hmp]
        rfl
    · simp only [topStep1, if_neg hkh, if_neg hkp, Except.ok.injEq] at h
      rw [← h]
      rw [permsKeys3_congr
        (PVal.lookupKey_setKeyL_ne r key value "permissions" (Ne.symm hkp))]
      exact hk3

/-- A fold item with key `permissions` and a dict value containing an unknown
sub-key makes the item step error (given the accumulator invariant). -/
theorem topStep1_err (r : List (String × PVal)) (pes : List (String × PVal))
    (hk3 : permsKeys3 r = true)
    (hbad : ∃ kv ∈ pes, ¬ kv.1 = "allow" ∧ ¬ kv.1 = "deny" ∧
      ¬ kv.1 = "ask") :
    ∃ e, topStep1 r "permissions" (.dict pes) = .error e := by
  by_cases hperm : PVal.hasKeyL r "permissions" = true
  · cases hl : PVal.lookupKey r "permissions" with
    | none => rw [PVal.hasKeyL, hl] at hperm; simp at hperm
    | some w =>
        cases w with
        | dict pv =>
            have hkeys : pv.map Prod.fst = ["allow", "deny", "ask"] := by
              unfold permsKeys3 at hk3
              simp only [hl] at hk3
              exact eq_of_beq hk3
            obtain ⟨e, he⟩ := permTypesStep_err pes pv hkeys hbad
            refine ⟨e, ?_⟩
            simp only [topStep1, if_neg
              (by decide : ¬ ("permissions" : String) = "hooks"), if_pos]
            rw [if_pos hperm]
            simp only [hl, ok_bind, PVal.itemsE, he, error_bind]
        | null => unfold permsKeys3 at hk3; rw [hl] at hk3; simp at hk3
        | bool b => unfold permsKeys3 at hk3; rw [hl] at hk3; simp at hk3
        | int n => unfold permsKeys3 at hk3; rw [hl] at hk3; simp at hk3
        | str s => unfold permsKeys3 at hk3; rw [hl] at hk3; simp at hk3
        | list xs => unfold permsKeys3 at hk3; rw [hl] at hk3; simp at hk3
  · obtain ⟨e, he⟩ := permTypesStep_err pes
      [("allow", .list []), ("deny", .list []), ("ask", .list [])] rfl hbad
    refine ⟨e, ?_⟩
    simp only [topStep1, if_neg
      (by decide : ¬ ("permissions" : String) = "hooks"), if_pos]
    rw [if_neg hperm]
    simp only [PVal.lookupKey_setKeyL_self, ok_bind, PVal.itemsE, he,
      error_bind]

/-- A successful batch of item steps preserves the permissions-keys
invariant. -/
theorem topEntriesStep_permsKeys (items : List (String × PVal)) : ∀ r r',
    topEntriesStep r items = .ok r' → permsKeys3 r = true →
      permsKeys3 r' = true := by
  induction items with
  | nil =>
      intro r r' h hk3
      simp only [topEntriesStep, Except.ok.injEq] at h
      rw [← h]; exact hk3
  | cons head rest ih =>
      intro r r' h hk3
      obtain ⟨key, value⟩ := head
      rw [topEntriesStep_cons] at h
      cases hstep : topStep1 r key value with
      | error e => rw [hstep] at h; simp at h
      | ok r₁ =>
          rw [hstep, ok_bind] at h
          exact ih r₁ r' h (topStep1_permsKeys r key value r₁ hstep hk3)

/-- If some item of the batch is a `permissions` dict with an unknown
sub-key, the batch of item steps errors. -/
theorem topEntriesStep_err (items : List (String × PVal)) : ∀ r,
    permsKeys3 r = true →
    (∃ iv ∈ items, iv.1 = "permissions" ∧ ∃ pes, iv.2 = PVal.dict pes ∧
      ∃ kv ∈ pes, ¬ kv.1 = "allow" ∧ ¬ kv.1 = "deny" ∧ ¬ kv.1 = "ask") →
    ∃ e, topEntriesStep r items = .error e := by
  induction items with
  | nil =>
      rintro r - ⟨iv, hmem, -⟩
      simp at hmem
  | cons head rest ih =>
      rintro r hk3 ⟨iv, hmem, hbad⟩
      obtain ⟨key, value⟩ := head
      rcases List.mem_cons.mp hmem with rfl | hmemrest
      · obtain ⟨hkey, pes, hval, hbadkv⟩ := hbad
        have hkey' : key = "permissions" := hkey
        have hval' : value = PVal.dict pes := hval
        subst hkey'
        subst hval'
        obtain ⟨e, he⟩ := topStep1_err r pes hk3 hbadkv
        exact ⟨e, by rw [topEntriesStep_cons, he]; rfl⟩
      · cases hstep : topStep1 r key value with
        | error e => exact ⟨e, by rw [topEntriesStep_cons, hstep]; rfl⟩
        | ok r₁ =>
            obtain ⟨e, he⟩ := ih r₁
              (topStep1_permsKeys r key value r₁ hstep hk3)
              ⟨iv, hmemrest, hbad⟩
            exact ⟨e, by rw [topEntriesStep_cons, hstep, ok_bind]; exact he⟩

/-- If some document of the fold is a dict carrying a `permissions` dict
with an unknown sub-key, the whole fold errors. -/
theorem mergeFold_err (docs : List PVal) : ∀ r,
    permsKeys3 r = true →
    (∃ doc ∈ docs, ∃ des, doc = PVal.dict des ∧
      ∃ iv ∈ des, iv.1 = "permissions" ∧ ∃ pes, iv.2 = PVal.dict pes ∧
        ∃ kv ∈ pes, ¬ kv.1 = "allow" ∧ ¬ kv.1 = "deny" ∧ ¬ kv.1 = "ask") →
    ∃ e, mergeFold r docs = .error e := by
  induction docs with
  | nil =>
      rintro r - ⟨doc, hmem, -⟩
      simp at hmem
  | cons doc rest ih =>
      rintro r hk3 ⟨d, hmem, hbad⟩
      rcases List.mem_cons.mp hmem with rfl | hmemrest
      · obtain ⟨des, rfl, hbad'⟩ := hbad
        obtain ⟨e, he⟩ := topEntriesStep_err des r hk3 hbad'
        exact ⟨e, by
          simp only [mergeFold, PVal.itemsE, ok_bind]
          rw [he]
          rfl⟩
      · cases hitems : PVal.itemsE doc with
        | error e =>
            exact ⟨e, by simp only [mergeFold]; rw [hitems]; rfl⟩
        | ok items =>
            cases hstep : topEntriesStep r items with
            | error e =>
                exact ⟨e, by
                  simp only [mergeFold]
                  rw [hitems, ok_bind, hstep]
                  rfl⟩
            | ok r₁ =>
                obtain ⟨e, he⟩ := ih r₁
                  (topEntriesStep_permsKeys items r r₁ hstep hk3)
                  ⟨d, hmemrest, hbad⟩
                exact ⟨e, by
                  simp only [mergeFold]
                  rw [hitems, ok_bind, hstep, ok_bind]
                  exact he⟩

/-- An error in the fold phase is the final result of `merge_settings`. -/
theorem merge_settings_error_of_fold {docs : List PVal} {e : PyErr}
    (h : mergeFold [] docs = .error e) : merge_settings docs = .error e := by
  unfold merge_settings
  rw [h]
  rfl

/-- C5 counterexample: an input document whose `hooks` section is an empty
mapping — so no hook type ends up with a non-empty matcher-group list — still
produces an output in which the `hooks` key is present (as an empty mapping),
contradicting "omit `hooks` entirely". -/
theorem merge_empty_hooks_kept :
    merge_settings [.dict [("hooks", .dict [])]] =
      .ok (.dict [("hooks", .dict [])]) ∧
    PVal.hasKeyL [("hooks", PVal.dict [])] "hooks" = true :=
  ⟨rfl, rfl⟩

/-- C5 (amended): the `hooks` key is present in the merged output exactly when
some input document carries a `hooks` key — empty hook sections are passed
through, not omitted — and merging all-empty documents yields the empty
document. -/
theorem merge_hooks_presence (docs : List PVal)
    (h : docs.all validDoc = true) :
    (merge_settings docs = .ok (.dict (mergePureTop docs)) ∧
     PVal.hasKeyL (mergePureTop docs) "hooks" = anyHasKey docs "hooks") ∧
    merge_settings [exEmpty, exEmpty] = .ok (.dict []) := by
  refine ⟨⟨merge_settings_refines docs h, ?_⟩, rfl⟩
  rw [PVal.hasKeyL, lookup_mergePureTop_hooks docs]
  cases anyHasKey docs "hooks" <;> simp

/-- Witness for the amended C5 at a concrete input. -/
theorem merge_hooks_presence_witness :
    ([PVal.dict [("hooks", PVal.dict [])]].all validDoc = true) ∧
    PVal.hasKeyL (mergePureTop [PVal.dict [("hooks", PVal.dict [])]]) "hooks" =
      anyHasKey [PVal.dict [("hooks", PVal.dict [])]] "hooks" :=
  ⟨rfl, (merge_hooks_presence [PVal.dict [("hooks", PVal.dict [])]] rfl).1.2⟩

/-- C7: every top-level key other than `hooks` and `permissions` is an opaque
passthrough: the merged value is the value from the last input item carrying
the key (last writer wins), and unrecognized keys never cause an error. -/
theorem merge_passthrough_last_writer (docs : List PVal) (k : String)
    (h : docs.all validDoc = true)
    (hk1 : ¬ k = "hooks") (hk2 : ¬ k = "permissions") :
    (merge_settings docs = .ok (.dict (mergePureTop docs)) ∧
     PVal.lookupKey (mergePureTop docs) k = lastValueOf docs k) ∧
    merge_settings [.dict [("custom", .int 1)], .dict [("custom", .int 2)]] =
      .ok (.dict [("custom", .int 2)]) :=
  ⟨⟨merge_settings_refines docs h,
    lookup_mergePureTop_other docs k hk1 hk2⟩, rfl⟩

/-- Witness for C7 at a concrete input. -/
theorem merge_passthrough_last_writer_witness :
    ([PVal.dict [("custom", PVal.int 1)],
      PVal.dict [("custom", PVal.int 2)]].all validDoc = true) ∧
    PVal.lookupKey (mergePureTop
      [PVal.dict [("custom", PVal.int 1)],
       PVal.dict [("custom", PVal.int 2)]]) "custom" =
      lastValueOf [PVal.dict [("custom", PVal.int 1)],
        PVal.dict [("custom", PVal.int 2)]] "custom" :=
  ⟨rfl, (merge_passthrough_last_writer
    [PVal.dict [("custom", PVal.int 1)], PVal.dict [("custom", PVal.int 2)]]
    "custom" rfl (by decide) (by decide)).1.2⟩

/-- C8 counterexample: a structurally invalid document — a mapping where the
required sequence of matcher groups should be — is accepted without any error
and silently coerced to an empty group list, so the engine does recover
silently from structurally invalid input. -/
theorem merge_invalid_silently_accepted :
    merge_settings [.dict [("hooks", .dict [("PreToolUse", .dict [])])]] =
      .ok (.dict [("hooks", .dict [("PreToolUse", .list [])])]) := rfl

/-- C8 (amended): a document whose `hooks` or `permissions` value is not a
mapping makes the engine raise `AttributeError` (at `.items()`), and
structurally valid — possibly sparse — input never raises; but not every
structurally invalid input is rejected (see the counterexample). -/
theorem merge_error_behaviour (docs : List PVal) (v : PVal)
    (rest : List PVal) (h : docs.all validDoc = true)
    (hv : (match v with | PVal.dict _ => false | _ => true) = true) :
    merge_settings docs = .ok (.dict (mergePureTop docs)) ∧
    merge_settings (.dict [("hooks", v)] :: rest) =
      .error .attributeError ∧
    merge_settings (.dict [("permissions", v)] :: rest) =
      .error .attributeError := by
  refine ⟨merge_settings_refines docs h, ?_, ?_⟩
  · cases v with
    | null => rfl
    | bool b => rfl
    | int n => rfl
    | str s => rfl
    | list xs => rfl
    | dict es => simp at hv
  · cases v with
    | null => rfl
    | bool b => rfl
    | int n => rfl
    | str s => rfl
    | list xs => rfl
    | dict es => simp at hv

/-- Witness for the amended C8 at a concrete input. -/
theorem merge_error_behaviour_witness :
    (([] : List PVal).all validDoc = true) ∧
    ((match PVal.str "oops" with
      | PVal.dict _ => false
      | _ => true) = true) ∧
    merge_settings [PVal.dict [("hooks", PVal.str "oops")]] =
      .error .attributeError :=
  ⟨rfl, rfl, (merge_error_behaviour [] (PVal.str "oops") [] rfl rfl).2.1⟩

/-- C9: a `permissions` section containing a sub-key other than `allow`,
`deny`, `ask` makes the merge raise: `result['permissions'][perm_type]`
fails with `KeyError` since the accumulator dict only ever has those three
keys.  Any document list containing such a document errors, and on the
concrete one-document example the error is precisely `KeyError`. -/
theorem merge_unknown_perm_subkey_raises (docs : List PVal)
    (h : ∃ doc ∈ docs, ∃ des, doc = PVal.dict des ∧
      ∃ iv ∈ des, iv.1 = "permissions" ∧ ∃ pes, iv.2 = PVal.dict pes ∧
        ∃ kv ∈ pes, ¬ kv.1 = "allow" ∧ ¬ kv.1 = "deny" ∧ ¬ kv.1 = "ask") :
    (∃ e, merge_settings docs = .error e) ∧
    merge_settings [.dict [("permissions", .dict [("extra", .list [])])]] =
      .error .keyError := by
  obtain ⟨e, he⟩ := mergeFold_err docs [] rfl h
  exact ⟨⟨e, merge_settings_error_of_fold he⟩, rfl⟩

/-- Witness for C9 at a concrete input. -/
theorem merge_unknown_perm_subkey_raises_witness :
    (∃ doc ∈ [PVal.dict [("permissions",
        PVal.dict [("extra", PVal.list [])])]],
      ∃ des, doc = PVal.dict des ∧
      ∃ iv ∈ des, iv.1 = "permissions" ∧ ∃ pes, iv.2 = PVal.dict pes ∧
        ∃ kv ∈ pes, ¬ kv.1 = "allow" ∧ ¬ kv.1 = "deny" ∧
          ¬ kv.1 = "ask") ∧
    ∃ e, merge_settings [PVal.dict [("permissions",
        PVal.dict [("extra", PVal.list [])])]] = .error e := by
  have hh : ∃ doc ∈ [PVal.dict [("permissions",
        PVal.dict [("extra", PVal.list [])])]],
      ∃ des, doc = PVal.dict des ∧
      ∃ iv ∈ des, iv.1 = "permissions" ∧ ∃ pes, iv.2 = PVal.dict pes ∧
        ∃ kv ∈ pes, ¬ kv.1 = "allow" ∧ ¬ kv.1 = "deny" ∧
          ¬ kv.1 = "ask" :=
    ⟨PVal.dict [("permissions", PVal.dict [("extra", PVal.list [])])],
      List.mem_singleton.mpr rfl,
      [("permissions", PVal.dict [("extra", PVal.list [])])], rfl,
      ("permissions", PVal.dict [("extra", PVal.list [])]),
      List.mem_singleton.mpr rfl, rfl,
      [("extra", PVal.list [])], rfl,
      ("extra", PVal.list []), List.mem_singleton.mpr rfl,
      by decide, by decide, by decide⟩
  exact ⟨hh, (merge_unknown_perm_subkey_raises _ hh).1⟩

theorem canonStep_fst (kv : String × PVal) : (canonStep kv).1 = kv.1 := by
  unfold canonStep
  split
  · rfl
  · split
    · rfl
    · rfl

namespace PVal

theorem setKeyL_fresh (es : List (String × PVal)) (k : String) (v : PVal)
    (h : hasKeyL es k = false) : setKeyL es k v = es ++ [(k, v)] := by
  induction es with
  | nil => rfl
  | cons kv rest ih =>
      obtain ⟨k₀, v₀⟩ := kv
      simp only [hasKeyL, lookupKey] at h
      by_cases h₀ : k₀ = k
      · rw [if_pos h₀] at h
        simp at h
      · rw [if_neg h₀] at h
        simp only [setKeyL, if_neg h₀, List.cons_append]
        rw [ih h]

theorem setKeyL_id (es : List (String × PVal)) (k : String) (v : PVal)
    (h : lookupKey es k = some v) : setKeyL es k v = es := by
  induction es with
  | nil => simp [lookupKey] at h
  | cons kv rest ih =>
      obtain ⟨k₀, v₀⟩ := kv
      simp only [lookupKey] at h
      by_cases h₀ : k₀ = k
      · subst h₀
        rw [if_pos rfl] at h
        injection h with h
        subst h
        simp [setKeyL]
      · rw [if_neg h₀] at h
        simp only [setKeyL, if_neg h₀]
        rw [ih h]

end PVal

/-- First-occurrence dedup is the identity on key-duplicate-free input. -/
theorem dedupBy_id_of_nodup (key : PVal → PVal) (l : List PVal) : ∀ seen,
    nodupP (l.map key) = true →
    (∀ x ∈ l, PVal.pmem (key x) seen = false) →
    dedupBy key seen l = l := by
  induction l with
  | nil => intro seen _ _; rfl
  | cons x rest ih =>
      intro seen hnd hfr
      simp only [List.map_cons, nodupP, Bool.and_eq_true,
        Bool.not_eq_true'] at hnd
      obtain ⟨hpm, hnd'⟩ := hnd
      have hx : PVal.pmem (key x) seen = false :=
        hfr x (List.mem_cons_self ..)
      simp only [dedupBy, hx, Bool.false_eq_true, if_false]
      congr 1
      apply ih
      · exact hnd'
      · intro y hy
        simp only [PVal.pmem, List.any_cons, Bool.or_eq_false_iff]
        constructor
        · have hthis : PVal.pmem (key x) (rest.map key) = false := hpm
          simp only [PVal.pmem, List.any_eq_false] at hthis
          have h2 := hthis (key y) (List.mem_map_of_mem _ hy)
          rw [peq_symm]
          simpa using h2
        · have := hfr y (List.mem_cons_of_mem _ hy)
          simpa [PVal.pmem] using this

/-- Appending fresh hook types with list values to the hooks accumulator. -/
theorem hookTypesStepP_fresh_id (items : List (String × PVal)) : ∀ acc,
    (∀ kv ∈ items, PVal.hasKeyL acc kv.1 = false) →
    nodupStr (items.map Prod.fst) = true →
    (items.all fun kv => PVal.isListVal kv.2) = true →
    hookTypesStepP acc items = acc ++ items := by
  induction items with
  | nil => intro acc _ _ _; simp [hookTypesStepP]
  | cons kv rest ih =>
      intro acc hfresh hnd hlist
      obtain ⟨t, v⟩ := kv
      simp only [List.all_cons, Bool.and_eq_true] at hlist
      obtain ⟨hvl, hlist'⟩ := hlist
      obtain ⟨gs, rfl⟩ : ∃ gs, v = PVal.list gs := by
        revert hvl
        cases v with
        | list gs => intro hvl; exact ⟨gs, rfl⟩
        | null => intro hvl; simp [PVal.isListVal] at hvl
        | bool b => intro hvl; simp [PVal.isListVal] at hvl
        | int n => intro hvl; simp [PVal.isListVal] at hvl
        | str s => intro hvl; simp [PVal.isListVal] at hvl
        | dict es => intro hvl; simp [PVal.isListVal] at hvl
      have hfr : PVal.hasKeyL acc t = false :=
        hfresh (t, .list gs) (List.mem_cons_self ..)
      have hlk : PVal.lookupKey acc t = none := by
        rw [PVal.hasKeyL] at hfr
        exact Option.not_isSome_iff_eq_none.mp (by simp [hfr])
      simp only [List.map_cons, nodupStr, Bool.and_eq_true,
        Bool.not_eq_true'] at hnd
      obtain ⟨hcont, hnd'⟩ := hnd
      have hkeynot : t ∉ rest.map Prod.fst := by
        intro hm
        have hc : (rest.map Prod.fst).contains t = true := by
          simpa [List.elem_iff] using hm
        rw [hcont] at hc
        simp at hc
      simp only [hookTypesStepP, PVal.getD, hlk, Option.getD_none,
        PVal.asListD, List.nil_append]
      rw [PVal.setKeyL_fresh acc t _ hfr]
      rw [ih (acc ++ [(t, PVal.list gs)]) ?_ hnd' hlist']
      · simp
      · intro kv' hkv'
        rw [hasKeyL_eq_any, List.any_append]
        have h1 : (acc.any fun p => p.1 = kv'.1) = false := by
          rw [← hasKeyL_eq_any]
          exact hfresh kv' (List.mem_cons_of_mem _ hkv')
        have h2 : ¬ t = kv'.1 := by
          intro he
          exact hkeynot (by rw [he]; exact List.mem_map_of_mem _ hkv')
        simp [h1, h2]

/-- The permissions inner fold is the identity when started from the fresh
accumulator on an exactly-canonical permissions dict. -/
theorem permTypesStepP_init_id (a d k : List PVal) :
    permTypesStepP permsInit
      [("allow", .list a), ("deny", .list d), ("ask", .list k)] =
      [("allow", .list a), ("deny", .list d), ("ask", .list k)] := by
  simp [permTypesStepP, permsInit, PVal.getD, PVal.lookupKey, PVal.setKeyL,
    PVal.asListD]

theorem canonicalGroup_inv {g : PVal} (h : canonicalGroup g = true) :
    ∃ m entries, g = PVal.dict [("matcher", PVal.str m),
        ("hooks", PVal.list entries)] ∧
      entries.all validEntry = true ∧
      nodupP (entries.map PVal.ckey) = true := by
  unfold canonicalGroup at h
  split at h
  · next m entries =>
      simp only [Bool.and_eq_true] at h
      obtain ⟨⟨hm, hent⟩, hnd⟩ := h
      obtain ⟨s, rfl⟩ : ∃ s, m = PVal.str s := by
        cases m <;> simp_all [PVal.isStr]
      exact ⟨s, entries, rfl, hent, hnd⟩
  · exact absurd h (by simp)

theorem canonicalHooksVal_inv {value : PVal}
    (h : canonicalHooksVal value = true) :
    ∃ hv, value = PVal.dict hv ∧ nodupStr (hv.map Prod.fst) = true ∧
      (hv.all fun kv =>
        match kv.2 with
        | PVal.list gs => gs.all canonicalGroup &&
            nodupP (gs.map PVal.matcherOf)
        | _ => false) = true := by
  cases value with
  | dict hv =>
      simp only [canonicalHooksVal, Bool.and_eq_true] at h
      exact ⟨hv, rfl, h.1, h.2⟩
  | null => simp [canonicalHooksVal] at h
  | bool b => simp [canonicalHooksVal] at h
  | int n => simp [canonicalHooksVal] at h
  | str s => simp [canonicalHooksVal] at h
  | list xs => simp [canonicalHooksVal] at h

theorem canonicalPermsVal_inv {value : PVal}
    (h : canonicalPermsVal value = true) :
    ∃ a d k, value = PVal.dict [("allow", PVal.list a),
        ("deny", PVal.list d), ("ask", PVal.list k)] ∧
      a.all PVal.isStr = true ∧ nodupP a = true ∧
      d.all PVal.isStr = true ∧ nodupP d = true ∧
      k.all PVal.isStr = true ∧ nodupP k = true := by
  unfold canonicalPermsVal at h
  split at h
  · next a d k =>
      simp only [Bool.and_eq_true] at h
      exact ⟨a, d, k, rfl, h.1.1.1.1.1, h.1.1.1.1.2, h.1.1.1.2, h.1.1.2,
        h.1.2, h.2⟩
  · exact absurd h (by simp)

theorem canonicalDoc_inv {D : PVal} (h : canonicalDoc D = true) :
    ∃ des, D = PVal.dict des ∧ nodupStr (des.map Prod.fst) = true ∧
      (des.all fun kv =>
        if kv.1 = "hooks" then canonicalHooksVal kv.2
        else if kv.1 = "permissions" then canonicalPermsVal kv.2
        else true) = true := by
  cases D with
  | dict des =>
      simp only [canonicalDoc, Bool.and_eq_true] at h
      exact ⟨des, rfl, h.1, h.2⟩
  | null => simp [canonicalDoc] at h
  | bool b => simp [canonicalDoc] at h
  | int n => simp [canonicalDoc] at h
  | str s => simp [canonicalDoc] at h
  | list xs => simp [canonicalDoc] at h

theorem validGroup_of_canonical {g : PVal} (h : canonicalGroup g = true) :
    validGroup g = true := by
  obtain ⟨m, entries, rfl, hent, -⟩ := canonicalGroup_inv h
  simp [validGroup, PVal.lookupKey, nodupStr, PVal.isStr, hent]

theorem validHooksVal_of_canonical {v : PVal}
    (h : canonicalHooksVal v = true) : validHooksVal v = true := by
  obtain ⟨hv, rfl, hnd, hall⟩ := canonicalHooksVal_inv h
  simp only [validHooksVal, Bool.and_eq_true]
  refine ⟨hnd, ?_⟩
  rw [List.all_eq_true] at hall ⊢
  intro kv hkv
  have hthis := hall kv hkv
  revert hthis
  cases kv.2 with
  | list gs =>
      intro hthis
      simp only [Bool.and_eq_true] at hthis
      rw [List.all_eq_true]
      intro g hg
      exact validGroup_of_canonical (List.all_eq_true.mp hthis.1 g hg)
  | null => intro hthis; exact hthis
  | bool b => intro hthis; exact hthis
  | int n => intro hthis; exact hthis
  | str s => intro hthis; exact hthis
  | dict es => intro hthis; exact hthis

theorem validPermsVal_of_canonical {v : PVal}
    (h : canonicalPermsVal v = true) : validPermsVal v = true := by
  obtain ⟨a, d, k, rfl, ha, -, hd, -, hk, -⟩ := canonicalPermsVal_inv h
  simp [validPermsVal, nodupStr, ha, hd, hk]

theorem validDoc_of_canonical {D : PVal} (h : canonicalDoc D = true) :
    validDoc D = true := by
  obtain ⟨des, rfl, hnd, hall⟩ := canonicalDoc_inv h
  simp only [validDoc, Bool.and_eq_true]
  refine ⟨hnd, ?_⟩
  rw [List.all_eq_true] at hall ⊢
  intro kv hkv
  have hthis := hall kv hkv
  by_cases h1 : kv.1 = "hooks"
  · rw [if_pos h1] at hthis ⊢
    exact validHooksVal_of_canonical hthis
  · rw [if_neg h1] at hthis ⊢
    by_cases h2 : kv.1 = "permissions"
    · rw [if_pos h2] at hthis ⊢
      exact validPermsVal_of_canonical hthis
    · rw [if_neg h2]

/-- With pairwise-distinct matchers, a group is the only group of the list
whose matcher compares equal to its own. -/
theorem filter_matcher_singleton (gs : List PVal) : ∀ g ∈ gs,
    (∀ e ∈ gs, PVal.hashable (PVal.matcherOf e) = true) →
    nodupP (gs.map PVal.matcherOf) = true →
    gs.filter (fun e => PVal.peq (PVal.matcherOf e) (PVal.matcherOf g)) =
      [g] := by
  induction gs with
  | nil => intro g hg _ _; simp at hg
  | cons e rest ih =>
      intro g hg hh hnd
      simp only [List.map_cons, nodupP, Bool.and_eq_true,
        Bool.not_eq_true'] at hnd
      obtain ⟨hpm, hnd'⟩ := hnd
      rcases List.mem_cons.mp hg with rfl | hg'
      · rw [List.filter_cons_of_pos]
        · congr 1
          rw [List.filter_eq_nil_iff]
          intro x hx
          simp only [PVal.pmem, List.any_eq_false] at hpm
          have hfx := hpm (PVal.matcherOf x) (List.mem_map_of_mem _ hx)
          simp [hfx]
        · simp [PVal.peq_refl (hh g (List.mem_cons_self ..))]
      · rw [List.filter_cons_of_neg]
        · exact ih g hg' (fun x hx => hh x (List.mem_cons_of_mem _ hx)) hnd'
        · simp only [PVal.pmem, List.any_eq_false] at hpm
          have hfe := hpm (PVal.matcherOf g) (List.mem_map_of_mem _ hg')
          rw [peq_symm] at hfe
          simp [hfe]

theorem collectEnt_self (gs : List PVal) (g : PVal) (hg : g ∈ gs)
    (hh : ∀ e ∈ gs, PVal.hashable (PVal.matcherOf e) = true)
    (hnd : nodupP (gs.map PVal.matcherOf) = true) :
    collectEnt gs (PVal.matcherOf g) = PVal.entriesOf g := by
  rw [collectEnt, filter_matcher_singleton gs g hg hh hnd]
  simp

/-- Regrouping is the identity on a canonical matcher-group list. -/
theorem regroupTypeP_id (gs : List PVal)
    (hc : gs.all canonicalGroup = true)
    (hnd : nodupP (gs.map PVal.matcherOf) = true) :
    regroupTypeP gs = gs := by
  have hvg : gs.all validGroup = true := by
    rw [List.all_eq_true] at hc ⊢
    exact fun g hg => validGroup_of_canonical (hc g hg)
  have hh : ∀ e ∈ gs, PVal.hashable (PVal.matcherOf e) = true :=
    fun e he => hashable_matcherOf (List.all_eq_true.mp hvg e he)
  rw [regroupTypeP_spec gs hvg]
  have hpd : pdedup (gs.map PVal.matcherOf) = gs.map PVal.matcherOf := by
    rw [pdedup]
    apply dedupBy_id_of_nodup
    · have hmm : (gs.map PVal.matcherOf).map (fun x => x) =
          gs.map PVal.matcherOf := by simp
      rw [hmm]
      exact hnd
    · intro x hx
      rfl
  rw [hpd, List.map_map]
  have hid : ∀ g ∈ gs,
      ((fun m => PVal.dict [("matcher", m),
        ("hooks", PVal.list (dedupBy PVal.ckey [] (collectEnt gs m)))]) ∘
        PVal.matcherOf) g = g := by
    intro g hg
    obtain ⟨m, entries, hgeq, hent, hndc⟩ :=
      canonicalGroup_inv (List.all_eq_true.mp hc g hg)
    simp only [Function.comp_apply]
    rw [collectEnt_self gs g hg hh hnd]
    rw [dedupBy_id_of_nodup PVal.ckey (PVal.entriesOf g) [] ?_
      (fun x _ => rfl)]
    · rw [hgeq]
      rfl
    · rw [hgeq]
      show nodupP (entries.map PVal.ckey) = true
      exact hndc
  rw [List.map_congr_left hid]
  simp

/-- The per-type regroup pass is the identity on a canonical hooks dict. -/
theorem regroupHooksValsP_id (hv : List (String × PVal))
    (hall : (hv.all fun kv =>
      match kv.2 with
      | PVal.list gs => gs.all canonicalGroup &&
          nodupP (gs.map PVal.matcherOf)
      | _ => false) = true) :
    regroupHooksValsP hv = hv := by
  unfold regroupHooksValsP
  have hid : ∀ kv ∈ hv,
      (kv.1, PVal.list (regroupTypeP (PVal.asListD kv.2))) = kv := by
    intro kv hkv
    have hthis := List.all_eq_true.mp hall kv hkv
    obtain ⟨k0, v0⟩ := kv
    revert hthis
    cases v0 with
    | list gs =>
        intro hthis
        simp only [Bool.and_eq_true] at hthis
        simp only [PVal.asListD]
        rw [regroupTypeP_id gs hthis.1 hthis.2]
    | null => intro hthis; exact absurd hthis (by simp)
    | bool b => intro hthis; exact absurd hthis (by simp)
    | int n => intro hthis; exact absurd hthis (by simp)
    | str s => intro hthis; exact absurd hthis (by simp)
    | dict es => intro hthis; exact absurd hthis (by simp)
  rw [List.map_congr_left hid]
  simp

/-- The permissions dedup pass is the identity on a canonical permissions
dict. -/
theorem dedupePermsValsP_id (a d k : List PVal)
    (hnda : nodupP a = true) (hndd : nodupP d = true)
    (hndk : nodupP k = true) :
    dedupePermsValsP [("allow", .list a), ("deny", .list d),
      ("ask", .list k)] =
      [("allow", .list a), ("deny", .list d), ("ask", .list k)] := by
  have hida := dedupBy_id_of_nodup (fun x => x) a [] (by simpa using hnda)
    (fun x _ => rfl)
  have hidd := dedupBy_id_of_nodup (fun x => x) d [] (by simpa using hndd)
    (fun x _ => rfl)
  have hidk := dedupBy_id_of_nodup (fun x => x) k [] (by simpa using hndk)
    (fun x _ => rfl)
  simp only [dedupePermsValsP, List.map_cons, List.map_nil, PVal.asListD,
    hida, hidd, hidk]

/-- A document item already in canonical form is stored unchanged by its
fold step. -/
theorem canonStep_id {kv : String × PVal}
    (h : (if kv.1 = "hooks" then canonicalHooksVal kv.2
          else if kv.1 = "permissions" then canonicalPermsVal kv.2
          else true) = true) :
    canonStep kv = kv := by
  obtain ⟨key, v⟩ := kv
  by_cases h1 : key = "hooks"
  · subst h1
    rw [if_pos rfl] at h
    obtain ⟨hv, rfl, hnd, hall⟩ := canonicalHooksVal_inv h
    have hlists : (hv.all fun kv => PVal.isListVal kv.2) = true := by
      rw [List.all_eq_true] at hall ⊢
      intro kv hkv
      have hthis := hall kv hkv
      revert hthis
      cases kv.2 <;> intro hthis <;> simp_all [PVal.isListVal]
    have hid : hookTypesStepP [] hv = hv := by
      have hfid := hookTypesStepP_fresh_id hv [] (fun kv _ => rfl) hnd hlists
      simpa using hfid
    simp [canonStep, PVal.asDictD, hid]
  · rw [if_neg h1] at h
    by_cases h2 : key = "permissions"
    · subst h2
      rw [if_pos rfl] at h
      obtain ⟨a, d, k, rfl, -, hnda, -, hndd, -, hndk⟩ :=
        canonicalPermsVal_inv h
      simp [canonStep, PVal.asDictD, permTypesStepP_init_id]
    · simp [canonStep, h1, h2]

/-- The fold of a single document with duplicate-free keys stores each item
through `canonStep`. -/
theorem topEntriesStepP_fresh (items : List (String × PVal)) : ∀ r,
    (∀ kv ∈ items, PVal.hasKeyL r kv.1 = false) →
    nodupStr (items.map Prod.fst) = true →
    topEntriesStepP r items = r ++ items.map canonStep := by
  induction items with
  | nil => intro r _ _; simp [topEntriesStepP]
  | cons kv rest ih =>
      intro r hfresh hnd
      obtain ⟨key, v⟩ := kv
      have hfr : PVal.hasKeyL r key = false :=
        hfresh (key, v) (List.mem_cons_self ..)
      simp only [List.map_cons, nodupStr, Bool.and_eq_true,
        Bool.not_eq_true'] at hnd
      obtain ⟨hcont, hnd'⟩ := hnd
      have hkeynot : key ∉ rest.map Prod.fst := by
        intro hm
        have hc : (rest.map Prod.fst).contains key = true := by
          simpa [List.elem_iff] using hm
        rw [hcont] at hc
        simp at hc
      have hfresh' : ∀ kv' ∈ rest,
          PVal.hasKeyL (r ++ [canonStep (key, v)]) kv'.1 = false := by
        intro kv' hkv'
        rw [hasKeyL_eq_any, List.any_append]
        have h1 : (r.any fun p => p.1 = kv'.1) = false := by
          rw [← hasKeyL_eq_any]
          exact hfresh kv' (List.mem_cons_of_mem _ hkv')
        have h2 : ¬ (canonStep (key, v)).1 = kv'.1 := by
          rw [canonStep_fst]
          intro he
          have he' : key = kv'.1 := he
          exact hkeynot (by rw [he']; exact List.mem_map_of_mem _ hkv')
        simp [h1, h2]
      by_cases hkh : key = "hooks"
      · subst hkh
        have hstep : topEntriesStepP r (("hooks", v) :: rest) =
            topEntriesStepP (PVal.setKeyL r "hooks"
              (.dict (hookTypesStepP [] (PVal.asDictD v)))) rest := by
          simp [topEntriesStepP, hfr, PVal.getD, PVal.lookupKey_setKeyL_self,
            PVal.asDictD, PVal.setKeyL_setKeyL]
        rw [hstep, PVal.setKeyL_fresh r "hooks" _ hfr]
        have hcs : canonStep ("hooks", v) =
            ("hooks", PVal.dict (hookTypesStepP [] (PVal.asDictD v))) := by
          simp [canonStep]
        rw [← hcs, ih _ hfresh' hnd']
        simp
      · by_cases hkp : key = "permissions"
        · subst hkp
          have hstep : topEntriesStepP r (("permissions", v) :: rest) =
              topEntriesStepP (PVal.setKeyL r "permissions"
                (.dict (permTypesStepP permsInit (PVal.asDictD v)))) rest := by
            simp [topEntriesStepP, hfr, PVal.getD,
              PVal.lookupKey_setKeyL_self, PVal.asDictD, PVal.setKeyL_setKeyL]
          rw [hstep, PVal.setKeyL_fresh r "permissions" _ hfr]
          have hcs : canonStep ("permissions", v) =
              ("permissions",
                PVal.dict (permTypesStepP permsInit (PVal.asDictD v))) := by
            simp [canonStep]
          rw [← hcs, ih _ hfresh' hnd']
          simp
        · have hstep : topEntriesStepP r ((key, v) :: rest) =
              topEntriesStepP (PVal.setKeyL r key v) rest := by
            simp [topEntriesStepP, hkh, hkp]
          have hcs : canonStep (key, v) = (key, v) := by
            simp [canonStep, hkh, hkp]
          rw [hstep, PVal.setKeyL_fresh r key v hfr, ih _ ?_ hnd']
          · simp only [List.map_cons, hcs]
            simp
          · rw [← hcs]
            exact hfresh'

/-- The pure merge of a single canonical document is that document. -/
theorem mergePureTop_canonical (des : List (String × PVal))
    (h : canonicalDoc (PVal.dict des) = true) :
    mergePureTop [PVal.dict des] = des := by
  simp only [canonicalDoc, Bool.and_eq_true] at h
  obtain ⟨hnd, hall⟩ := h
  have hr0 : mergeFoldP [] [PVal.dict des] = des := by
    show topEntriesStepP [] des = des
    rw [topEntriesStepP_fresh des [] (fun kv _ => rfl) hnd, List.nil_append]
    have hid : ∀ kv ∈ des, canonStep kv = kv :=
      fun kv hkv => canonStep_id (List.all_eq_true.mp hall kv hkv)
    rw [List.map_congr_left hid]
    simp
  simp only [mergePureTop]
  rw [hr0]
  have h1 : (match PVal.lookupKey des "hooks" with
      | some hval => PVal.setKeyL des "hooks"
          (.dict (regroupHooksValsP (PVal.asDictD hval)))
      | none => des) = des := by
    cases hlh : PVal.lookupKey des "hooks" with
    | none => rfl
    | some hval =>
        have hch : canonicalHooksVal hval = true := by
          simpa using PVal.lookup_all des "hooks" hval hall hlh
        obtain ⟨hv, rfl, hndh, hallh⟩ := canonicalHooksVal_inv hch
        show PVal.setKeyL des "hooks" (.dict (regroupHooksValsP hv)) = des
        rw [regroupHooksValsP_id hv hallh]
        exact PVal.setKeyL_id des "hooks" _ hlh
  rw [h1]
  have h2 : (match PVal.lookupKey des "permissions" with
      | some pval => PVal.setKeyL des "permissions"
          (.dict (dedupePermsValsP (PVal.asDictD pval)))
      | none => des) = des := by
    cases hlp : PVal.lookupKey des "permissions" with
    | none => rfl
    | some pval =>
        have hcp : canonicalPermsVal pval = true := by
          simpa using PVal.lookup_all des "permissions" pval hall hlp
        obtain ⟨a, d, k, rfl, -, hnda, -, hndd, -, hndk⟩ :=
          canonicalPermsVal_inv hcp
        show PVal.setKeyL des "permissions"
            (.dict (dedupePermsValsP
              [("allow", .list a), ("deny", .list d),
               ("ask", .list k)])) = des
        rw [dedupePermsValsP_id a d k hnda hndd hndk]
        exact PVal.setKeyL_id des "permissions" _ hlp
  exact h2

/-- C6: every document already in canonical form — matcher groups merged
(distinct matchers), hook entries command-distinct, permission lists
duplicate-free with all three sub-keys present, exact emitted shapes — is a
fixed point of the merge: `merge_settings [D] = ok D`, so a persisted
document round-tripped through a no-op merge is unchanged. -/
theorem merge_canonical_fixed_point (D : PVal)
    (h : canonicalDoc D = true) :
    merge_settings [D] = .ok D := by
  obtain ⟨des, rfl, -, -⟩ := canonicalDoc_inv h
  have hvd : [PVal.dict des].all validDoc = true := by
    simp only [List.all_cons, List.all_nil, Bool.and_true]
    exact validDoc_of_canonical h
  rw [merge_settings_refines [PVal.dict des] hvd]
  simp only [mergePure]
  rw [mergePureTop_canonical des h]

/-- Witness for C6 at a concrete input. -/
theorem merge_canonical_fixed_point_witness :
    canonicalDoc exCanonical = true ∧
    merge_settings [exCanonical] = .ok exCanonical :=
  ⟨rfl, merge_canonical_fixed_point exCanonical rfl⟩

/-! ## Idempotence of the merge -/
theorem dedupBy_nil_of_seen (key : PVal → PVal) (ys : List PVal) : ∀ s,
    (∀ y ∈ ys, PVal.pmem (key y) s = true) →
    dedupBy key s ys = [] := by
  induction ys with
  | nil => intro s _; rfl
  | cons y rest ih =>
      intro s h
      have hy := h y (List.mem_cons_self ..)
      simp only [dedupBy, hy, if_true]
      exact ih s (fun z hz => h z (List.mem_cons_of_mem _ hz))

theorem pmem_keyAcc_of (key : PVal → PVal) (xs : List PVal) : ∀ seen q,
    (PVal.pmem q seen = true ∨ PVal.pmem q (xs.map key) = true) →
    PVal.pmem q (keyAcc key seen xs) = true := by
  induction xs with
  | nil =>
      intro seen q h
      rcases h with h | h
      · exact h
      · simp [PVal.pmem] at h
  | cons x rest ih =>
      intro seen q h
      have hstep : keyAcc key seen (x :: rest) =
          keyAcc key (if PVal.pmem (key x) seen then seen
            else key x :: seen) rest := rfl
      rw [hstep]
      rcases h with h | h
      · apply ih
        left
        split
        · exact h
        · simp only [PVal.pmem, List.any_cons, Bool.or_eq_true]
          right
          exact h
      · simp only [List.map_cons, PVal.pmem, List.any_cons,
          Bool.or_eq_true] at h
        rcases h with h | h
        · apply ih
          left
          by_cases hp : PVal.pmem (key x) seen = true
          · rw [if_pos hp]
            obtain rfl := PVal.eq_of_peq h
            exact hp
          · rw [if_neg hp]
            simp only [PVal.pmem, List.any_cons, h, Bool.true_or]
        · exact ih _ q (Or.inr (by simpa [PVal.pmem] using h))

/-- Appending already-covered elements does not change a first-occurrence
dedup. -/
theorem dedupBy_drop (key : PVal → PVal) (xs ys : List PVal)
    (seen : List PVal)
    (h : ∀ y ∈ ys, PVal.pmem (key y) (xs.map key) = true) :
    dedupBy key seen (xs ++ ys) = dedupBy key seen xs := by
  rw [dedupBy_append]
  rw [dedupBy_nil_of_seen key ys (keyAcc key seen xs)
    (fun y hy => pmem_keyAcc_of key xs seen (key y) (Or.inr (h y hy)))]
  simp

theorem collectP_append (xs ys : List (String × PVal)) (p : String) :
    collectP (xs ++ ys) p = collectP xs p ++ collectP ys p := by
  simp [collectP, List.filter_append]

theorem collectEnt_append (xs ys : List PVal) (m : PVal) :
    collectEnt (xs ++ ys) m = collectEnt xs m ++ collectEnt ys m := by
  simp [collectEnt, List.filter_append]

/-- Re-folding a last-writer-wins fold over the same items is absorbed. -/
theorem foldl_last_absorb (l : List (String × PVal)) (k : String) :
    ∀ i : Option PVal,
    l.foldl (fun acc kv => if kv.1 = k then some kv.2 else acc)
      (l.foldl (fun acc kv => if kv.1 = k then some kv.2 else acc) i) =
      l.foldl (fun acc kv => if kv.1 = k then some kv.2 else acc) i := by
  induction l with
  | nil => intro i; rfl
  | cons kv rest ih =>
      intro i
      obtain ⟨k₀, v₀⟩ := kv
      by_cases hk : k₀ = k
      · simp only [List.foldl_cons, if_pos hk]
      · simp only [List.foldl_cons, if_neg hk]
        exact ih i

/-- On an association list without duplicate keys, a last-writer-wins fold
finds exactly the (unique) binding, if any. -/
theorem foldl_last_nodup (es : List (String × PVal)) (k : String) : ∀ i,
    nodupStr (es.map Prod.fst) = true →
    es.foldl (fun acc kv => if kv.1 = k then some kv.2 else acc) i =
      (match PVal.lookupKey es k with
       | some v => some v
       | none => i) := by
  induction es with
  | nil => intro i _; rfl
  | cons kv rest ih =>
      intro i hnd
      obtain ⟨k₀, v₀⟩ := kv
      simp only [List.map_cons, nodupStr, Bool.and_eq_true,
        Bool.not_eq_true'] at hnd
      obtain ⟨hc, hnd'⟩ := hnd
      by_cases hk : k₀ = k
      · subst hk
        have hnone : PVal.lookupKey rest k₀ = none := by
          rw [PVal.lookupKey_eq_none_iff]
          intro hm
          have hcc : (rest.map Prod.fst).contains k₀ = true := by
            simpa [List.elem_iff] using hm
          rw [hc] at hcc
          simp at hcc
        simp only [List.foldl_cons, PVal.lookupKey, ih _ hnd', hnone]
        simp
      · simp only [List.foldl_cons, if_neg hk, PVal.lookupKey, ih _ hnd']

theorem hasKeyL_eq_contains (es : List (String × PVal)) (k : String) :
    PVal.hasKeyL es k = (es.map Prod.fst).contains k := by
  by_cases hm : k ∈ es.map Prod.fst
  · rw [(PVal.hasKeyL_iff_mem es k).mpr hm]
    have hcc : (es.map Prod.fst).contains k = true := by
      simpa [List.elem_iff] using hm
    rw [hcc]
  · have h1 : PVal.hasKeyL es k = false := by
      cases hh : PVal.hasKeyL es k
      · rfl
      · exact absurd ((PVal.hasKeyL_iff_mem es k).mp hh) hm
    rw [h1]
    cases hc : (es.map Prod.fst).contains k
    · rfl
    · exact absurd (by simpa [List.elem_iff] using hc) hm

theorem keyFold_cons (ks : List String) (kv : String × PVal)
    (rest : List (String × PVal)) :
    keyFold ks (kv :: rest) =
      keyFold (if ks.contains kv.1 then ks else ks ++ [kv.1]) rest := rfl

theorem keys_topEntriesStepP (items : List (String × PVal)) : ∀ r,
    (topEntriesStepP r items).map Prod.fst =
      keyFold (r.map Prod.fst) items := by
  induction items with
  | nil => intro r; rfl
  | cons kv rest ih =>
      intro r
      obtain ⟨key, v⟩ := kv
      rw [keyFold_cons]
      have hkeys : ∀ (w X : PVal),
          (PVal.setKeyL (if PVal.hasKeyL r key = true then r
            else PVal.setKeyL r key w) key X).map Prod.fst =
          if (r.map Prod.fst).contains key then r.map Prod.fst
          else r.map Prod.fst ++ [key] := by
        intro w X
        rw [← hasKeyL_eq_contains]
        by_cases hk : PVal.hasKeyL r key = true
        · rw [if_pos hk, if_pos hk, PVal.keysOf_setKeyL, if_pos hk]
        · have hk' : PVal.hasKeyL r key = false := by simpa using hk
          rw [hk']
          simp only [Bool.false_eq_true, if_false]
          rw [PVal.setKeyL_setKeyL, PVal.keysOf_setKeyL, hk']
          simp
      by_cases hkh : key = "hooks"
      · subst hkh
        simp only [topEntriesStepP, if_pos]
        rw [ih, hkeys]
      · by_cases hkp : key = "permissions"
        · subst hkp
          simp only [topEntriesStepP,
            if_neg (by decide : ¬ ("permissions" : String) = "hooks"),
            if_pos]
          rw [ih, hkeys]
        · simp only [topEntriesStepP, if_neg hkh, if_neg hkp]
          rw [ih, PVal.keysOf_setKeyL, hasKeyL_eq_contains]

theorem keys_mergeFoldP (docs : List PVal) : ∀ r,
    (mergeFoldP r docs).map Prod.fst =
      docs.foldl (fun ks d => keyFold ks (PVal.asDictD d))
        (r.map Prod.fst) := by
  induction docs with
  | nil => intro r; rfl
  | cons doc rest ih =>
      intro r
      rw [show mergeFoldP r (doc :: rest) =
        mergeFoldP (topEntriesStepP r (PVal.asDictD doc)) rest from rfl]
      rw [ih, keys_topEntriesStepP]
      rfl

theorem keys_mergePureTop (docs : List PVal) :
    (mergePureTop docs).map Prod.fst =
      (mergeFoldP [] docs).map Prod.fst := by
  simp only [mergePureTop]
  have h1 : ∀ (r : List (String × PVal)),
      ((match PVal.lookupKey r "hooks" with
        | some hval => PVal.setKeyL r "hooks"
            (.dict (regroupHooksValsP (PVal.asDictD hval)))
        | none => r)).map Prod.fst = r.map Prod.fst := by
    intro r
    cases hl : PVal.lookupKey r "hooks" with
    | none => rfl
    | some hval =>
        rw [PVal.keysOf_setKeyL, if_pos]
        rw [PVal.hasKeyL, hl]
        rfl
  have h2 : ∀ (r : List (String × PVal)),
      ((match PVal.lookupKey r "permissions" with
        | some pval => PVal.setKeyL r "permissions"
            (.dict (dedupePermsValsP (PVal.asDictD pval)))
        | none => r)).map Prod.fst = r.map Prod.fst := by
    intro r
    cases hl : PVal.lookupKey r "permissions" with
    | none => rfl
    | some pval =>
        rw [PVal.keysOf_setKeyL, if_pos]
        rw [PVal.hasKeyL, hl]
        rfl
  rw [h2, h1]

theorem keyFold_mem_mono (items : List (String × PVal)) : ∀ ks a,
    a ∈ ks → a ∈ keyFold ks items := by
  induction items with
  | nil => intro ks a h; exact h
  | cons kv rest ih =>
      intro ks a h
      rw [keyFold_cons]
      apply ih
      split
      · exact h
      · exact List.mem_append_left _ h

theorem keyFold_mem_of (items : List (String × PVal)) : ∀ ks kv,
    kv ∈ items → kv.1 ∈ keyFold ks items := by
  induction items with
  | nil => intro ks kv h; simp at h
  | cons kv₀ rest ih =>
      intro ks kv h
      rw [keyFold_cons]
      rcases List.mem_cons.mp h with rfl | h'
      · apply keyFold_mem_mono
        split
        · next hc => simpa [List.elem_iff] using hc
        · exact List.mem_append_right _ (List.mem_singleton.mpr rfl)
      · exact ih _ kv h'

theorem keyFold_id_of (items : List (String × PVal)) : ∀ ks,
    (∀ kv ∈ items, kv.1 ∈ ks) → keyFold ks items = ks := by
  induction items with
  | nil => intro ks _; rfl
  | cons kv rest ih =>
      intro ks h
      rw [keyFold_cons]
      have hc : ks.contains kv.1 = true := by
        simpa [List.elem_iff] using h kv (List.mem_cons_self ..)
      rw [if_pos hc]
      exact ih ks (fun kv' h' => h kv' (List.mem_cons_of_mem _ h'))

theorem keyFold_fresh (items : List (String × PVal)) : ∀ ks,
    (∀ kv ∈ items, kv.1 ∉ ks) →
    nodupStr (items.map Prod.fst) = true →
    keyFold ks items = ks ++ items.map Prod.fst := by
  induction items with
  | nil => intro ks _ _; simp [keyFold]
  | cons kv rest ih =>
      intro ks hfr hnd
      obtain ⟨key, v⟩ := kv
      simp only [List.map_cons, nodupStr, Bool.and_eq_true,
        Bool.not_eq_true'] at hnd
      obtain ⟨hcont, hnd'⟩ := hnd
      rw [keyFold_cons]
      have hc : ks.contains key = false := by
        cases hh : ks.contains key
        · rfl
        · exact absurd (by simpa [List.elem_iff] using hh)
            (hfr (key, v) (List.mem_cons_self ..))
      rw [hc]
      simp only [Bool.false_eq_true, if_false]
      rw [ih (ks ++ [key]) ?_ hnd']
      · simp
      · intro kv' hkv' hm
        rcases List.mem_append.mp hm with hm | hm
        · exact hfr kv' (List.mem_cons_of_mem _ hkv') hm
        · rw [List.mem_singleton] at hm
          have hmem : kv'.1 ∈ rest.map Prod.fst :=
            List.mem_map_of_mem _ hkv'
          rw [hm] at hmem
          have hcc : (rest.map Prod.fst).contains key = true := by
            simpa [List.elem_iff] using hmem
          rw [hcont] at hcc
          simp at hcc

theorem keyFold_nodup (items : List (String × PVal)) : ∀ ks,
    nodupStr ks = true → nodupStr (keyFold ks items) = true := by
  induction items with
  | nil => intro ks h; exact h
  | cons kv rest ih =>
      intro ks h
      rw [keyFold_cons]
      by_cases hc : ks.contains kv.1 = true
      · rw [if_pos hc]
        exact ih ks h
      · have hc' : ks.contains kv.1 = false := by simpa using hc
        rw [hc']
        simp only [Bool.false_eq_true, if_false]
        apply ih
        rw [PVal.nodupStr_iff] at h ⊢
        have hnm : kv.1 ∉ ks := by
          intro hm
          rw [show ks.contains kv.1 = true from by
            simpa [List.elem_iff] using hm] at hc'
          simp at hc'
        simp [List.nodup_append, h, hnm]

theorem keys_fold_nodup (docs : List PVal) : ∀ ks,
    nodupStr ks = true →
    nodupStr (docs.foldl (fun ks d => keyFold ks (PVal.asDictD d)) ks) =
      true := by
  induction docs with
  | nil => intro ks h; exact h
  | cons doc rest ih =>
      intro ks h
      exact ih _ (keyFold_nodup (PVal.asDictD doc) ks h)

theorem nodupStr_mergePureTop (docs : List PVal) :
    nodupStr ((mergePureTop docs).map Prod.fst) = true := by
  rw [keys_mergePureTop, keys_mergeFoldP]
  exact keys_fold_nodup docs [] rfl

theorem lookup_of_mem_nodup (es : List (String × PVal))
    (hnd : nodupStr (es.map Prod.fst) = true) :
    ∀ kv ∈ es, PVal.lookupKey es kv.1 = some kv.2 := by
  induction es with
  | nil => intro kv hkv; simp at hkv
  | cons e rest ih =>
      intro kv hkv
      obtain ⟨k₀, v₀⟩ := e
      simp only [List.map_cons, nodupStr, Bool.and_eq_true,
        Bool.not_eq_true'] at hnd
      obtain ⟨hc, hnd'⟩ := hnd
      rcases List.mem_cons.mp hkv with rfl | hkv'
      · simp [PVal.lookupKey]
      · have hne : ¬ k₀ = kv.1 := by
          intro he
          have hmem : kv.1 ∈ rest.map Prod.fst :=
            List.mem_map_of_mem _ hkv'
          rw [← he] at hmem
          have hcc : (rest.map Prod.fst).contains k₀ = true := by
            simpa [List.elem_iff] using hmem
          rw [hc] at hcc
          simp at hcc
        simp only [PVal.lookupKey, if_neg hne]
        exact ih hnd' kv hkv'

theorem filter_key_of_lookup (es : List (String × PVal)) (k : String)
    (hnd : nodupStr (es.map Prod.fst) = true) :
    es.filter (fun kv => kv.1 = k) =
      (match PVal.lookupKey es k with
       | some v => [(k, v)]
       | none => []) := by
  induction es with
  | nil => rfl
  | cons kv rest ih =>
      obtain ⟨k₀, v₀⟩ := kv
      simp only [List.map_cons, nodupStr, Bool.and_eq_true,
        Bool.not_eq_true'] at hnd
      obtain ⟨hc, hnd'⟩ := hnd
      by_cases hk : k₀ = k
      · subst hk
        rw [List.filter_cons_of_pos (by simp)]
        have hnone : PVal.lookupKey rest k₀ = none := by
          rw [PVal.lookupKey_eq_none_iff]
          intro hm
          have hcc : (rest.map Prod.fst).contains k₀ = true := by
            simpa [List.elem_iff] using hm
          rw [hc] at hcc
          simp at hcc
        rw [ih hnd', hnone]
        simp [PVal.lookupKey]
      · rw [List.filter_cons_of_neg (by simp [hk])]
        rw [ih hnd']
        simp only [PVal.lookupKey, if_neg hk]

theorem collectEnt_all_valid (G : List PVal) (m : PVal)
    (h : G.all validGroup = true) :
    (collectEnt G m).all validEntry = true := by
  rw [List.all_eq_true]
  intro x hx
  rw [collectEnt, List.mem_flatMap] at hx
  obtain ⟨g, hg, hx₂⟩ := hx
  rw [List.mem_filter] at hg
  exact List.all_eq_true.mp (entriesOf_valid (List.all_eq_true.mp h g hg.1))
    x hx₂

theorem validGroup_mk (m : PVal) (es : List PVal)
    (hm : PVal.isStr m = true) (hes : es.all validEntry = true) :
    validGroup (PVal.dict [("matcher", m), ("hooks", PVal.list es)]) =
      true := by
  simp [validGroup, PVal.lookupKey, nodupStr, hm, hes]

theorem regroupTypeP_matchers (G : List PVal)
    (h : G.all validGroup = true) :
    (regroupTypeP G).map PVal.matcherOf = pdedup (G.map PVal.matcherOf) := by
  rw [regroupTypeP_spec G h, List.map_map]
  have hcomp : ∀ m ∈ pdedup (G.map PVal.matcherOf),
      (PVal.matcherOf ∘ fun m => PVal.dict [("matcher", m),
        ("hooks", PVal.list (dedupBy PVal.ckey [] (collectEnt G m)))]) m =
      m := fun m _ => rfl
  rw [List.map_congr_left hcomp]
  simp

theorem regroupTypeP_all_valid (G : List PVal)
    (h : G.all validGroup = true) :
    (regroupTypeP G).all validGroup = true := by
  rw [regroupTypeP_spec G h, List.all_eq_true]
  intro g hg
  obtain ⟨m, hm, rfl⟩ := List.mem_map.mp hg
  have hmG : m ∈ G.map PVal.matcherOf := (dedupBy_sublist _ _ []).subset hm
  obtain ⟨g₀, hg₀, rfl⟩ := List.mem_map.mp hmG
  apply validGroup_mk
  · exact isStr_matcherOf (List.all_eq_true.mp h g₀ hg₀)
  · rw [List.all_eq_true]
    intro x hx
    exact List.all_eq_true.mp (collectEnt_all_valid G _ h) x
      ((dedupBy_sublist PVal.ckey _ []).subset hx)

theorem pfilter_singleton (l : List PVal) : ∀ m ∈ l,
    (∀ x ∈ l, PVal.hashable x = true) → l.Nodup →
    l.filter (fun x => PVal.peq x m) = [m] := by
  induction l with
  | nil => intro m hm; simp at hm
  | cons x rest ih =>
      intro m hm hh hnd
      rw [List.nodup_cons] at hnd
      rcases List.mem_cons.mp hm with rfl | hm'
      · rw [List.filter_cons_of_pos
          (by simp [PVal.peq_refl (hh m (List.mem_cons_self ..))])]
        congr 1
        rw [List.filter_eq_nil_iff]
        intro y hy hpy
        obtain rfl := PVal.eq_of_peq hpy
        exact hnd.1 hy
      · rw [List.filter_cons_of_neg]
        · exact ih m hm' (fun z hz => hh z (List.mem_cons_of_mem _ hz))
            hnd.2
        · intro hpx
          obtain rfl := PVal.eq_of_peq hpx
          exact hnd.1 hm'

theorem collectEnt_regroup (G : List PVal) (m : PVal)
    (h : G.all validGroup = true)
    (hm : m ∈ pdedup (G.map PVal.matcherOf)) :
    collectEnt (regroupTypeP G) m =
      dedupBy PVal.ckey [] (collectEnt G m) := by
  have hGhash : ∀ x ∈ G.map PVal.matcherOf, PVal.hashable x = true := by
    intro x hx
    obtain ⟨g₀, hg₀, rfl⟩ := List.mem_map.mp hx
    exact hashable_matcherOf (List.all_eq_true.mp h g₀ hg₀)
  have hhash : ∀ x ∈ pdedup (G.map PVal.matcherOf),
      PVal.hashable x = true :=
    fun x hx => hGhash x ((dedupBy_sublist _ _ []).subset hx)
  have hnd : (pdedup (G.map PVal.matcherOf)).Nodup := by
    have hdb := dedupBy_map_key_nodup (fun x => x) (G.map PVal.matcherOf)
      [] (fun x hx => hGhash x hx)
    simpa using hdb
  rw [regroupTypeP_spec G h, collectEnt, List.filter_map]
  have hcong : ∀ m' ∈ pdedup (G.map PVal.matcherOf),
      ((fun e => PVal.peq (PVal.matcherOf e) m) ∘ fun m =>
        PVal.dict [("matcher", m), ("hooks",
          PVal.list (dedupBy PVal.ckey [] (collectEnt G m)))]) m' =
      PVal.peq m' m := fun m' _ => rfl
  rw [List.filter_congr hcong]
  rw [pfilter_singleton _ m hm hhash hnd]
  simp [PVal.entriesOf, PVal.asListD, PVal.getD, PVal.lookupKey]

/-- Regrouping an already-regrouped list together with groups it already
covers changes nothing: the per-type absorption at the heart of
idempotence. -/
theorem regroupTypeP_absorb (G E : List PVal)
    (hG : G.all validGroup = true)
    (hE : ∀ e ∈ E, e ∈ G) :
    regroupTypeP (regroupTypeP G ++ E) = regroupTypeP G := by
  have hEv : E.all validGroup = true := by
    rw [List.all_eq_true]
    exact fun e he => List.all_eq_true.mp hG e (hE e he)
  have hRv : (regroupTypeP G).all validGroup = true :=
    regroupTypeP_all_valid G hG
  have hREv : (regroupTypeP G ++ E).all validGroup = true := by
    rw [List.all_append, Bool.and_eq_true]
    exact ⟨hRv, hEv⟩
  have hGhash : ∀ x ∈ G.map PVal.matcherOf, PVal.hashable x = true := by
    intro x hx
    obtain ⟨g₀, hg₀, rfl⟩ := List.mem_map.mp hx
    exact hashable_matcherOf (List.all_eq_true.mp hG g₀ hg₀)
  rw [regroupTypeP_spec _ hREv]
  have hidx : pdedup ((regroupTypeP G ++ E).map PVal.matcherOf) =
      pdedup (G.map PVal.matcherOf) := by
    rw [List.map_append, regroupTypeP_matchers G hG]
    simp only [pdedup]
    rw [dedupBy_absorb]
    apply dedupBy_drop
    intro y hy
    obtain ⟨e, he, rfl⟩ := List.mem_map.mp hy
    show PVal.pmem (PVal.matcherOf e)
      ((G.map PVal.matcherOf).map (fun x => x)) = true
    rw [show (G.map PVal.matcherOf).map (fun x => x) =
      G.map PVal.matcherOf from by simp]
    exact (pmem_iff_mem hGhash).mpr (List.mem_map_of_mem _ (hE e he))
  rw [hidx]
  have hent : ∀ m ∈ pdedup (G.map PVal.matcherOf),
      PVal.dict [("matcher", m), ("hooks", PVal.list
        (dedupBy PVal.ckey [] (collectEnt (regroupTypeP G ++ E) m)))] =
      PVal.dict [("matcher", m), ("hooks", PVal.list
        (dedupBy PVal.ckey [] (collectEnt G m)))] := by
    intro m hm
    have hdrop : dedupBy PVal.ckey []
        (collectEnt G m ++ collectEnt E m) =
        dedupBy PVal.ckey [] (collectEnt G m) := by
      apply dedupBy_drop
      intro y hy
      have hyG : y ∈ collectEnt G m := by
        rw [collectEnt, List.mem_flatMap] at hy ⊢
        obtain ⟨e, he, hy₂⟩ := hy
        rw [List.mem_filter] at he
        exact ⟨e, List.mem_filter.mpr ⟨hE e he.1, he.2⟩, hy₂⟩
      apply (pmem_iff_mem ?_).mpr (List.mem_map_of_mem _ hyG)
      intro z hz
      obtain ⟨x, hx, rfl⟩ := List.mem_map.mp hz
      exact hashable_ckey
        (List.all_eq_true.mp (collectEnt_all_valid G m hG) x hx)
    rw [collectEnt_append, collectEnt_regroup G m hG hm, dedupBy_absorb,
      hdrop]
  rw [List.map_congr_left hent, ← regroupTypeP_spec G hG]

theorem hasKeyL_congr_keys {es₁ es₂ : List (String × PVal)}
    (h : es₁.map Prod.fst = es₂.map Prod.fst) (k : String) :
    PVal.hasKeyL es₁ k = PVal.hasKeyL es₂ k := by
  rw [hasKeyL_eq_contains, hasKeyL_eq_contains, h]

theorem nodupStr_setKeyL (es : List (String × PVal)) (k : String) (v : PVal)
    (h : nodupStr (es.map Prod.fst) = true) :
    nodupStr ((PVal.setKeyL es k v).map Prod.fst) = true := by
  rw [PVal.keysOf_setKeyL]
  by_cases hk : PVal.hasKeyL es k = true
  · rw [if_pos hk]
    exact h
  · rw [if_neg hk]
    rw [PVal.nodupStr_iff] at h ⊢
    have hnm : k ∉ es.map Prod.fst :=
      fun hm => hk ((PVal.hasKeyL_iff_mem es k).mpr hm)
    simp [List.nodup_append, h, hnm]

theorem hookTypesStepP_nodupKeys (items : List (String × PVal)) : ∀ hv,
    nodupStr (hv.map Prod.fst) = true →
    nodupStr ((hookTypesStepP hv items).map Prod.fst) = true := by
  induction items with
  | nil => intro hv h; exact h
  | cons kv rest ih =>
      intro hv h
      obtain ⟨t, v⟩ := kv
      simp only [hookTypesStepP]
      exact ih _ (nodupStr_setKeyL hv t _ h)

theorem keys_hookTypesStepP_subset (items : List (String × PVal)) : ∀ hv,
    (∀ kv ∈ items, PVal.hasKeyL hv kv.1 = true) →
    (hookTypesStepP hv items).map Prod.fst = hv.map Prod.fst := by
  induction items with
  | nil => intro hv _; rfl
  | cons kv rest ih =>
      intro hv hpres
      obtain ⟨t, v⟩ := kv
      simp only [hookTypesStepP]
      have hk : PVal.hasKeyL hv t = true :=
        hpres (t, v) (List.mem_cons_self ..)
      have hkeys : (PVal.setKeyL hv t
          (.list (PVal.asListD (PVal.getD hv t (.list [])) ++
            PVal.asListD v))).map Prod.fst = hv.map Prod.fst := by
        rw [PVal.keysOf_setKeyL, if_pos hk]
      rw [ih _ ?_, hkeys]
      intro kv' hkv'
      rw [hasKeyL_congr_keys hkeys]
      exact hpres kv' (List.mem_cons_of_mem _ hkv')

theorem regroupHooksValsP_keys (hv : List (String × PVal)) :
    (regroupHooksValsP hv).map Prod.fst = hv.map Prod.fst := by
  unfold regroupHooksValsP
  rw [List.map_map]
  rfl

theorem regroupHooksValsP_listVals (hv : List (String × PVal)) :
    ((regroupHooksValsP hv).all fun kv => PVal.isListVal kv.2) = true := by
  rw [List.all_eq_true]
  intro kv hkv
  obtain ⟨kv₀, hkv₀, rfl⟩ := List.mem_map.mp hkv
  rfl

theorem validHooksVal_regroupAll (hv : List (String × PVal))
    (hacc : hooksAccOk hv = true)
    (hnd : nodupStr (hv.map Prod.fst) = true) :
    validHooksVal (.dict (regroupHooksValsP hv)) = true := by
  rw [show validHooksVal (PVal.dict (regroupHooksValsP hv)) =
    (nodupStr ((regroupHooksValsP hv).map Prod.fst) &&
      (regroupHooksValsP hv).all fun kv =>
        match kv.2 with
        | PVal.list gs => gs.all validGroup
        | _ => false) from rfl]
  rw [Bool.and_eq_true]
  constructor
  · rw [regroupHooksValsP_keys]
    exact hnd
  · rw [List.all_eq_true]
    intro kv hkv
    obtain ⟨kv₀, hkv₀, rfl⟩ := List.mem_map.mp hkv
    have hval := List.all_eq_true.mp hacc kv₀ hkv₀
    revert hval
    obtain ⟨t, v⟩ := kv₀
    cases v with
    | list gs =>
        intro hval
        have hgs : gs.all validGroup = true := by simpa using hval
        show (regroupTypeP (PVal.asListD (PVal.list gs))).all validGroup =
          true
        exact regroupTypeP_all_valid gs hgs
    | null => intro hval; simp at hval
    | bool b => intro hval; simp at hval
    | int n => intro hval; simp at hval
    | str s => intro hval; simp at hval
    | dict es => intro hval; simp at hval

theorem validPermsVal_dedupe3 (a d k : List PVal)
    (ha : a.all PVal.isStr = true) (hd : d.all PVal.isStr = true)
    (hk : k.all PVal.isStr = true) :
    validPermsVal (.dict (dedupePermsValsP
      [("allow", .list a), ("deny", .list d), ("ask", .list k)])) =
      true := by
  have hsub : ∀ (l : List PVal), l.all PVal.isStr = true →
      (dedupBy (fun x => x) [] l).all PVal.isStr = true := by
    intro l hl
    rw [List.all_eq_true] at hl ⊢
    exact fun x hx => hl x ((dedupBy_sublist _ _ []).subset hx)
  simp [dedupePermsValsP, PVal.asListD, validPermsVal, nodupStr,
    hsub a ha, hsub d hd, hsub k hk]

/-- The merged output of structurally valid documents is itself structurally
valid. -/
theorem validDoc_mergePure (docs : List PVal)
    (h : docs.all validDoc = true) :
    validDoc (mergePure docs) = true := by
  rw [show validDoc (mergePure docs) =
    (nodupStr ((mergePureTop docs).map Prod.fst) &&
      (mergePureTop docs).all fun kv =>
        if kv.1 = "hooks" then validHooksVal kv.2
        else if kv.1 = "permissions" then validPermsVal kv.2
        else true) from rfl]
  rw [Bool.and_eq_true]
  have hndk : nodupStr ((mergePureTop docs).map Prod.fst) = true :=
    nodupStr_mergePureTop docs
  refine ⟨hndk, ?_⟩
  rw [List.all_eq_true]
  intro kv hkv
  by_cases h1 : kv.1 = "hooks"
  · rw [if_pos h1]
    have hlk : PVal.lookupKey (mergePureTop docs) "hooks" = some kv.2 := by
      rw [← h1]
      exact lookup_of_mem_nodup _ hndk kv hkv
    rw [lookup_mergePureTop_hooks docs] at hlk
    revert hlk
    cases hany : anyHasKey docs "hooks" with
    | false => intro hlk; simp at hlk
    | true =>
        intro hlk
        rw [if_pos rfl] at hlk
        injection hlk with hlk
        rw [← hlk]
        apply validHooksVal_regroupAll
        · exact (hookTypesStep_ok (allHookItems docs) [] rfl
            (allHookItems_valid docs h)).2
        · exact hookTypesStepP_nodupKeys (allHookItems docs) [] rfl
  · rw [if_neg h1]
    by_cases h2 : kv.1 = "permissions"
    · rw [if_pos h2]
      have hlk : PVal.lookupKey (mergePureTop docs) "permissions" =
          some kv.2 := by
        rw [← h2]
        exact lookup_of_mem_nodup _ hndk kv hkv
      rw [lookup_mergePureTop_perms docs] at hlk
      revert hlk
      cases hany : anyHasKey docs "permissions" with
      | false => intro hlk; simp at hlk
      | true =>
          intro hlk
          rw [if_pos rfl] at hlk
          injection hlk with hlk
          rw [← hlk]
          obtain ⟨hkeys3, hstrs⟩ := allPermItems_valid docs h
          have hchar := permTypesStepP_char (allPermItems docs) [] [] []
            hkeys3
          rw [show permsInit = [("allow", PVal.list []),
            ("deny", PVal.list []), ("ask", PVal.list [])] from rfl, hchar]
          simp only [List.nil_append]
          exact validPermsVal_dedupe3 _ _ _
            (collectP_isStr _ "allow" hstrs)
            (collectP_isStr _ "deny" hstrs)
            (collectP_isStr _ "ask" hstrs)
    · rw [if_neg h2]

theorem hasKeyL_mergePureTop_hooks (docs : List PVal) :
    PVal.hasKeyL (mergePureTop docs) "hooks" = anyHasKey docs "hooks" := by
  rw [PVal.hasKeyL, lookup_mergePureTop_hooks]
  cases anyHasKey docs "hooks" <;> simp

theorem hasKeyL_mergePureTop_perms (docs : List PVal) :
    PVal.hasKeyL (mergePureTop docs) "permissions" =
      anyHasKey docs "permissions" := by
  rw [PVal.hasKeyL, lookup_mergePureTop_perms]
  cases anyHasKey docs "permissions" <;> simp

theorem anyHasKey_pair (a b : List (String × PVal)) (k : String) :
    anyHasKey [PVal.dict a, PVal.dict b] k =
      (PVal.hasKeyL a k || PVal.hasKeyL b k) := by
  simp [anyHasKey, PVal.asDictD]

theorem hasKeyL_hookTypesStepP_nil (items : List (String × PVal))
    (t : String) :
    PVal.hasKeyL (hookTypesStepP [] items) t =
      items.any (fun kv => kv.1 = t) := by
  rw [PVal.hasKeyL, lookup_hookTypesStepP items [] t rfl]
  rw [show PVal.hasKeyL ([] : List (String × PVal)) t = false from rfl]
  rw [Bool.false_or]
  cases items.any (fun kv => kv.1 = t) <;> simp

theorem allHookItems_pair (a b : List (String × PVal)) :
    allHookItems [PVal.dict a, PVal.dict b] =
      hookItemsIn a ++ hookItemsIn b := by
  simp [allHookItems, PVal.asDictD]

theorem allPermItems_pair (a b : List (String × PVal)) :
    allPermItems [PVal.dict a, PVal.dict b] =
      permItemsIn a ++ permItemsIn b := by
  simp [allPermItems, PVal.asDictD]

/-- Re-merging the merged document with the same fragment leaves passthrough
keys unchanged. -/
theorem lastValueOf_idem (dD dF : List (String × PVal)) (k : String)
    (hk1 : ¬ k = "hooks") (hk2 : ¬ k = "permissions") :
    lastValueOf [PVal.dict (mergePureTop [PVal.dict dD, PVal.dict dF]),
      PVal.dict dF] k =
      lastValueOf [PVal.dict dD, PVal.dict dF] k := by
  have hnd₁ : nodupStr
      ((mergePureTop [PVal.dict dD, PVal.dict dF]).map Prod.fst) = true :=
    nodupStr_mergePureTop _
  have hfm₁ : ([PVal.dict dD, PVal.dict dF].flatMap PVal.asDictD) =
      dD ++ dF := by simp [PVal.asDictD]
  have hfm₂ : ([PVal.dict (mergePureTop [PVal.dict dD, PVal.dict dF]),
      PVal.dict dF].flatMap PVal.asDictD) =
      mergePureTop [PVal.dict dD, PVal.dict dF] ++ dF := by
    simp [PVal.asDictD]
  rw [lastValueOf, lastValueOf, hfm₁, hfm₂, List.foldl_append,
    List.foldl_append]
  have hT1f : (mergePureTop [PVal.dict dD, PVal.dict dF]).foldl
      (fun acc kv => if kv.1 = k then some kv.2 else acc) none =
      dF.foldl (fun acc kv => if kv.1 = k then some kv.2 else acc)
        (dD.foldl (fun acc kv => if kv.1 = k then some kv.2 else acc)
          none) := by
    rw [foldl_last_nodup _ k none hnd₁]
    have hmatch : (match PVal.lookupKey
        (mergePureTop [PVal.dict dD, PVal.dict dF]) k with
        | some v => some v
        | none => (none : Option PVal)) =
        PVal.lookupKey (mergePureTop [PVal.dict dD, PVal.dict dF]) k := by
      cases PVal.lookupKey (mergePureTop [PVal.dict dD, PVal.dict dF]) k <;>
        rfl
    rw [hmatch, lookup_mergePureTop_other _ k hk1 hk2, lastValueOf, hfm₁,
      List.foldl_append]
  rw [hT1f, foldl_last_absorb]

/-- Folding the already-merged hooks dict together with the same fragment's
hook items and regrouping reproduces the merged hooks dict. -/
theorem hooks_regroup_idem (dD dF : List (String × PVal))
    (hDocs : [PVal.dict dD, PVal.dict dF].all validDoc = true)
    (hany : anyHasKey [PVal.dict dD, PVal.dict dF] "hooks" = true) :
    regroupHooksValsP (hookTypesStepP []
      (allHookItems [PVal.dict (mergePureTop [PVal.dict dD, PVal.dict dF]),
        PVal.dict dF])) =
    regroupHooksValsP (hookTypesStepP []
      (allHookItems [PVal.dict dD, PVal.dict dF])) := by
  have hnd₁ : nodupStr
      ((mergePureTop [PVal.dict dD, PVal.dict dF]).map Prod.fst) = true :=
    nodupStr_mergePureTop _
  have hvalid₁ := allHookItems_valid [PVal.dict dD, PVal.dict dF] hDocs
  have hndA₁ : nodupStr ((hookTypesStepP []
      (allHookItems [PVal.dict dD, PVal.dict dF])).map Prod.fst) = true :=
    hookTypesStepP_nodupKeys _ [] rfl
  have hndRH : nodupStr ((regroupHooksValsP (hookTypesStepP []
      (allHookItems [PVal.dict dD, PVal.dict dF]))).map Prod.fst) = true := by
    rw [regroupHooksValsP_keys]
    exact hndA₁
  have hRHlv := regroupHooksValsP_listVals
    (hookTypesStepP [] (allHookItems [PVal.dict dD, PVal.dict dF]))
  have hlkT₁ : PVal.lookupKey
      (mergePureTop [PVal.dict dD, PVal.dict dF]) "hooks" =
      some (.dict (regroupHooksValsP (hookTypesStepP []
        (allHookItems [PVal.dict dD, PVal.dict dF])))) := by
    rw [lookup_mergePureTop_hooks, hany, if_pos rfl]
  have hHIT : hookItemsIn (mergePureTop [PVal.dict dD, PVal.dict dF]) =
      regroupHooksValsP (hookTypesStepP []
        (allHookItems [PVal.dict dD, PVal.dict dF])) := by
    rw [hookItemsIn, filter_key_of_lookup _ "hooks" hnd₁, hlkT₁]
    simp [PVal.asDictD]
  have hfid : hookTypesStepP [] (regroupHooksValsP (hookTypesStepP []
      (allHookItems [PVal.dict dD, PVal.dict dF]))) =
      regroupHooksValsP (hookTypesStepP []
        (allHookItems [PVal.dict dD, PVal.dict dF])) := by
    have h0 := hookTypesStepP_fresh_id _ [] (fun kv _ => rfl) hndRH hRHlv
    simpa using h0
  have hsplit : hookTypesStepP []
      (allHookItems [PVal.dict (mergePureTop [PVal.dict dD, PVal.dict dF]),
        PVal.dict dF]) =
      hookTypesStepP (regroupHooksValsP (hookTypesStepP []
        (allHookItems [PVal.dict dD, PVal.dict dF])))
        (hookItemsIn dF) := by
    rw [allHookItems_pair, hHIT, hookTypesStepP_append, hfid]
  rw [hsplit]
  have hFtypes : ∀ kv ∈ hookItemsIn dF,
      PVal.hasKeyL (regroupHooksValsP (hookTypesStepP []
        (allHookItems [PVal.dict dD, PVal.dict dF]))) kv.1 = true := by
    intro kv hkv
    rw [hasKeyL_congr_keys (regroupHooksValsP_keys _),
      hasKeyL_hookTypesStepP_nil]
    rw [List.any_eq_true]
    refine ⟨kv, ?_, by simp⟩
    rw [allHookItems_pair]
    exact List.mem_append_right _ hkv
  have hkB₂ := keys_hookTypesStepP_subset (hookItemsIn dF) _ hFtypes
  refine (PVal.assoc_ext _ _ hndRH ?_ ?_).symm
  · rw [regroupHooksValsP_keys, regroupHooksValsP_keys]
    exact (hkB₂.trans (regroupHooksValsP_keys _)).symm
  · intro t
    cases hc : (allHookItems [PVal.dict dD, PVal.dict dF]).any
        (fun kv => kv.1 = t) with
    | false =>
        have hcF : ((hookItemsIn dF).any fun kv => kv.1 = t) = false := by
          rw [allHookItems_pair, List.any_append,
            Bool.or_eq_false_iff] at hc
          exact hc.2
        have h1 : PVal.lookupKey (hookTypesStepP []
            (allHookItems [PVal.dict dD, PVal.dict dF])) t = none := by
          rw [lookup_hookTypesStepP _ [] t rfl, hc]
          simp [PVal.hasKeyL, PVal.lookupKey]
        have h2 : PVal.lookupKey (hookTypesStepP
            (regroupHooksValsP (hookTypesStepP []
              (allHookItems [PVal.dict dD, PVal.dict dF])))
            (hookItemsIn dF)) t = none := by
          rw [lookup_hookTypesStepP _ _ t hRHlv]
          rw [hasKeyL_congr_keys (regroupHooksValsP_keys _),
            hasKeyL_hookTypesStepP_nil, hc, hcF]
          simp
        rw [lookup_regroupHooksValsP, lookup_regroupHooksValsP, h1, h2]
    | true =>
        have h1 : PVal.lookupKey (hookTypesStepP []
            (allHookItems [PVal.dict dD, PVal.dict dF])) t =
            some (.list (((allHookItems
              [PVal.dict dD, PVal.dict dF]).filter
                fun kv => kv.1 = t).flatMap
                  fun kv => PVal.asListD kv.2)) := by
          rw [lookup_hookTypesStepP _ [] t rfl, hc]
          simp [PVal.hasKeyL, PVal.lookupKey, PVal.getD, PVal.asListD]
        have hlkRH : PVal.lookupKey (regroupHooksValsP (hookTypesStepP []
            (allHookItems [PVal.dict dD, PVal.dict dF]))) t =
            some (.list (regroupTypeP (((allHookItems
              [PVal.dict dD, PVal.dict dF]).filter
                fun kv => kv.1 = t).flatMap
                  fun kv => PVal.asListD kv.2))) := by
          rw [lookup_regroupHooksValsP, h1]
          simp [PVal.asListD]
        have h2 : PVal.lookupKey (hookTypesStepP
            (regroupHooksValsP (hookTypesStepP []
              (allHookItems [PVal.dict dD, PVal.dict dF])))
            (hookItemsIn dF)) t =
            some (.list (regroupTypeP (((allHookItems
              [PVal.dict dD, PVal.dict dF]).filter
                fun kv => kv.1 = t).flatMap
                  fun kv => PVal.asListD kv.2) ++
              (((hookItemsIn dF).filter fun kv => kv.1 = t).flatMap
                fun kv => PVal.asListD kv.2))) := by
          rw [lookup_hookTypesStepP _ _ t hRHlv]
          rw [hasKeyL_congr_keys (regroupHooksValsP_keys _),
            hasKeyL_hookTypesStepP_nil, hc]
          rw [show (true || (hookItemsIn dF).any fun kv => kv.1 = t) =
            true from by simp]
          rw [if_pos rfl, PVal.getD, hlkRH]
          simp [PVal.asListD]
        rw [hlkRH, lookup_regroupHooksValsP, h2]
        simp only [Option.map_some', PVal.asListD]
        rw [regroupTypeP_absorb _ _ ?_ ?_]
        · exact groupsFor_valid [PVal.dict dD, PVal.dict dF] t hDocs
        · intro e he
          rw [allHookItems_pair, List.filter_append, List.flatMap_append]
          exact List.mem_append_right _ he

/-- Folding the already-merged permissions dict together with the same
fragment's permission items and deduplicating reproduces the merged
permissions dict. -/
theorem perms_dedupe_idem (dD dF : List (String × PVal))
    (hDocs : [PVal.dict dD, PVal.dict dF].all validDoc = true)
    (hany : anyHasKey [PVal.dict dD, PVal.dict dF] "permissions" = true) :
    dedupePermsValsP (permTypesStepP permsInit
      (allPermItems [PVal.dict (mergePureTop [PVal.dict dD, PVal.dict dF]),
        PVal.dict dF])) =
    dedupePermsValsP (permTypesStepP permsInit
      (allPermItems [PVal.dict dD, PVal.dict dF])) := by
  have hnd₁ : nodupStr
      ((mergePureTop [PVal.dict dD, PVal.dict dF]).map Prod.fst) = true :=
    nodupStr_mergePureTop _
  obtain ⟨hkeys3, hstrs⟩ :=
    allPermItems_valid [PVal.dict dD, PVal.dict dF] hDocs
  have hchar : permTypesStepP permsInit
      (allPermItems [PVal.dict dD, PVal.dict dF]) =
      [("allow", PVal.list (collectP
          (allPermItems [PVal.dict dD, PVal.dict dF]) "allow")),
       ("deny", PVal.list (collectP
          (allPermItems [PVal.dict dD, PVal.dict dF]) "deny")),
       ("ask", PVal.list (collectP
          (allPermItems [PVal.dict dD, PVal.dict dF]) "ask"))] := by
    rw [show permsInit = [("allow", PVal.list []), ("deny", PVal.list []),
      ("ask", PVal.list [])] from rfl,
      permTypesStepP_char _ [] [] [] hkeys3]
    simp
  have hQP : dedupePermsValsP (permTypesStepP permsInit
      (allPermItems [PVal.dict dD, PVal.dict dF])) =
      [("allow", PVal.list (pdedup (collectP
          (allPermItems [PVal.dict dD, PVal.dict dF]) "allow"))),
       ("deny", PVal.list (pdedup (collectP
          (allPermItems [PVal.dict dD, PVal.dict dF]) "deny"))),
       ("ask", PVal.list (pdedup (collectP
          (allPermItems [PVal.dict dD, PVal.dict dF]) "ask")))] := by
    rw [hchar]
    simp [dedupePermsValsP, PVal.asListD, pdedup]
  have hlkT₁ : PVal.lookupKey
      (mergePureTop [PVal.dict dD, PVal.dict dF]) "permissions" =
      some (.dict (dedupePermsValsP (permTypesStepP permsInit
        (allPermItems [PVal.dict dD, PVal.dict dF])))) := by
    rw [lookup_mergePureTop_perms, hany, if_pos rfl]
  have hPIT : permItemsIn (mergePureTop [PVal.dict dD, PVal.dict dF]) =
      dedupePermsValsP (permTypesStepP permsInit
        (allPermItems [PVal.dict dD, PVal.dict dF])) := by
    rw [permItemsIn, filter_key_of_lookup _ "permissions" hnd₁, hlkT₁]
    simp [PVal.asDictD]
  have hsplit : allPermItems
      [PVal.dict (mergePureTop [PVal.dict dD, PVal.dict dF]),
        PVal.dict dF] =
      dedupePermsValsP (permTypesStepP permsInit
        (allPermItems [PVal.dict dD, PVal.dict dF])) ++ permItemsIn dF := by
    rw [allPermItems_pair, hPIT]
  rw [hsplit, permTypesStepP_append, hQP, permTypesStepP_init_id]
  have hF3 : ((permItemsIn dF).all fun kv =>
      kv.1 = "allow" || kv.1 = "deny" || kv.1 = "ask") = true := by
    rw [show allPermItems [PVal.dict dD, PVal.dict dF] =
      permItemsIn dD ++ permItemsIn dF from allPermItems_pair dD dF]
      at hkeys3
    rw [List.all_append, Bool.and_eq_true] at hkeys3
    exact hkeys3.2
  rw [permTypesStepP_char _ _ _ _ hF3]
  simp only [dedupePermsValsP, List.map_cons, List.map_nil, PVal.asListD]
  have habs : ∀ (X Y : List PVal), (∀ y ∈ Y, y ∈ X) →
      (∀ x ∈ X, PVal.hashable x = true) →
      dedupBy (fun x => x) [] (pdedup X ++ Y) = pdedup X := by
    intro X Y hsub hh
    simp only [pdedup]
    rw [dedupBy_absorb]
    apply dedupBy_drop
    intro y hy
    show PVal.pmem ((fun x => x) y) (X.map fun x => x) = true
    rw [show X.map (fun x => x) = X from by simp]
    exact (pmem_iff_mem hh).mpr (hsub y hy)
  have hsubP : ∀ p : String, ∀ y ∈ collectP (permItemsIn dF) p,
      y ∈ collectP (allPermItems [PVal.dict dD, PVal.dict dF]) p := by
    intro p y hy
    rw [allPermItems_pair, collectP_append]
    exact List.mem_append_right _ hy
  have hhashP : ∀ p : String,
      ∀ x ∈ collectP (allPermItems [PVal.dict dD, PVal.dict dF]) p,
      PVal.hashable x = true := by
    intro p x hx
    exact hashable_of_isStr
      (List.all_eq_true.mp (collectP_isStr _ p hstrs) x hx)
  rw [habs _ _ (hsubP "allow") (hhashP "allow"),
    habs _ _ (hsubP "deny") (hhashP "deny"),
    habs _ _ (hsubP "ask") (hhashP "ask")]

/-- Re-merging the merged document with the same fragment reproduces the
merged document. -/
theorem mergePureTop_idem (D F : PVal)
    (hD : validDoc D = true) (hF : validDoc F = true) :
    mergePureTop [PVal.dict (mergePureTop [D, F]), F] =
      mergePureTop [D, F] := by
  obtain ⟨dD, rfl, -, -⟩ := validDoc_inv hD
  obtain ⟨dF, rfl, -, -⟩ := validDoc_inv hF
  have hDocs : [PVal.dict dD, PVal.dict dF].all validDoc = true := by
    simp only [List.all_cons, List.all_nil, Bool.and_true, Bool.and_eq_true]
    exact ⟨hD, hF⟩
  have hnd₁ : nodupStr
      ((mergePureTop [PVal.dict dD, PVal.dict dF]).map Prod.fst) = true :=
    nodupStr_mergePureTop _
  have hkT₁ : (mergePureTop [PVal.dict dD, PVal.dict dF]).map Prod.fst =
      keyFold (keyFold [] dD) dF := by
    rw [keys_mergePureTop, keys_mergeFoldP]
    rfl
  have hkeys : (mergePureTop
      [PVal.dict (mergePureTop [PVal.dict dD, PVal.dict dF]),
        PVal.dict dF]).map Prod.fst =
      (mergePureTop [PVal.dict dD, PVal.dict dF]).map Prod.fst := by
    rw [keys_mergePureTop, keys_mergeFoldP]
    show keyFold (keyFold []
      (mergePureTop [PVal.dict dD, PVal.dict dF])) dF =
      (mergePureTop [PVal.dict dD, PVal.dict dF]).map Prod.fst
    rw [keyFold_fresh _ [] (fun kv _ => List.not_mem_nil _) hnd₁,
      List.nil_append]
    apply keyFold_id_of
    intro kv hkv
    rw [hkT₁]
    exact keyFold_mem_of dF _ kv hkv
  refine (PVal.assoc_ext _ _ hnd₁ hkeys.symm ?_).symm
  intro k
  by_cases hk1 : k = "hooks"
  · subst hk1
    rw [lookup_mergePureTop_hooks, lookup_mergePureTop_hooks]
    have hpres : anyHasKey
        [PVal.dict (mergePureTop [PVal.dict dD, PVal.dict dF]),
          PVal.dict dF] "hooks" =
        anyHasKey [PVal.dict dD, PVal.dict dF] "hooks" := by
      rw [anyHasKey_pair, hasKeyL_mergePureTop_hooks, anyHasKey_pair]
      cases PVal.hasKeyL dD "hooks" <;>
        cases PVal.hasKeyL dF "hooks" <;> rfl
    rw [hpres]
    cases hany : anyHasKey [PVal.dict dD, PVal.dict dF] "hooks" with
    | false => rfl
    | true =>
        rw [if_pos rfl, if_pos rfl, hooks_regroup_idem dD dF hDocs hany]
  · by_cases hk2 : k = "permissions"
    · subst hk2
      rw [lookup_mergePureTop_perms, lookup_mergePureTop_perms]
      have hpres : anyHasKey
          [PVal.dict (mergePureTop [PVal.dict dD, PVal.dict dF]),
            PVal.dict dF] "permissions" =
          anyHasKey [PVal.dict dD, PVal.dict dF] "permissions" := by
        rw [anyHasKey_pair, hasKeyL_mergePureTop_perms, anyHasKey_pair]
        cases PVal.hasKeyL dD "permissions" <;>
          cases PVal.hasKeyL dF "permissions" <;> rfl
      rw [hpres]
      cases hany : anyHasKey [PVal.dict dD, PVal.dict dF]
          "permissions" with
      | false => rfl
      | true =>
          rw [if_pos rfl, if_pos rfl, perms_dedupe_idem dD dF hDocs hany]
    · rw [lookup_mergePureTop_other _ k hk1 hk2,
        lookup_mergePureTop_other _ k hk1 hk2,
        lastValueOf_idem dD dF k hk1 hk2]

/-- C1: the merge is idempotent with respect to re-applying a fragment.  For
structurally valid `D` and `F`, `Merge([D, F])` succeeds with the pure merge
result, and merging that result with `F` again returns it unchanged:
`Merge([Merge([D, F]), F]) = Merge([D, F])` — no hook command or permission
string is duplicated by the second application. -/
theorem merge_idempotent (D F : PVal)
    (hD : validDoc D = true) (hF : validDoc F = true) :
    merge_settings [D, F] = .ok (mergePure [D, F]) ∧
    merge_settings [mergePure [D, F], F] = .ok (mergePure [D, F]) := by
  have hDocs : [D, F].all validDoc = true := by
    simp only [List.all_cons, List.all_nil, Bool.and_true, Bool.and_eq_true]
    exact ⟨hD, hF⟩
  have h1 := merge_settings_refines [D, F] hDocs
  have hMv : validDoc (mergePure [D, F]) = true :=
    validDoc_mergePure [D, F] hDocs
  have hDocs2 : [mergePure [D, F], F].all validDoc = true := by
    simp only [List.all_cons, List.all_nil, Bool.and_true, Bool.and_eq_true]
    exact ⟨hMv, hF⟩
  refine ⟨h1, ?_⟩
  rw [merge_settings_refines [mergePure [D, F], F] hDocs2]
  simp only [mergePure]
  rw [mergePureTop_idem D F hD hF]

/-- Witness for C1 at a concrete input. -/
theorem merge_idempotent_witness :
    (validDoc exEmpty = true ∧
     validDoc (exHookFrag "run-a" "A") = true) ∧
    merge_settings [mergePure [exEmpty, exHookFrag "run-a" "A"],
        exHookFrag "run-a" "A"] =
      .ok (mergePure [exEmpty, exHookFrag "run-a" "A"]) :=
  ⟨⟨rfl, rfl⟩,
    (merge_idempotent exEmpty (exHookFrag "run-a" "A") rfl rfl).2⟩

